import Mathlib

/-!
# Verification of a list-scheduling instruction simulator

Shallow embedding of `list_scheduling.py`: an instruction record with
mutable scheduling state, three functional-unit pools, a hazard dependency
graph builder, two priority heuristics, and a cycle-by-cycle dispatch loop.

Python objects are modelled by an arena (`List Instr`) indexed by a stable
integer id; object identity (`is`) becomes id equality.  Python's unbounded
integers become `Nat`/`Int`.  The unbounded `while` loops (Bellman-Ford
relaxation, the scheduling loop) take an explicit fuel parameter.
-/

set_option maxRecDepth 100000
set_option maxHeartbeats 1000000

namespace ListScheduling

/-- types of operation (`class Ops(int, Enum)`). -/
inductive Ops where
  | ADD
  | MUL
  | FADD
  | FMUL
  | LW
  | SW
deriving DecidableEq, Repr, Inhabited

/-- clocks necessary for each operation unit (`@dataclass Clocks`). -/
def Clocks.ALU : Nat := 1

def Clocks.FPU : Nat := 5

def Clocks.MEMORY : Nat := 2

/-- state of instruction (`class Status(int, Enum)`). -/
inductive Status where
  | NOT_STARTED
  | RUNNING
  | DONE
deriving DecidableEq, Repr

/-- instruction class (`class Instr`).  The dependency lists hold arena ids
of other instructions (Python holds object references). -/
structure Instr where
  n : Nat
  name : String
  opecode : Ops
  left : List String
  right : List String
  dependent_list : List Nat := []
  next_list : List Nat := []
  priority : Option Int := none
  t_start : Option Nat := none
  t_end : Option Nat := none
deriving DecidableEq, Repr, Inhabited

/-- `Instr.get_status`: status derived from the two timestamps. -/
def Instr.get_status (i : Instr) : Status :=
  match i.t_end with
  | none =>
    match i.t_start with
    | none => Status.NOT_STARTED
    | some _ => Status.RUNNING
  | some _ => Status.DONE

/-- `Instr.update(t, clocks)`: set the end cycle when the latency elapses. -/
def Instr.update (i : Instr) (t : Nat) (clocks : Nat) : Instr :=
  match i.t_start with
  | none => i
  | some s => if t = s + clocks - 1 then { i with t_end := some t } else i

/-- Operation unit class (`class OpUnits`).  `n_busy` is a Python int and
may in principle be decremented below zero, hence `Int`. -/
structure OpUnits where
  n : Nat
  unit_list : List (Nat × Bool)
  clocks : Nat
  n_busy : Int
  next : Nat
deriving DecidableEq, Repr, Inhabited

/-- `OpUnits.__init__`. -/
def OpUnits.init (n : Nat) (clocks : Nat) : OpUnits :=
  { n := n
    unit_list := List.replicate n (0, false)
    clocks := clocks
    n_busy := 0
    next := 0 }

/-- `OpUnits.is_full`: return all machines are busy or not. -/
def OpUnits.is_full (u : OpUnits) : Bool :=
  (u.n : Int) == u.n_busy

/-- The search loop of `OpUnits.allocate`: `for i in range(1, self.n)`,
stopping at the first machine whose busy flag is off.  The `getD` default
has a `true` flag so that an (unreachable) out-of-range index is never
selected. -/
def OpUnits.findNext (u : OpUnits) (allocated : Nat) : Option Nat :=
  ((List.range' 1 (u.n - 1)).find?
      (fun i => !(u.unit_list.getD ((allocated + i) % u.n) (0, true)).2)).map
    (fun i => (allocated + i) % u.n)

/-- `OpUnits.allocate(t)`: allocate machine `next`, then scan forward
cyclically for the next machine with a clear busy flag. -/
def OpUnits.allocate (u : OpUnits) (t : Nat) : OpUnits × Nat :=
  let allocated := u.next
  let u' : OpUnits := { u with unit_list := u.unit_list.set allocated (t, true)
                               n_busy := u.n_busy + 1 }
  let u'' : OpUnits :=
    if u'.n_busy < (u'.n : Int) then
      match u'.findNext allocated with
      | some k => { u' with next := k }
      | none => u'
    else u'
  (u'', allocated)

/-- Loop body of `OpUnits.update`: the Python source is
`if unit[1]: if t == unit[0] + self.clocks - 1: unit = (unit[0], False);
self.n_busy -= 1`.  The assignment `unit = (unit[0], False)` rebinds the
loop variable and never writes back into `unit_list`, so only `n_busy`
changes. -/
def OpUnits.updateStep (t : Nat) (acc : OpUnits) (unit : Nat × Bool) : OpUnits :=
  if unit.2 = true then
    if t = unit.1 + acc.clocks - 1 then
      { acc with n_busy := acc.n_busy - 1 }
    else acc
  else acc

/-- `OpUnits.update(t)`: `for unit in self.unit_list: ...`. -/
def OpUnits.update (u : OpUnits) (t : Nat) : OpUnits :=
  u.unit_list.foldl (OpUnits.updateStep t) u

/-!
## The `heapq` fragment used by the scheduler

`hq.heappush` appends the item and then sifts it down toward the root,
comparing with `Instr.__lt__`, which compares the `priority` fields.
-/

/-- `heapq._siftdown(heap, startpos, pos)` specialised to the use in
`heappush`: `newitem` is the element sitting at `pos`.  The first `Nat` is
structural fuel; `pos` strictly decreases on each iteration, so any fuel
above the initial `pos` reproduces the Python loop exactly. -/
def siftdownAux (lt : Nat → Nat → Bool) :
    Nat → List Nat → Nat → Nat → Nat → List Nat
  | 0, heap, newitem, _, pos => heap.set pos newitem
  | fuel + 1, heap, newitem, startpos, pos =>
    if startpos < pos then
      let parentpos := (pos - 1) / 2
      let parent := heap.getD parentpos 0
      if lt newitem parent then
        siftdownAux lt fuel (heap.set pos parent) newitem startpos parentpos
      else heap.set pos newitem
    else heap.set pos newitem

/-- `hq.heappush(heap, item)`. -/
def heappush (lt : Nat → Nat → Bool) (heap : List Nat) (item : Nat) :
    List Nat :=
  let h2 := heap ++ [item]
  siftdownAux lt h2.length h2 item 0 (h2.length - 1)

/-!
## Scheduler state

The `Scheduler` object: three pools, the instruction arena, and the three
id lists (`instr_wait_list`, `instr_dispatched_list`, `ready_set`).
-/

inductive PoolTag where
  | alu
  | fpu
  | memory
deriving DecidableEq, Repr

structure SchedState where
  alu : OpUnits
  fpu : OpUnits
  memory : OpUnits
  arena : List Instr
  instr_wait_list : List Nat
  instr_dispatched_list : List Nat
  ready_set : List Nat
  priority_type : String
deriving DecidableEq, Repr, Inhabited

/-- Default instruction returned for an (unreachable) out-of-range arena
access. -/
def dummyInstr : Instr :=
  { n := 0, name := "", opecode := Ops.ADD, left := [], right := [] }

def SchedState.instrAt (s : SchedState) (id : Nat) : Instr :=
  s.arena.getD id dummyInstr

def SchedState.setInstr (s : SchedState) (id : Nat) (v : Instr) : SchedState :=
  { s with arena := s.arena.set id v }

/-- `Scheduler._get_op_unit`: which pool serves an operation kind. -/
def poolTagOf : Ops → PoolTag
  | Ops.ADD => PoolTag.alu
  | Ops.MUL => PoolTag.alu
  | Ops.FADD => PoolTag.fpu
  | Ops.FMUL => PoolTag.fpu
  | Ops.LW => PoolTag.memory
  | Ops.SW => PoolTag.memory

def SchedState.getPool (s : SchedState) : PoolTag → OpUnits
  | PoolTag.alu => s.alu
  | PoolTag.fpu => s.fpu
  | PoolTag.memory => s.memory

def SchedState.setPool (s : SchedState) : PoolTag → OpUnits → SchedState
  | PoolTag.alu, u => { s with alu := u }
  | PoolTag.fpu, u => { s with fpu := u }
  | PoolTag.memory, u => { s with memory := u }

/-- Clocks of the pool serving an operation
(`self._get_op_unit(instr).clocks`). -/
def SchedState.clkOfOp (s : SchedState) (op : Ops) : Nat :=
  (s.getPool (poolTagOf op)).clocks

/-!
## Dependency graph builder (`Scheduler._set_dependency`)
-/

/-- Append one hazard edge: `wait[i].dependent_list.append(wait[j])` and
`wait[j].next_list.append(wait[i])`. -/
def addDep (s : SchedState) (di dj : Nat) : SchedState :=
  let s1 := s.setInstr di
    { s.instrAt di with dependent_list := (s.instrAt di).dependent_list ++ [dj] }
  s1.setInstr dj
    { s1.instrAt dj with next_list := (s1.instrAt dj).next_list ++ [di] }

/-- RAW scan body: `for operand in wait[i].right: if operand in
wait[j].left: ...`. -/
def depRawStep (di dj : Nat) (acc : SchedState) (operand : String) : SchedState :=
  if operand ∈ (acc.instrAt dj).left then addDep acc di dj else acc

/-- WAW/WAR scan body: `for operand in wait[i].left: if operand in
wait[j].left: ...; if operand in wait[j].right: ...`. -/
def depWawWarStep (di dj : Nat) (acc : SchedState) (operand : String) : SchedState :=
  let acc1 := if operand ∈ (acc.instrAt dj).left then addDep acc di dj else acc
  if operand ∈ (acc1.instrAt dj).right then addDep acc1 di dj else acc1

/-- The body for one ordered pair: the RAW scan over `wait[i].right`, then
the WAW/WAR scans over `wait[i].left`. -/
def depPairStep (s : SchedState) (di dj : Nat) : SchedState :=
  let s1 := (s.instrAt di).right.foldl (depRawStep di dj) s
  (s1.instrAt di).left.foldl (depWawWarStep di dj) s1

/-- `Scheduler._set_dependency`: `for i in range(len(wait)): for j in
range(0, i): ...`. -/
def setDependency (s : SchedState) : SchedState :=
  (List.range s.instr_wait_list.length).foldl
    (fun acc i =>
      (List.range i).foldl
        (fun acc2 j =>
          depPairStep acc2 (acc2.instr_wait_list.getD i 0)
            (acc2.instr_wait_list.getD j 0))
        acc)
    s

/-!
## Priority assigner
-/

/-- The integer value of a priority field.  Priorities are initialised for
every instruction before the first comparison, so the `getD 0` default is
never consulted on the real control flow. -/
def SchedState.priVal (s : SchedState) (id : Nat) : Int :=
  (s.instrAt id).priority.getD 0

/-- Body of the initialisation loop of `_find_critical_path`:
`instr.priority = -self._get_op_unit(instr).clocks`. -/
def critInitStep (acc : SchedState) (id : Nat) : SchedState :=
  acc.setInstr id
    { acc.instrAt id with
      priority := some (-(acc.clkOfOp (acc.instrAt id).opecode : Int)) }

def findCriticalPathInit (s : SchedState) : SchedState :=
  s.instr_wait_list.foldl critInitStep s

/-- Inner relaxation step of `_find_critical_path`: relax `instr` (`id`)
against one successor (`nid`); the edge weight is the clocks of the
preceding instruction. -/
def critRelaxStep (id : Nat) (q : SchedState × Bool) (nid : Nat) :
    SchedState × Bool :=
  let acc := q.1
  let w : Int := (acc.clkOfOp (acc.instrAt id).opecode : Int)
  if acc.priVal id > acc.priVal nid - w then
    (acc.setInstr id { acc.instrAt id with priority := some (acc.priVal nid - w) },
     true)
  else q

/-- One relaxation pass of `_find_critical_path`; returns the updated state
and the `updated` flag. -/
def findCriticalPathPass (s : SchedState) : SchedState × Bool :=
  s.instr_wait_list.foldl
    (fun p id => (p.1.instrAt id).next_list.foldl (critRelaxStep id) p)
    (s, false)

/-- Body of the initialisation loop of `_count_dependency`:
`instr.priority = -1`. -/
def countInitStep (acc : SchedState) (id : Nat) : SchedState :=
  acc.setInstr id { acc.instrAt id with priority := some (-1) }

def countDependencyInit (s : SchedState) : SchedState :=
  s.instr_wait_list.foldl countInitStep s

/-- Inner relaxation step of `_count_dependency`. -/
def countRelaxStep (id : Nat) (q : SchedState × Bool) (did : Nat) :
    SchedState × Bool :=
  let acc := q.1
  if acc.priVal id > acc.priVal did - 1 then
    (acc.setInstr id { acc.instrAt id with priority := some (acc.priVal did - 1) },
     true)
  else q

/-- One relaxation pass of `_count_dependency`. -/
def countDependencyPass (s : SchedState) : SchedState × Bool :=
  s.instr_wait_list.foldl
    (fun p id => (p.1.instrAt id).dependent_list.foldl (countRelaxStep id) p)
    (s, false)

/-- The `while True: ... if not updated: break` relaxation loop, with fuel.
With enough fuel this reaches the same fixpoint as the Python loop. -/
def bfLoop (passFn : SchedState → SchedState × Bool) :
    Nat → SchedState → SchedState
  | 0, s => s
  | fuel + 1, s =>
    let r := passFn s
    if r.2 then bfLoop passFn fuel r.1 else r.1

/-- `Scheduler._set_priority`.  The Python `match` has no wildcard case, so
an unknown name (unreachable past the constructor) does nothing. -/
def setPriority (fuel : Nat) (s : SchedState) : SchedState :=
  if s.priority_type = "time" then bfLoop findCriticalPathPass fuel (findCriticalPathInit s)
  else if s.priority_type = "resource" then bfLoop countDependencyPass fuel (countDependencyInit s)
  else s

/-!
## Dispatch simulator
-/

/-- The ready test of `_update_ready_set`: all instructions in
`dependent_list` have status `DONE`. -/
def depsDone (s : SchedState) (id : Nat) : Bool :=
  (s.instrAt id).dependent_list.all
    (fun d => (s.instrAt d).get_status == Status.DONE)

/-- `Instr.__lt__` on arena ids: compare the priority fields. -/
def readyLt (s : SchedState) (a b : Nat) : Bool :=
  s.priVal a < s.priVal b

/-- `Scheduler._update_ready_set`: one scan over the wait list pushing every
ready instruction onto the heap, then deletion of the moved instructions
from the wait list (first `is`-match, i.e. `List.erase` on ids). -/
def updateReadySet (s : SchedState) : SchedState :=
  let moved := s.instr_wait_list.filter (fun id => depsDone s id)
  let ready' := moved.foldl (heappush (readyLt s)) s.ready_set
  let wait' := moved.foldl List.erase s.instr_wait_list
  { s with ready_set := ready', instr_wait_list := wait' }

/-- The dispatch loop of `_dispatch`: iterate `ready_set` in its list order
(the comment in the source claims this is priority order), skipping
instructions whose pool is full, otherwise recording the start cycle and
allocating a machine.  Returns the state and `dispatched_list`. -/
def dispatchStep (t : Nat) (acc : SchedState × List Nat) (id : Nat) :
    SchedState × List Nat :=
  let st := acc.1
  let p := poolTagOf (st.instrAt id).opecode
  if (st.getPool p).is_full then acc
  else
    let st1 := st.setInstr id { st.instrAt id with t_start := some t }
    let u' := ((st1.getPool p).allocate t).1
    (st1.setPool p u', acc.2 ++ [id])

def dispatchPass (s : SchedState) (t : Nat) : SchedState × List Nat :=
  s.ready_set.foldl (dispatchStep t) (s, [])

/-- Body of the latency-constraint loop of `_dispatch`:
`instr.update(t, self._get_op_unit(instr).clocks)`. -/
def latencyStep (t : Nat) (st : SchedState) (id : Nat) : SchedState :=
  st.setInstr id ((st.instrAt id).update t (st.clkOfOp (st.instrAt id).opecode))

/-- `Scheduler._dispatch(t)`: dispatch pass, removal of the dispatched
instructions from `ready_set` plus appending them to
`instr_dispatched_list`, the latency update on every dispatched
instruction, the three pool updates, then the ready-set refresh. -/
def dispatchCycle (s : SchedState) (t : Nat) : SchedState × List Nat :=
  let r := dispatchPass s t
  let s1 := r.1
  let batch := r.2
  let s2 :=
    if batch.length > 0 then
      { s1 with ready_set := batch.foldl List.erase s1.ready_set
                instr_dispatched_list := s1.instr_dispatched_list ++ batch }
    else s1
  let s3 := s2.instr_dispatched_list.foldl (latencyStep t) s2
  let s4 := { s3 with alu := s3.alu.update t
                      fpu := s3.fpu.update t
                      memory := s3.memory.update t }
  (updateReadySet s4, batch)

/-- The simulation loop of `Scheduler.schedule`, with fuel; collects the
dispatch trace (the cycles with a non-empty dispatched list, which the
Python code prints). -/
def schedLoop : Nat → SchedState → Nat → SchedState × List (Nat × List Nat)
  | 0, s, _ => (s, [])
  | fuel + 1, s, t =>
    if (s.instr_wait_list ++ s.ready_set).length > 0 then
      let r := dispatchCycle s t
      let rest := schedLoop fuel r.1 (t + 1)
      (rest.1, (if r.2.length > 0 then [(t, r.2)] else []) ++ rest.2)
    else (s, [])

/-- `Scheduler.schedule`: build the dependency graph, assign priorities,
build the initial ready set, then run the loop from `t = 0`. -/
def schedule (bfFuel loopFuel : Nat) (s : SchedState) :
    SchedState × List (Nat × List Nat) :=
  let s1 := setDependency s
  let s2 := setPriority bfFuel s1
  let s3 := updateReadySet s2
  schedLoop loopFuel s3 0

/-!
## Construction (`Scheduler.__init__` and the instruction list of `main`)
-/

/-- The parsed form of one instruction as handed to the core:
`(label, op_kind, writes, reads)`. -/
structure RawInstr where
  name : String
  opecode : Ops
  left : List String
  right : List String
deriving DecidableEq, Repr

/-- Build the arena from parsed input: `Instr(i + 1, line, opecode, left,
right)` — the sequence index `n` is 1-based input order. -/
def mkArena (raw : List RawInstr) : List Instr :=
  (List.range raw.length).map
    (fun i =>
      let r := raw.getD i ⟨"", Ops.ADD, [], []⟩
      { n := i + 1, name := r.name, opecode := r.opecode,
        left := r.left, right := r.right })

/-- The field assignments of `Scheduler.__init__`: pools from the unit
counts and the `Clocks` configuration, the wait list holding the whole
input, empty dispatched list and ready set. -/
def initState (n_alu n_fpu n_memory : Nat) (priority_type : String)
    (arena : List Instr) : SchedState :=
  { alu := OpUnits.init n_alu Clocks.ALU
    fpu := OpUnits.init n_fpu Clocks.FPU
    memory := OpUnits.init n_memory Clocks.MEMORY
    arena := arena
    instr_wait_list := List.range arena.length
    instr_dispatched_list := []
    ready_set := []
    priority_type := priority_type }

/-- `Scheduler.__init__`: the field assignments plus the fail-fast
validation of the priority-heuristic name. -/
def mkScheduler (n_alu n_fpu n_memory : Nat) (priority_type : String)
    (arena : List Instr) : Except String SchedState :=
  if priority_type = "time" ∨ priority_type = "resource" then
    Except.ok (initState n_alu n_fpu n_memory priority_type arena)
  else Except.error "Invalid priority type specified"

/-- The whole pipeline from parsed input, as `main` runs it. -/
def scheduleRun (bfFuel loopFuel : Nat) (n_alu n_fpu n_memory : Nat)
    (priority_type : String) (raw : List RawInstr) :
    Except String (SchedState × List (Nat × List Nat)) :=
  (mkScheduler n_alu n_fpu n_memory priority_type (mkArena raw)).map
    (schedule bfFuel loopFuel)

/-!
## Spec-side predicates and observation functions

These are the vocabulary in which the claims are stated: hazard conditions
between two arena positions, and counting of busy machines.
-/

def instrOf (A : List Instr) (i : Nat) : Instr := A.getD i dummyInstr

/-- An operand read by the later instruction `i` is written by the earlier
instruction `j`. -/
def hazardRAW (A : List Instr) (j i : Nat) : Prop :=
  ∃ op, op ∈ (instrOf A i).right ∧ op ∈ (instrOf A j).left

/-- An operand written by the later instruction `i` is also written by the
earlier instruction `j`. -/
def hazardWAW (A : List Instr) (j i : Nat) : Prop :=
  ∃ op, op ∈ (instrOf A i).left ∧ op ∈ (instrOf A j).left

/-- An operand written by the later instruction `i` is read by the earlier
instruction `j`. -/
def hazardWAR (A : List Instr) (j i : Nat) : Prop :=
  ∃ op, op ∈ (instrOf A i).left ∧ op ∈ (instrOf A j).right

/-- Some hazard condition holds between earlier `j` and later `i`. -/
def hazard (A : List Instr) (j i : Nat) : Prop :=
  hazardRAW A j i ∨ hazardWAW A j i ∨ hazardWAR A j i

instance (A : List Instr) (j i : Nat) : Decidable (hazardRAW A j i) :=
  inferInstanceAs (Decidable (∃ op ∈ (instrOf A i).right, op ∈ (instrOf A j).left))

instance (A : List Instr) (j i : Nat) : Decidable (hazardWAW A j i) :=
  inferInstanceAs (Decidable (∃ op ∈ (instrOf A i).left, op ∈ (instrOf A j).left))

instance (A : List Instr) (j i : Nat) : Decidable (hazardWAR A j i) :=
  inferInstanceAs (Decidable (∃ op ∈ (instrOf A i).left, op ∈ (instrOf A j).right))

instance (A : List Instr) (j i : Nat) : Decidable (hazard A j i) :=
  inferInstanceAs (Decidable (hazardRAW A j i ∨ hazardWAW A j i ∨ hazardWAR A j i))

/-- Is the id list in weakly ascending priority order under state `s`?
(The order the spec asserts for dispatch consideration and emission.) -/
def priSorted (s : SchedState) : List Nat → Bool
  | [] => true
  | [_] => true
  | a :: b :: rest => decide (s.priVal a ≤ s.priVal b) && priSorted s (b :: rest)

/-- Every field of an instruction except the two edge lists.  The graph
builder only appends to the edge lists, so this tuple is stable under it. -/
def coreOf (x : Instr) :
    Nat × String × Ops × List String × List String ×
      Option Int × Option Nat × Option Nat :=
  (x.n, x.name, x.opecode, x.left, x.right, x.priority, x.t_start, x.t_end)

/-- `r` extends `base` exactly by the dependency edges described by `E`:
`E i j` says the pair "`j` is a new predecessor of `i`" was recorded, i.e.
`j` was appended to `i`'s `dependent_list` and `i` to `j`'s `next_list`.
Everything else (all non-arena fields, and every instruction field other
than the two edge lists) is unchanged. -/
def GraphExtends (base r : SchedState) (E : Nat → Nat → Prop) : Prop :=
  r.arena.length = base.arena.length ∧
  r.instr_wait_list = base.instr_wait_list ∧
  r.instr_dispatched_list = base.instr_dispatched_list ∧
  r.ready_set = base.ready_set ∧
  r.alu = base.alu ∧ r.fpu = base.fpu ∧ r.memory = base.memory ∧
  r.priority_type = base.priority_type ∧
  (∀ a, coreOf (r.instrAt a) = coreOf (base.instrAt a)) ∧
  (∀ a x, x ∈ (r.instrAt a).dependent_list ↔
    (x ∈ (base.instrAt a).dependent_list ∨ E a x)) ∧
  (∀ a x, x ∈ (r.instrAt a).next_list ↔
    (x ∈ (base.instrAt a).next_list ∨ E x a))

/-- Is the instruction executing at simulated cycle `t` (dispatched, and
`t_start ≤ t ≤ t_start + clk - 1`)? -/
def Instr.busyAt (i : Instr) (clk t : Nat) : Bool :=
  match i.t_start with
  | some s => s ≤ t && t ≤ s + clk - 1
  | none => false

/-- Is the instruction still running at cycle `t` or later
(`t ≤ t_start + clk - 1`), ignoring the lower bound?  Used by the resource
invariant; starts are always in the past, so this dominates `busyAt`. -/
def Instr.liveAt (i : Instr) (clk t : Nat) : Bool :=
  match i.t_start with
  | some s => t ≤ s + clk - 1
  | none => false

/-- Number of instructions of pool `p`, among the ids `l`, executing at
cycle `t` (start ≤ t ≤ start + latency - 1). -/
def busyCount (s : SchedState) (l : List Nat) (p : PoolTag) (t : Nat) : Nat :=
  (l.filter (fun id =>
    decide (poolTagOf (s.instrAt id).opecode = p) &&
      (s.instrAt id).busyAt (s.getPool p).clocks t)).length

/-- Number of instructions of pool `p`, among the ids `l`, with
`t ≤ start + latency - 1`. -/
def liveCount (s : SchedState) (l : List Nat) (p : PoolTag) (t : Nat) : Nat :=
  (l.filter (fun id =>
    decide (poolTagOf (s.instrAt id).opecode = p) &&
      (s.instrAt id).liveAt (s.getPool p).clocks t)).length

/-- Number of machine records of the pool with busy flag on and recorded
start time `s0`. -/
def entryCount (u : OpUnits) (s0 : Nat) : Nat :=
  (u.unit_list.filter (fun e => e.2 && decide (e.1 = s0))).length

/-- Number of instructions of pool `p`, among the ids `l`, whose start
cycle is exactly `s0`. -/
def startCount (s : SchedState) (l : List Nat) (p : PoolTag) (s0 : Nat) : Nat :=
  (l.filter (fun id =>
    decide (poolTagOf (s.instrAt id).opecode = p) &&
      decide ((s.instrAt id).t_start = some s0))).length

/-- Number of instructions of pool `p`, among the ids `l`, whose last busy
cycle (`start + latency - 1`) is exactly `t`. -/
def endCount (s : SchedState) (l : List Nat) (p : PoolTag) (t : Nat) : Nat :=
  (l.filter (fun id =>
    decide (poolTagOf (s.instrAt id).opecode = p) &&
      (match (s.instrAt id).t_start with
       | some s0 => decide (s0 + (s.getPool p).clocks - 1 = t)
       | none => false))).length

/-!
## The simulation-loop invariant

`Inv t s` collects everything that holds at the start of cycle `t` of the
dispatch loop.  The resource components encode why capacity is never
exceeded even though `OpUnits.update` never clears busy flags: `n_busy`
over-approximates the number of really-running instructions (`liv`),
because the busy machine records with a given start cycle never outnumber
the instructions dispatched at that cycle (`ent`) and each record fires its
decrement exactly at the cycle its instruction completes.
-/

structure Inv (t : Nat) (s : SchedState) : Prop where
  clkA : s.alu.clocks = Clocks.ALU
  clkF : s.fpu.clocks = Clocks.FPU
  clkM : s.memory.clocks = Clocks.MEMORY
  ndW : s.instr_wait_list.Nodup
  ndR : s.ready_set.Nodup
  ndD : s.instr_dispatched_list.Nodup
  dWR : ∀ id ∈ s.instr_wait_list, id ∉ s.ready_set
  dWD : ∀ id ∈ s.instr_wait_list, id ∉ s.instr_dispatched_list
  dRD : ∀ id ∈ s.ready_set, id ∉ s.instr_dispatched_list
  bndW : ∀ id ∈ s.instr_wait_list, id < s.arena.length
  bndR : ∀ id ∈ s.ready_set, id < s.arena.length
  bndD : ∀ id ∈ s.instr_dispatched_list, id < s.arena.length
  unW : ∀ id ∈ s.instr_wait_list,
    (s.instrAt id).t_start = none ∧ (s.instrAt id).t_end = none
  unR : ∀ id ∈ s.ready_set,
    (s.instrAt id).t_start = none ∧ (s.instrAt id).t_end = none
  stD : ∀ id ∈ s.instr_dispatched_list,
    ∃ st, (s.instrAt id).t_start = some st ∧ st < t
  endC : ∀ id e, (s.instrAt id).t_end = some e →
    ∃ st, (s.instrAt id).t_start = some st ∧
      e = st + s.clkOfOp (s.instrAt id).opecode - 1
  endLt : ∀ id e, (s.instrAt id).t_end = some e → e < t
  rdyD : ∀ id ∈ s.ready_set, ∀ d ∈ (s.instrAt id).dependent_list,
    ∃ e, (s.instrAt d).t_end = some e ∧ e < t
  dspD : ∀ id ∈ s.instr_dispatched_list, ∀ d ∈ (s.instrAt id).dependent_list,
    ∃ e st, (s.instrAt d).t_end = some e ∧
      (s.instrAt id).t_start = some st ∧ e < st
  part : ∀ id, id < s.arena.length →
    id ∈ s.instr_wait_list ∨ id ∈ s.ready_set ∨ id ∈ s.instr_dispatched_list
  nb : ∀ p : PoolTag, (s.getPool p).n_busy ≤ ((s.getPool p).n : Int)
  ent : ∀ (p : PoolTag) (s0 : Nat),
    entryCount (s.getPool p) s0 ≤ startCount s s.instr_dispatched_list p s0
  liv : ∀ p : PoolTag,
    (liveCount s s.instr_dispatched_list p t : Int) ≤ (s.getPool p).n_busy
  hist : ∀ (p : PoolTag) (t0 : Nat), t0 < t →
    busyCount s s.instr_dispatched_list p t0 ≤ (s.getPool p).n

/-- Intermediate invariant of the dispatch pass at cycle `t`: `base` is the
state at pass entry, `st` the current accumulator state and `b` the batch
dispatched so far. -/
def PassInv (t : Nat) (base st : SchedState) (b : List Nat) : Prop :=
  st.instr_wait_list = base.instr_wait_list ∧
  st.instr_dispatched_list = base.instr_dispatched_list ∧
  st.ready_set = base.ready_set ∧
  st.priority_type = base.priority_type ∧
  st.arena.length = base.arena.length ∧
  (∀ p : PoolTag, (st.getPool p).clocks = (base.getPool p).clocks) ∧
  (∀ p : PoolTag, (st.getPool p).n = (base.getPool p).n) ∧
  b.Nodup ∧
  (∀ id ∈ b, id < base.arena.length) ∧
  (∀ id ∈ b, st.instrAt id = { base.instrAt id with t_start := some t }) ∧
  (∀ id, id ∉ b → st.instrAt id = base.instrAt id) ∧
  (∀ p : PoolTag, (st.getPool p).n_busy ≤ ((st.getPool p).n : Int)) ∧
  (∀ (p : PoolTag) (s0 : Nat), entryCount (st.getPool p) s0 ≤
    startCount st (base.instr_dispatched_list ++ b) p s0) ∧
  (∀ p : PoolTag, (liveCount st (base.instr_dispatched_list ++ b) p t : Int) ≤
    (st.getPool p).n_busy)

/-- The last cycle (plus one) at which a busy machine record of the pool
can fire its `n_busy` decrement: the maximum of `start + clocks` over the
busy records. -/
def poolDeadline (u : OpUnits) : Nat :=
  u.unit_list.foldr (fun e m => if e.2 then Nat.max (e.1 + u.clocks) m else m) 0

/-- The last cycle (plus one) at which a currently running instruction
(start cycle set, end cycle not yet set) can finish. -/
def runDeadline (s : SchedState) : Nat :=
  (List.range s.arena.length).foldr
    (fun id m =>
      if ((s.instrAt id).t_start.isSome && (s.instrAt id).t_end.isNone) then
        Nat.max ((s.instrAt id).t_start.getD 0 + s.clkOfOp (s.instrAt id).opecode) m
      else m) 0

/-- The last cycle (plus one) at which anything scheduled in the past can
still make progress on its own; once the current cycle passes this, every
pool record has fired and every runner has finished. -/
def deadline (s : SchedState) : Nat :=
  Nat.max (Nat.max (poolDeadline s.alu) (poolDeadline s.fpu))
    (Nat.max (poolDeadline s.memory) (runDeadline s))

/-- The liveness invariant at the start of cycle `t`, on top of `Inv`:
edges point backward, every waiting instruction really is blocked, no
runner is overdue, a full pool always holds a record that still fires, all
busy records were allocated in the past, and the pools are well-formed
(positive machine count, `unit_list` of length `n`, round-robin index in
range). -/
structure LInv (t : Nat) (s : SchedState) : Prop where
  base : Inv t s
  gdep : ∀ id, ∀ d ∈ (s.instrAt id).dependent_list, d < id
  wblk : ∀ id ∈ s.instr_wait_list, depsDone s id = false
  rnot : ∀ id st0, (s.instrAt id).t_start = some st0 →
    (s.instrAt id).t_end = none →
    t ≤ st0 + s.clkOfOp (s.instrAt id).opecode - 1
  pend : ∀ p : PoolTag, (s.getPool p).n_busy = ((s.getPool p).n : Int) →
    ∃ e ∈ (s.getPool p).unit_list, e.2 = true ∧
      t ≤ e.1 + (s.getPool p).clocks - 1
  bstart : ∀ p : PoolTag, ∀ e ∈ (s.getPool p).unit_list, e.2 = true → e.1 < t
  npos : ∀ p : PoolTag, 1 ≤ (s.getPool p).n
  ulen : ∀ p : PoolTag, (s.getPool p).unit_list.length = (s.getPool p).n
  nextlt : ∀ p : PoolTag, (s.getPool p).next < (s.getPool p).n

/-- Well-formedness of one pool, threaded through the dispatch pass: the
round-robin index in range, `unit_list` of length `n`, and the busy
counter between `0` and `n`. -/
def PoolWF (u : OpUnits) : Prop :=
  u.next < u.n ∧ u.unit_list.length = u.n ∧
  0 ≤ u.n_busy ∧ u.n_busy ≤ (u.n : Int)

/-- `r` differs from `base` at most in the `priority` fields of the arena:
the shape of the priority-assignment passes. -/
def PrioOnly (base r : SchedState) : Prop :=
  r.alu = base.alu ∧ r.fpu = base.fpu ∧ r.memory = base.memory ∧
  r.instr_wait_list = base.instr_wait_list ∧
  r.instr_dispatched_list = base.instr_dispatched_list ∧
  r.ready_set = base.ready_set ∧
  r.priority_type = base.priority_type ∧
  r.arena.length = base.arena.length ∧
  (∀ a, ∃ p, r.instrAt a = { base.instrAt a with priority := p })

/-!
## Concrete inputs used by the counterexample/bug-exhibiting theorems
-/

/-- Six integer adds.  Ids 3, 4, 5 depend (RAW) on ids 1, 3, 2
respectively, giving critical-path priorities `[-1, -3, -2, -2, -1, -1]`;
ids 0, 1, 2 are ready at cycle 0. -/
def c1raw : List RawInstr :=
  [⟨"add a b c", Ops.ADD, ["a"], ["b", "c"]⟩,
   ⟨"add d e f", Ops.ADD, ["d"], ["e", "f"]⟩,
   ⟨"add k l m", Ops.ADD, ["k"], ["l", "m"]⟩,
   ⟨"add g d h", Ops.ADD, ["g"], ["d", "h"]⟩,
   ⟨"add i g j", Ops.ADD, ["i"], ["g", "j"]⟩,
   ⟨"add p k q", Ops.ADD, ["p"], ["k", "q"]⟩]

/-- Final state and dispatch trace of the `c1raw` run with 3 ALUs, on the
critical-path ("time") heuristic. -/
def c1res : SchedState × List (Nat × List Nat) :=
  ((scheduleRun 50 50 3 1 1 "time" c1raw).toOption).getD default

/-- A single floating-point add: dispatched at cycle 0, latency 5, but the
loop exits after cycle 0 because the wait list and ready set are empty. -/
def c2raw : List RawInstr :=
  [⟨"fadd x y z", Ops.FADD, ["x"], ["y", "z"]⟩]

def c2res : SchedState × List (Nat × List Nat) :=
  ((scheduleRun 50 50 2 1 1 "time" c2raw).toOption).getD default

/-- Latency of an operation under the fixed `Clocks` configuration: the
`clocks` value of the pool that serves it. -/
def latencyOf (op : Ops) : Nat :=
  match poolTagOf op with
  | PoolTag.alu => Clocks.ALU
  | PoolTag.fpu => Clocks.FPU
  | PoolTag.memory => Clocks.MEMORY

/-- A single integer add (latency 1): its end cycle is set during its own
dispatch cycle, so the run finishes with `t_end` recorded. -/
def c2wraw : List RawInstr :=
  [⟨"add a b c", Ops.ADD, ["a"], ["b", "c"]⟩]

/-- Two integer adds with a RAW dependency (the second reads `a`, written
by the first): the second is dispatched the cycle after the first ends. -/
def c4wraw : List RawInstr :=
  [⟨"add a b c", Ops.ADD, ["a"], ["b", "c"]⟩,
   ⟨"add d a e", Ops.ADD, ["d"], ["a", "e"]⟩]

/-- Pool of 2 machines with latency 5 (the FPU configuration), driven as
the scheduler would for four instructions arriving at cycles 0, 0, 5, 5:
allocate twice at `t = 0`, release at `t = 4`, allocate twice at `t = 5`. -/
def c6u0 : OpUnits := OpUnits.init 2 5

def c6a1 : OpUnits × Nat := c6u0.allocate 0

def c6a2 : OpUnits × Nat := c6a1.1.allocate 0

def c6u3 : OpUnits := c6a2.1.update 4

def c6a3 : OpUnits × Nat := c6u3.allocate 5

def c6a4 : OpUnits × Nat := c6a3.1.allocate 5

/-!
## Frame behaviour of `OpUnits.update` (claim C10)
-/

theorem updateStep_fields (t : Nat) (acc : OpUnits) (e : Nat × Bool) :
    (OpUnits.updateStep t acc e).unit_list = acc.unit_list ∧
    (OpUnits.updateStep t acc e).n = acc.n ∧
    (OpUnits.updateStep t acc e).clocks = acc.clocks ∧
    (OpUnits.updateStep t acc e).next = acc.next := by
  unfold OpUnits.updateStep
  by_cases h1 : e.2 = true
  · by_cases h2 : t = e.1 + acc.clocks - 1 <;> simp [h1, h2]
  · simp [h1]

theorem update_foldl_fields (t : Nat) (l : List (Nat × Bool)) (acc : OpUnits) :
    (l.foldl (OpUnits.updateStep t) acc).unit_list = acc.unit_list ∧
    (l.foldl (OpUnits.updateStep t) acc).n = acc.n ∧
    (l.foldl (OpUnits.updateStep t) acc).clocks = acc.clocks ∧
    (l.foldl (OpUnits.updateStep t) acc).next = acc.next := by
  induction l generalizing acc with
  | nil => exact ⟨rfl, rfl, rfl, rfl⟩
  | cons e l ih =>
    have hs := updateStep_fields t acc e
    have ht := ih (OpUnits.updateStep t acc e)
    simp only [List.foldl_cons] at *
    exact ⟨hs.1 ▸ ht.1, hs.2.1 ▸ ht.2.1, hs.2.2.1 ▸ ht.2.2.1, hs.2.2.2 ▸ ht.2.2.2⟩

/-- C10: `OpUnits.update(t)` never modifies `unit_list` — every per-machine
record (stored start time and busy flag) is identical after the call — and
it changes at most the `n_busy` counter (machine count, clocks and the
round-robin index are also untouched).  In particular a busy flag set by
`allocate` is never reset by `update`. -/
theorem c10_update_never_modifies_unit_list (u : OpUnits) (t : Nat) :
    (u.update t).unit_list = u.unit_list ∧
    (u.update t).n = u.n ∧
    (u.update t).clocks = u.clocks ∧
    (u.update t).next = u.next := by
  unfold OpUnits.update
  exact update_foldl_fields t u.unit_list u

/-!
## Constructor validation (claim C9)
-/

/-- C9: constructing a `Scheduler` fails exactly when the heuristic name is
neither "time" nor "resource"; on success the returned object holds fresh
pools, the full wait list, empty dispatched list and ready set, and the
untouched instruction arena — no dependency edges, priorities or dispatch
work is performed. -/
theorem c9_ctor_validates_priority_type (nA nF nM : Nat) (pt : String)
    (A : List Instr) :
    ((∃ st, mkScheduler nA nF nM pt A = Except.ok st) ↔
      (pt = "time" ∨ pt = "resource")) ∧
    (∀ st, mkScheduler nA nF nM pt A = Except.ok st →
      st.arena = A ∧ st.instr_wait_list = List.range A.length ∧
      st.instr_dispatched_list = [] ∧ st.ready_set = [] ∧
      st.alu = OpUnits.init nA Clocks.ALU ∧
      st.fpu = OpUnits.init nF Clocks.FPU ∧
      st.memory = OpUnits.init nM Clocks.MEMORY ∧
      st.priority_type = pt) := by
  constructor
  · constructor
    · rintro ⟨st, hst⟩
      by_contra hpt
      unfold mkScheduler at hst
      rw [if_neg hpt] at hst
      simp at hst
    · intro hv
      exact ⟨_, by unfold mkScheduler; rw [if_pos hv]⟩
  · intro st hst
    by_cases hv : pt = "time" ∨ pt = "resource"
    · unfold mkScheduler at hst
      rw [if_pos hv] at hst
      have : initState nA nF nM pt A = st := by
        injection hst
      subst this
      simp [initState]
    · unfold mkScheduler at hst
      rw [if_neg hv] at hst
      simp at hst

theorem c9_ctor_validates_priority_type_witness :
    (∃ st, mkScheduler 2 1 1 "time" ([] : List Instr) = Except.ok st) ∧
    ¬ (∃ st, mkScheduler 2 1 1 "typo" ([] : List Instr) = Except.ok st) := by
  refine ⟨(c9_ctor_validates_priority_type 2 1 1 "time" []).1.mpr (Or.inl rfl), ?_⟩
  intro hx
  rcases (c9_ctor_validates_priority_type 2 1 1 "typo" []).1.mp hx with h | h <;>
    exact absurd h (by decide)

/-!
## The dispatch order bug (claim C1)

`_dispatch` iterates `ready_set` in its underlying list order.  The list is
a binary heap, which is heap-ordered but not sorted, so with three or more
ready instructions the iteration (and hence the emitted per-cycle dispatch
list) can leave priority order.
-/

/-- C1: at cycle 0 of the `c1raw` run the ready heap is `[1, 0, 2]` with
priorities `[-3, -1, -2]`; all three dispatch, and the emitted list has the
priority `-1` instruction before the priority `-2` one — not in priority
order (lowest value first). -/
theorem c1_cycle0_dispatch_not_in_priority_order :
    c1res.2 = [(0, [1, 0, 2]), (1, [3, 5]), (2, [4])] ∧
    ([1, 0, 2] : List Nat).map c1res.1.priVal = [-3, -1, -2] ∧
    priSorted c1res.1 [1, 0, 2] = false := by decide

/-!
## The unset end cycle (claim C2, counterexample part)
-/

/-- C2 counterexample: a single `fadd` (latency 5) is dispatched at cycle 0,
the loop then exits because wait list and ready set are empty, and
`schedule` returns with the instruction's end cycle still unset — so it is
false that every dispatched instruction ends with
`end_cycle = start_cycle + latency - 1` set. -/
theorem c2_single_fadd_end_cycle_never_set :
    c2res.1.instr_dispatched_list = [0] ∧
    (c2res.1.instrAt 0).t_start = some 0 ∧
    (c2res.1.instrAt 0).t_end = none ∧
    c2res.1.instr_wait_list = [] ∧
    c2res.1.ready_set = [] ∧
    ¬ (∀ id ∈ c2res.1.instr_dispatched_list,
        ((c2res.1.instrAt id).t_end).isSome) := by decide

/-!
## The broken round-robin (claim C6)

`OpUnits.update` never clears busy flags (see C10), so the forward scan of
`allocate` sees every previously used machine as busy forever, and `next`
stays pinned instead of advancing to a machine that is actually free.
-/

/-- C6: on a 2-machine latency-5 pool, the first two allocations (cycle 0)
use machines 0 and 1; after the release at cycle 4 (`n_busy` back to 0)
machine 0 is really free, yet both cycle-5 allocations return machine 1
again and `next` stays at 1 — successive allocations reuse one index
rather than spreading round-robin. -/
theorem c6_successive_allocations_reuse_index_one :
    c6a1.2 = 0 ∧ c6a2.2 = 1 ∧
    c6u3.n_busy = 0 ∧ c6u3.unit_list = [(0, true), (0, true)] ∧
    c6a3.2 = 1 ∧ c6a3.1.next = 1 ∧ c6a4.2 = 1 := by decide

/-!
## Arena access lemmas
-/

theorem instrOf_set_self {A : List Instr} {i : Nat} {v : Instr}
    (h : i < A.length) : instrOf (A.set i v) i = v := by
  simp [instrOf, List.getD_eq_getElem?_getD, List.getElem?_set_self h]

theorem instrOf_set_ne {A : List Instr} {i j : Nat} {v : Instr}
    (h : i ≠ j) : instrOf (A.set i v) j = instrOf A j := by
  simp [instrOf, List.getD_eq_getElem?_getD, List.getElem?_set_ne h]

theorem instrAt_def (s : SchedState) (i : Nat) :
    s.instrAt i = instrOf s.arena i := rfl

theorem coreOf_eq_iff {x y : Instr} : coreOf x = coreOf y ↔
    (x.n = y.n ∧ x.name = y.name ∧ x.opecode = y.opecode ∧
     x.left = y.left ∧ x.right = y.right ∧ x.priority = y.priority ∧
     x.t_start = y.t_start ∧ x.t_end = y.t_end) := by
  simp [coreOf, Prod.ext_iff]

/-!
## `addDep` and the hazard scans as `GraphExtends` steps
-/

theorem setInstr_arena_length (s : SchedState) (i : Nat) (v : Instr) :
    (s.setInstr i v).arena.length = s.arena.length := by
  simp [SchedState.setInstr]

theorem instrAt_setInstr_self {s : SchedState} {i : Nat} {v : Instr}
    (h : i < s.arena.length) : (s.setInstr i v).instrAt i = v :=
  instrOf_set_self h

theorem instrAt_setInstr_ne {s : SchedState} {i j : Nat} {v : Instr}
    (h : i ≠ j) : (s.setInstr i v).instrAt j = s.instrAt j :=
  instrOf_set_ne h

theorem addDep_length (s : SchedState) (di dj : Nat) :
    (addDep s di dj).arena.length = s.arena.length := by
  simp [addDep, SchedState.setInstr]

theorem instrAt_addDep_self_dep {s : SchedState} {di dj : Nat}
    (hdi : di < s.arena.length) (hne : di ≠ dj) :
    (addDep s di dj).instrAt di =
      { s.instrAt di with
        dependent_list := (s.instrAt di).dependent_list ++ [dj] } := by
  simp only [addDep]
  rw [instrAt_setInstr_ne (Ne.symm hne)]
  exact instrAt_setInstr_self hdi

theorem instrAt_addDep_self_next {s : SchedState} {di dj : Nat}
    (hdj : dj < s.arena.length) (hne : di ≠ dj) :
    (addDep s di dj).instrAt dj =
      { s.instrAt dj with
        next_list := (s.instrAt dj).next_list ++ [di] } := by
  have h1 : dj < (s.setInstr di
      { s.instrAt di with
        dependent_list := (s.instrAt di).dependent_list ++ [dj] }).arena.length := by
    rw [setInstr_arena_length]
    exact hdj
  simp only [addDep]
  rw [instrAt_setInstr_self h1, instrAt_setInstr_ne hne]

theorem instrAt_addDep_other {s : SchedState} {di dj a : Nat}
    (h1 : a ≠ di) (h2 : a ≠ dj) :
    (addDep s di dj).instrAt a = s.instrAt a := by
  simp only [addDep]
  rw [instrAt_setInstr_ne (Ne.symm h2), instrAt_setInstr_ne (Ne.symm h1)]

theorem graphExtends_refl (s : SchedState) :
    GraphExtends s s (fun _ _ => False) := by
  refine ⟨rfl, rfl, rfl, rfl, rfl, rfl, rfl, rfl, fun a => rfl, ?_, ?_⟩ <;>
    · intro a x
      simp

theorem graphExtends_congr {s r : SchedState} {E F : Nat → Nat → Prop}
    (h : GraphExtends s r E) (hEF : ∀ a x, E a x ↔ F a x) :
    GraphExtends s r F := by
  obtain ⟨hL, hW, hD, hR, hA, hF, hM, hP, hC, hDL, hNL⟩ := h
  exact ⟨hL, hW, hD, hR, hA, hF, hM, hP, hC,
    fun a x => (hDL a x).trans (by rw [hEF a x]),
    fun a x => (hNL a x).trans (by rw [hEF x a])⟩

theorem graphExtends_comp {s r r2 : SchedState} {E F : Nat → Nat → Prop}
    (h1 : GraphExtends s r E) (h2 : GraphExtends r r2 F) :
    GraphExtends s r2 (fun a x => E a x ∨ F a x) := by
  obtain ⟨hL, hW, hD, hR, hA, hF, hM, hP, hC, hDL, hNL⟩ := h1
  obtain ⟨hL2, hW2, hD2, hR2, hA2, hF2, hM2, hP2, hC2, hDL2, hNL2⟩ := h2
  refine ⟨hL2.trans hL, hW2.trans hW, hD2.trans hD, hR2.trans hR,
    hA2.trans hA, hF2.trans hF, hM2.trans hM, hP2.trans hP,
    fun a => (hC2 a).trans (hC a), ?_, ?_⟩
  · intro a x
    rw [hDL2 a x, hDL a x]
    tauto
  · intro a x
    rw [hNL2 a x, hNL a x]
    tauto

theorem graphExtends_addDep {s : SchedState} {di dj : Nat}
    (hdi : di < s.arena.length) (hdj : dj < s.arena.length) (hne : di ≠ dj) :
    GraphExtends s (addDep s di dj) (fun a x => a = di ∧ x = dj) := by
  refine ⟨addDep_length s di dj, rfl, rfl, rfl, rfl, rfl, rfl, rfl, ?_, ?_, ?_⟩
  · intro a
    by_cases h1 : a = di
    · subst h1
      rw [instrAt_addDep_self_dep hdi hne]
      rfl
    · by_cases h2 : a = dj
      · subst h2
        rw [instrAt_addDep_self_next hdj hne]
        rfl
      · rw [instrAt_addDep_other h1 h2]
  · intro a x
    by_cases h1 : a = di
    · subst h1
      rw [instrAt_addDep_self_dep hdi hne]
      simp only [List.mem_append, List.mem_singleton]
      tauto
    · by_cases h2 : a = dj
      · subst h2
        rw [instrAt_addDep_self_next hdj hne]
        show x ∈ (s.instrAt a).dependent_list ↔ _
        tauto
      · rw [instrAt_addDep_other h1 h2]
        simp [h1]
  · intro a x
    by_cases h2 : a = dj
    · subst h2
      rw [instrAt_addDep_self_next hdj hne]
      simp only [List.mem_append, List.mem_singleton]
      tauto
    · by_cases h1 : a = di
      · subst h1
        rw [instrAt_addDep_self_dep hdi hne]
        show x ∈ (s.instrAt a).next_list ↔ _
        tauto
      · rw [instrAt_addDep_other h1 h2]
        simp [h2]

theorem graphExtends_depRawStep {acc : SchedState} {di dj : Nat}
    (hdi : di < acc.arena.length) (hdj : dj < acc.arena.length)
    (hne : di ≠ dj) (op : String) :
    GraphExtends acc (depRawStep di dj acc op)
      (fun a x => a = di ∧ x = dj ∧ op ∈ (acc.instrAt dj).left) := by
  unfold depRawStep
  by_cases hop : op ∈ (acc.instrAt dj).left
  · rw [if_pos hop]
    exact graphExtends_congr (graphExtends_addDep hdi hdj hne)
      (fun a x => by simp [hop])
  · rw [if_neg hop]
    exact graphExtends_congr (graphExtends_refl acc)
      (fun a x => by simp [hop])

theorem graphExtends_depWawWarStep {acc : SchedState} {di dj : Nat}
    (hdi : di < acc.arena.length) (hdj : dj < acc.arena.length)
    (hne : di ≠ dj) (op : String) :
    GraphExtends acc (depWawWarStep di dj acc op)
      (fun a x => a = di ∧ x = dj ∧
        (op ∈ (acc.instrAt dj).left ∨ op ∈ (acc.instrAt dj).right)) := by
  unfold depWawWarStep
  by_cases hop : op ∈ (acc.instrAt dj).left
  · rw [if_pos hop]
    have h1 := graphExtends_addDep hdi hdj hne
    have hlen : (addDep acc di dj).arena.length = acc.arena.length :=
      addDep_length acc di dj
    have hcore := h1.2.2.2.2.2.2.2.2.1
    have hright : ((addDep acc di dj).instrAt dj).right = (acc.instrAt dj).right :=
      (coreOf_eq_iff.mp (hcore dj)).2.2.2.2.1
    by_cases hop2 : op ∈ ((addDep acc di dj).instrAt dj).right
    · rw [if_pos hop2]
      have h2 := graphExtends_addDep (s := addDep acc di dj)
        (by rw [hlen]; exact hdi) (by rw [hlen]; exact hdj) hne
      exact graphExtends_congr (graphExtends_comp h1 h2)
        (fun a x => by simp only [hop, true_or, and_true]; tauto)
    · rw [if_neg hop2]
      exact graphExtends_congr h1 (fun a x => by simp [hop])
  · rw [if_neg hop]
    by_cases hop2 : op ∈ (acc.instrAt dj).right
    · rw [if_pos hop2]
      exact graphExtends_congr (graphExtends_addDep hdi hdj hne)
        (fun a x => by simp [hop, hop2])
    · rw [if_neg hop2]
      exact graphExtends_congr (graphExtends_refl acc)
        (fun a x => by simp [hop, hop2])

theorem graphExtends_depRawFold {di dj : Nat} (ops : List String)
    {acc : SchedState} (hdi : di < acc.arena.length)
    (hdj : dj < acc.arena.length) (hne : di ≠ dj) :
    GraphExtends acc (ops.foldl (depRawStep di dj) acc)
      (fun a x => a = di ∧ x = dj ∧ ∃ op ∈ ops, op ∈ (acc.instrAt dj).left) := by
  induction ops generalizing acc with
  | nil =>
    exact graphExtends_congr (graphExtends_refl acc) (fun a x => by simp)
  | cons op ops ih =>
    rw [List.foldl_cons]
    have h1 := graphExtends_depRawStep hdi hdj hne op
    have hlen : (depRawStep di dj acc op).arena.length = acc.arena.length := h1.1
    have hleft : ((depRawStep di dj acc op).instrAt dj).left = (acc.instrAt dj).left :=
      (coreOf_eq_iff.mp (h1.2.2.2.2.2.2.2.2.1 dj)).2.2.2.1
    have h2 := @ih (depRawStep di dj acc op)
      (by rw [hlen]; exact hdi) (by rw [hlen]; exact hdj)
    rw [hleft] at h2
    refine graphExtends_congr (graphExtends_comp h1 h2) (fun a x => ?_)
    simp only [List.mem_cons]
    constructor
    · rintro (⟨ha, hx, hc⟩ | ⟨ha, hx, o, ho, hc⟩)
      · exact ⟨ha, hx, op, Or.inl rfl, hc⟩
      · exact ⟨ha, hx, o, Or.inr ho, hc⟩
    · rintro ⟨ha, hx, o, (rfl | ho), hc⟩
      · exact Or.inl ⟨ha, hx, hc⟩
      · exact Or.inr ⟨ha, hx, o, ho, hc⟩

theorem graphExtends_depWawWarFold {di dj : Nat} (ops : List String)
    {acc : SchedState} (hdi : di < acc.arena.length)
    (hdj : dj < acc.arena.length) (hne : di ≠ dj) :
    GraphExtends acc (ops.foldl (depWawWarStep di dj) acc)
      (fun a x => a = di ∧ x = dj ∧ ∃ op ∈ ops,
        (op ∈ (acc.instrAt dj).left ∨ op ∈ (acc.instrAt dj).right)) := by
  induction ops generalizing acc with
  | nil =>
    exact graphExtends_congr (graphExtends_refl acc) (fun a x => by simp)
  | cons op ops ih =>
    rw [List.foldl_cons]
    have h1 := graphExtends_depWawWarStep hdi hdj hne op
    have hlen : (depWawWarStep di dj acc op).arena.length = acc.arena.length := h1.1
    have hcore := coreOf_eq_iff.mp (h1.2.2.2.2.2.2.2.2.1 dj)
    have hleft : ((depWawWarStep di dj acc op).instrAt dj).left = (acc.instrAt dj).left :=
      hcore.2.2.2.1
    have hright : ((depWawWarStep di dj acc op).instrAt dj).right = (acc.instrAt dj).right :=
      hcore.2.2.2.2.1
    have h2 := @ih (depWawWarStep di dj acc op)
      (by rw [hlen]; exact hdi) (by rw [hlen]; exact hdj)
    rw [hleft, hright] at h2
    refine graphExtends_congr (graphExtends_comp h1 h2) (fun a x => ?_)
    simp only [List.mem_cons]
    constructor
    · rintro (⟨ha, hx, hc⟩ | ⟨ha, hx, o, ho, hc⟩)
      · exact ⟨ha, hx, op, Or.inl rfl, hc⟩
      · exact ⟨ha, hx, o, Or.inr ho, hc⟩
    · rintro ⟨ha, hx, o, (rfl | ho), hc⟩
      · exact Or.inl ⟨ha, hx, hc⟩
      · exact Or.inr ⟨ha, hx, o, ho, hc⟩

theorem graphExtends_depPairStep {s : SchedState} {di dj : Nat}
    (hdi : di < s.arena.length) (hdj : dj < s.arena.length) (hne : di ≠ dj) :
    GraphExtends s (depPairStep s di dj)
      (fun a x => a = di ∧ x = dj ∧ hazard s.arena dj di) := by
  have h1 := @graphExtends_depRawFold di dj (s.instrAt di).right
    s hdi hdj hne
  generalize hs1 : (s.instrAt di).right.foldl (depRawStep di dj) s = s1 at h1
  have hlen : s1.arena.length = s.arena.length := h1.1
  have hcore := h1.2.2.2.2.2.2.2.2.1
  have hleftI : (s1.instrAt di).left = (s.instrAt di).left :=
    (coreOf_eq_iff.mp (hcore di)).2.2.2.1
  have hleftJ : (s1.instrAt dj).left = (s.instrAt dj).left :=
    (coreOf_eq_iff.mp (hcore dj)).2.2.2.1
  have hrightJ : (s1.instrAt dj).right = (s.instrAt dj).right :=
    (coreOf_eq_iff.mp (hcore dj)).2.2.2.2.1
  have h2 := @graphExtends_depWawWarFold di dj (s1.instrAt di).left
    s1 (by rw [hlen]; exact hdi) (by rw [hlen]; exact hdj) hne
  rw [hleftI, hleftJ, hrightJ] at h2
  have hgoal : depPairStep s di dj =
      (s.instrAt di).left.foldl (depWawWarStep di dj) s1 := by
    show ((((s.instrAt di).right.foldl (depRawStep di dj) s).instrAt di).left.foldl
      (depWawWarStep di dj) ((s.instrAt di).right.foldl (depRawStep di dj) s)) = _
    rw [hs1, hleftI]
  rw [hgoal]
  refine graphExtends_congr (graphExtends_comp h1 h2) (fun a x => ?_)
  unfold hazard hazardRAW hazardWAW hazardWAR instrOf
  show _ ↔ _ ∧ _ ∧
    ((∃ op ∈ (s.instrAt di).right, op ∈ (s.instrAt dj).left) ∨ _ ∨ _)
  constructor
  · rintro (⟨ha, hx, hc⟩ | ⟨ha, hx, op, hop, hc | hc⟩)
    · exact ⟨ha, hx, Or.inl hc⟩
    · exact ⟨ha, hx, Or.inr (Or.inl ⟨op, hop, hc⟩)⟩
    · exact ⟨ha, hx, Or.inr (Or.inr ⟨op, hop, hc⟩)⟩
  · rintro ⟨ha, hx, hc | ⟨op, hop, hc⟩ | ⟨op, hop, hc⟩⟩
    · exact Or.inl ⟨ha, hx, hc⟩
    · exact Or.inr ⟨ha, hx, op, hop, Or.inl hc⟩
    · exact Or.inr ⟨ha, hx, op, hop, Or.inr hc⟩

/-!
## The full `_set_dependency` double loop
-/

theorem hazard_congr {s r : SchedState}
    (hcore : ∀ a, coreOf (r.instrAt a) = coreOf (s.instrAt a)) (j i : Nat) :
    hazard r.arena j i ↔ hazard s.arena j i := by
  have hl : ∀ a, (instrOf r.arena a).left = (instrOf s.arena a).left :=
    fun a => (coreOf_eq_iff.mp (hcore a)).2.2.2.1
  have hr : ∀ a, (instrOf r.arena a).right = (instrOf s.arena a).right :=
    fun a => (coreOf_eq_iff.mp (hcore a)).2.2.2.2.1
  unfold hazard hazardRAW hazardWAW hazardWAR
  rw [hl i, hl j, hr i, hr j]

theorem getD_range {n i : Nat} (h : i < n) : (List.range n).getD i 0 = i := by
  rw [List.getD_eq_getElem?_getD, List.getElem?_range h]
  rfl

theorem graphExtends_setDepInner {N : Nat} {acc : SchedState} {i : Nat}
    (hw : acc.instr_wait_list = List.range N) (hlen : acc.arena.length = N)
    (hi : i < N) :
    ∀ k, k ≤ i →
    GraphExtends acc
      ((List.range k).foldl
        (fun acc2 j => depPairStep acc2 (acc2.instr_wait_list.getD i 0)
          (acc2.instr_wait_list.getD j 0)) acc)
      (fun a x => a = i ∧ x < k ∧ hazard acc.arena x i) := by
  intro k
  induction k with
  | zero =>
    intro _
    exact graphExtends_congr (graphExtends_refl acc) (fun a x => by simp)
  | succ k ih =>
    intro hk
    rw [List.range_succ, List.foldl_append, List.foldl_cons, List.foldl_nil]
    have hk' : k ≤ i := Nat.le_of_succ_le hk
    have h1 := ih hk'
    generalize hf : (List.range k).foldl
      (fun acc2 j => depPairStep acc2 (acc2.instr_wait_list.getD i 0)
        (acc2.instr_wait_list.getD j 0)) acc = fk at h1
    have hwf : fk.instr_wait_list = List.range N := by rw [h1.2.1, hw]
    have hlenf : fk.arena.length = N := by rw [h1.1, hlen]
    have hgi : fk.instr_wait_list.getD i 0 = i := by
      rw [hwf]
      exact getD_range hi
    have hgj : fk.instr_wait_list.getD k 0 = k := by
      rw [hwf]
      exact getD_range (by omega)
    rw [hgi, hgj]
    have h2 := @graphExtends_depPairStep fk i k
      (by omega) (by omega) (by omega)
    have hcongr := hazard_congr (s := acc) (r := fk)
      h1.2.2.2.2.2.2.2.2.1 k i
    refine graphExtends_congr
      (graphExtends_comp h1 (graphExtends_congr h2 (fun a x => by rw [hcongr])))
      (fun a x => ?_)
    constructor
    · rintro (⟨ha, hx, hc⟩ | ⟨ha, hx, hc⟩)
      · exact ⟨ha, Nat.lt_succ_of_lt hx, hc⟩
      · subst hx
        exact ⟨ha, Nat.lt_succ_self _, hc⟩
    · rintro ⟨ha, hx, hc⟩
      rcases Nat.lt_succ_iff_lt_or_eq.mp hx with h | h
      · exact Or.inl ⟨ha, h, hc⟩
      · subst h
        exact Or.inr ⟨ha, rfl, hc⟩

theorem graphExtends_setDepOuter {N : Nat} {s : SchedState}
    (hw : s.instr_wait_list = List.range N) (hlen : s.arena.length = N) :
    ∀ m, m ≤ N →
    GraphExtends s
      ((List.range m).foldl
        (fun acc i =>
          (List.range i).foldl
            (fun acc2 j => depPairStep acc2 (acc2.instr_wait_list.getD i 0)
              (acc2.instr_wait_list.getD j 0)) acc) s)
      (fun a x => a < m ∧ x < a ∧ hazard s.arena x a) := by
  intro m
  induction m with
  | zero =>
    intro _
    exact graphExtends_congr (graphExtends_refl s) (fun a x => by simp)
  | succ m ih =>
    intro hm
    rw [List.range_succ, List.foldl_append, List.foldl_cons, List.foldl_nil]
    have hm' : m ≤ N := Nat.le_of_succ_le hm
    have h1 := ih hm'
    generalize hf : (List.range m).foldl
      (fun acc i =>
        (List.range i).foldl
          (fun acc2 j => depPairStep acc2 (acc2.instr_wait_list.getD i 0)
            (acc2.instr_wait_list.getD j 0)) acc) s = fm at h1
    have hwf : fm.instr_wait_list = List.range N := by rw [h1.2.1, hw]
    have hlenf : fm.arena.length = N := by rw [h1.1, hlen]
    have h2 := @graphExtends_setDepInner N fm m
      hwf hlenf (by omega) m le_rfl
    have hcore := h1.2.2.2.2.2.2.2.2.1
    refine graphExtends_congr (graphExtends_comp h1 h2) (fun a x => ?_)
    have hcx : ∀ y z, hazard fm.arena y z ↔ hazard s.arena y z :=
      fun y z => hazard_congr hcore y z
    constructor
    · rintro (⟨ha, hx, hc⟩ | ⟨ha, hx, hc⟩)
      · exact ⟨Nat.lt_succ_of_lt ha, hx, hc⟩
      · subst ha
        exact ⟨Nat.lt_succ_self _, hx, (hcx x a).mp hc⟩
    · rintro ⟨ha, hx, hc⟩
      rcases Nat.lt_succ_iff_lt_or_eq.mp ha with h | h
      · exact Or.inl ⟨h, hx, hc⟩
      · subst h
        exact Or.inr ⟨rfl, hx, (hcx x a).mpr hc⟩

theorem graphExtends_setDependency {N : Nat} {s : SchedState}
    (hw : s.instr_wait_list = List.range N) (hlen : s.arena.length = N) :
    GraphExtends s (setDependency s)
      (fun a x => a < N ∧ x < a ∧ hazard s.arena x a) := by
  unfold setDependency
  rw [hw, List.length_range]
  exact graphExtends_setDepOuter hw hlen N le_rfl

/-!
## The freshly built arena
-/

theorem mkArena_length (raw : List RawInstr) :
    (mkArena raw).length = raw.length := by
  simp [mkArena]

theorem instrOf_oob {A : List Instr} {a : Nat} (h : A.length ≤ a) :
    instrOf A a = dummyInstr := by
  rw [instrOf, List.getD_eq_getElem?_getD, List.getElem?_eq_none h]
  rfl

theorem instrOf_mkArena {raw : List RawInstr} {i : Nat} (h : i < raw.length) :
    instrOf (mkArena raw) i =
      { n := i + 1, name := (raw.getD i ⟨"", Ops.ADD, [], []⟩).name,
        opecode := (raw.getD i ⟨"", Ops.ADD, [], []⟩).opecode,
        left := (raw.getD i ⟨"", Ops.ADD, [], []⟩).left,
        right := (raw.getD i ⟨"", Ops.ADD, [], []⟩).right } := by
  unfold mkArena instrOf
  rw [List.getD_eq_getElem?_getD, List.getElem?_map, List.getElem?_range h]
  rfl

theorem mkArena_fresh (raw : List RawInstr) (a : Nat) :
    (instrOf (mkArena raw) a).dependent_list = [] ∧
    (instrOf (mkArena raw) a).next_list = [] ∧
    (instrOf (mkArena raw) a).priority = none ∧
    (instrOf (mkArena raw) a).t_start = none ∧
    (instrOf (mkArena raw) a).t_end = none := by
  by_cases h : a < raw.length
  · rw [instrOf_mkArena h]
    exact ⟨rfl, rfl, rfl, rfl, rfl⟩
  · rw [instrOf_oob (by rw [mkArena_length]; omega)]
    exact ⟨rfl, rfl, rfl, rfl, rfl⟩

theorem mkArena_n {raw : List RawInstr} {i : Nat} (h : i < raw.length) :
    (instrOf (mkArena raw) i).n = i + 1 := by
  rw [instrOf_mkArena h]

/-!
## Claims C7 and C8
-/

/-- C7: the graph builder records an edge from earlier instruction `j` to
later instruction `i` — `j` appended to `i`'s `dependent_list` and `i` to
`j`'s `next_list` — exactly when `i` is a program position after `j` and at
least one hazard holds between them: `i` reads an operand `j` writes (RAW),
`i` writes an operand `j` writes (WAW), or `i` writes an operand `j` reads
(WAR). -/
theorem c7_dependency_edges_iff_hazard (nA nF nM : Nat) (pt : String)
    (raw : List RawInstr) (i j : Nat) :
    (j ∈ ((setDependency (initState nA nF nM pt (mkArena raw))).instrAt i).dependent_list ↔
      (i < raw.length ∧ j < i ∧ hazard (mkArena raw) j i)) ∧
    (i ∈ ((setDependency (initState nA nF nM pt (mkArena raw))).instrAt j).next_list ↔
      (i < raw.length ∧ j < i ∧ hazard (mkArena raw) j i)) := by
  have hge := graphExtends_setDependency (N := (mkArena raw).length)
    (s := initState nA nF nM pt (mkArena raw)) rfl rfl
  have hdl := hge.2.2.2.2.2.2.2.2.2.1 i j
  have hnl := hge.2.2.2.2.2.2.2.2.2.2 j i
  have hbase : ∀ a, (initState nA nF nM pt (mkArena raw)).instrAt a =
      instrOf (mkArena raw) a := fun a => rfl
  constructor
  · rw [hdl, hbase i, (mkArena_fresh raw i).1, mkArena_length]
    simp
    exact fun _ _ => Iff.rfl
  · rw [hnl, hbase j, (mkArena_fresh raw j).2.1, mkArena_length]
    simp
    exact fun _ _ => Iff.rfl

theorem c7_dependency_edges_iff_hazard_witness :
    (1 : Nat) ∈ ((setDependency (initState 3 1 1 "time" (mkArena c1raw))).instrAt 3).dependent_list ∧
    ¬ ((0 : Nat) ∈ ((setDependency (initState 3 1 1 "time" (mkArena c1raw))).instrAt 1).dependent_list) := by
  constructor
  · exact (c7_dependency_edges_iff_hazard 3 1 1 "time" c1raw 3 1).1.mpr
      ⟨by decide, by decide, Or.inl (by decide)⟩
  · intro hx
    have h := (c7_dependency_edges_iff_hazard 3 1 1 "time" c1raw 1 0).1.mp hx
    revert h
    decide

/-- C8: every dependency edge points forward in program order — when the
builder has recorded `j` as a predecessor of `i`, the 1-based sequence
index `n` of `j` is strictly below that of `i` (so the graph is acyclic). -/
theorem c8_edges_point_forward (nA nF nM : Nat) (pt : String)
    (raw : List RawInstr) (i j : Nat)
    (h : j ∈ ((setDependency (initState nA nF nM pt (mkArena raw))).instrAt i).dependent_list) :
    ((setDependency (initState nA nF nM pt (mkArena raw))).instrAt j).n <
    ((setDependency (initState nA nF nM pt (mkArena raw))).instrAt i).n := by
  have hge := graphExtends_setDependency (N := (mkArena raw).length)
    (s := initState nA nF nM pt (mkArena raw)) rfl rfl
  have hdl := (hge.2.2.2.2.2.2.2.2.2.1 i j).mp h
  have hbase : ∀ a, (initState nA nF nM pt (mkArena raw)).instrAt a =
      instrOf (mkArena raw) a := fun a => rfl
  rw [hbase i, (mkArena_fresh raw i).1] at hdl
  have hcore := hge.2.2.2.2.2.2.2.2.1
  have hni : ((setDependency (initState nA nF nM pt (mkArena raw))).instrAt i).n =
      (instrOf (mkArena raw) i).n := by
    have := (coreOf_eq_iff.mp (hcore i)).1
    rw [this, hbase i]
  have hnj : ((setDependency (initState nA nF nM pt (mkArena raw))).instrAt j).n =
      (instrOf (mkArena raw) j).n := by
    have := (coreOf_eq_iff.mp (hcore j)).1
    rw [this, hbase j]
  rcases hdl with hF | ⟨hiN, hji, _⟩
  · exact absurd hF (List.not_mem_nil j)
  · rw [hni, hnj, mkArena_n (by rw [mkArena_length] at hiN; omega),
      mkArena_n (by rw [mkArena_length] at hiN; omega)]
    omega

theorem c8_edges_point_forward_witness :
    ((setDependency (initState 3 1 1 "time" (mkArena c1raw))).instrAt 1).n <
    ((setDependency (initState 3 1 1 "time" (mkArena c1raw))).instrAt 3).n :=
  c8_edges_point_forward 3 1 1 "time" c1raw 3 1 (by decide)

/-!
## List utilities: filters, counts, erases and the heap push
-/

theorem filter_length_mono {α : Type} (l : List α) (p q : α → Bool)
    (h : ∀ a ∈ l, p a = true → q a = true) :
    (l.filter p).length ≤ (l.filter q).length := by
  induction l with
  | nil => simp
  | cons a l ih =>
    have ih' := ih (fun x hx => h x (List.mem_cons_of_mem a hx))
    by_cases hp : p a = true
    · have hq := h a (List.mem_cons_self a l) hp
      rw [List.filter_cons, List.filter_cons, if_pos hp, if_pos hq]
      simp only [List.length_cons]
      omega
    · rw [List.filter_cons, if_neg hp]
      by_cases hq : q a = true
      · rw [List.filter_cons, if_pos hq]
        simp only [List.length_cons]
        omega
      · rw [List.filter_cons, if_neg hq]
        exact ih'

theorem length_filter_split {α : Type} (l : List α) (p q r : α → Bool)
    (h : ∀ a ∈ l, p a = (q a || r a))
    (hd : ∀ a ∈ l, ¬(q a = true ∧ r a = true)) :
    (l.filter p).length = (l.filter q).length + (l.filter r).length := by
  induction l with
  | nil => simp
  | cons a l ih =>
    have ih' := ih (fun x hx => h x (List.mem_cons_of_mem a hx))
      (fun x hx => hd x (List.mem_cons_of_mem a hx))
    have ha := h a (List.mem_cons_self a l)
    have hda := hd a (List.mem_cons_self a l)
    by_cases hqa : q a = true
    · by_cases hra : r a = true
      · exact absurd ⟨hqa, hra⟩ hda
      · have hpa : p a = true := by rw [ha, hqa]; rfl
        rw [List.filter_cons, List.filter_cons, List.filter_cons,
          if_pos hpa, if_pos hqa, if_neg hra]
        simp only [List.length_cons]
        omega
    · by_cases hra : r a = true
      · have hpa : p a = true := by
          rw [ha, hra, Bool.or_true]
        rw [List.filter_cons, List.filter_cons, List.filter_cons,
          if_pos hpa, if_neg hqa, if_pos hra]
        simp only [List.length_cons]
        omega
      · have hpa : ¬ p a = true := by
          rw [ha]
          simp only [Bool.or_eq_true]
          tauto
        rw [List.filter_cons, List.filter_cons, List.filter_cons,
          if_neg hpa, if_neg hqa, if_neg hra]
        exact ih'

theorem count_set_add (l : List Nat) (n a x : Nat) (h : n < l.length) :
    (l.set n a).count x + (if x = l.getD n 0 then 1 else 0) =
      l.count x + (if x = a then 1 else 0) := by
  induction l generalizing n with
  | nil => simp at h
  | cons hd tl ih =>
    cases n with
    | zero =>
      simp only [List.set_cons_zero, List.getD_cons_zero, List.count_cons,
        beq_iff_eq]
      split_ifs <;> omega
    | succ n =>
      have hn : n < tl.length := by simpa using h
      have := ih n hn
      simp only [List.set_cons_succ, List.getD_cons_succ, List.count_cons,
        beq_iff_eq] at *
      split_ifs at * <;> omega

theorem getD_set_ne_nat (l : List Nat) {i j : Nat} (a : Nat) (h : i ≠ j) :
    (l.set i a).getD j 0 = l.getD j 0 := by
  rw [List.getD_eq_getElem?_getD, List.getElem?_set_ne h,
    ← List.getD_eq_getElem?_getD]

theorem set_getD_self (l : List Nat) {pos : Nat} (h : pos < l.length) :
    l.set pos (l.getD pos 0) = l := by
  apply List.ext_getElem?
  intro n
  by_cases hn : n = pos
  · subst hn
    rw [List.getElem?_set_self h, List.getD_eq_getElem?_getD,
      List.getElem?_eq_getElem h]
    rfl
  · exact List.getElem?_set_ne (fun hx => hn hx.symm)

theorem set_set_perm (l : List Nat) {i j : Nat} (a : Nat) (hij : i ≠ j)
    (hi : i < l.length) (hj : j < l.length) :
    ((l.set i (l.getD j 0)).set j a).Perm (l.set i a) := by
  rw [List.perm_iff_count]
  intro x
  have len1 : (l.set i (l.getD j 0)).length = l.length := List.length_set _ _ _
  have h1 := count_set_add (l.set i (l.getD j 0)) j a x (by rw [len1]; exact hj)
  have h2 := count_set_add l i (l.getD j 0) x hi
  have h3 := count_set_add l i a x hi
  have h4 : (l.set i (l.getD j 0)).getD j 0 = l.getD j 0 :=
    getD_set_ne_nat l _ hij
  rw [h4] at h1
  omega

theorem siftdownAux_perm (lt : Nat → Nat → Bool) :
    ∀ (fuel : Nat) (heap : List Nat) (item : Nat) (startpos pos : Nat),
      pos < heap.length →
      (siftdownAux lt fuel heap item startpos pos).Perm (heap.set pos item) := by
  intro fuel
  induction fuel with
  | zero =>
    intro heap item sp pos h
    exact List.Perm.refl _
  | succ fuel ih =>
    intro heap item sp pos h
    show (if sp < pos then _ else heap.set pos item).Perm (heap.set pos item)
    by_cases hc : sp < pos
    · rw [if_pos hc]
      by_cases hlt : lt item (heap.getD ((pos - 1) / 2) 0) = true
      · rw [if_pos hlt]
        have hpp : (pos - 1) / 2 < pos := by
          have := Nat.div_le_self (pos - 1) 2
          omega
        have hlen : (heap.set pos (heap.getD ((pos - 1) / 2) 0)).length =
            heap.length := List.length_set _ _ _
        have hperm := ih (heap.set pos (heap.getD ((pos - 1) / 2) 0)) item sp
          ((pos - 1) / 2) (by rw [hlen]; omega)
        exact hperm.trans
          (set_set_perm heap item (Nat.ne_of_gt hpp) h (Nat.lt_trans hpp h))
      · rw [if_neg hlt]
    · rw [if_neg hc]

theorem heappush_perm (lt : Nat → Nat → Bool) (heap : List Nat) (item : Nat) :
    (heappush lt heap item).Perm (heap ++ [item]) := by
  unfold heappush
  have hpos : (heap ++ [item]).length - 1 < (heap ++ [item]).length := by simp
  have h := siftdownAux_perm lt (heap ++ [item]).length (heap ++ [item]) item 0
    ((heap ++ [item]).length - 1) hpos
  refine h.trans ?_
  have hit : (heap ++ [item]).getD ((heap ++ [item]).length - 1) 0 = item := by
    have : (heap ++ [item]).length - 1 = heap.length := by simp
    rw [this, List.getD_eq_getElem?_getD, List.getElem?_concat_length]
    rfl
  have h2 := set_getD_self (heap ++ [item]) hpos
  rw [hit] at h2
  rw [h2]

theorem foldl_heappush_perm (lt : Nat → Nat → Bool) :
    ∀ (moved R : List Nat), (moved.foldl (heappush lt) R).Perm (R ++ moved) := by
  intro moved
  induction moved with
  | nil =>
    intro R
    simp
  | cons m ms ih =>
    intro R
    rw [List.foldl_cons]
    refine (ih _).trans ?_
    have h1 : ((heappush lt R m) ++ ms).Perm ((R ++ [m]) ++ ms) :=
      (heappush_perm lt R m).append_right ms
    refine h1.trans ?_
    rw [List.append_assoc]
    rfl

theorem foldl_erase_sublist : ∀ (B R : List Nat),
    (B.foldl List.erase R).Sublist R := by
  intro B
  induction B with
  | nil =>
    intro R
    exact List.Sublist.refl R
  | cons b bs ih =>
    intro R
    rw [List.foldl_cons]
    exact (ih (R.erase b)).trans (List.erase_sublist b R)

theorem mem_foldl_erase : ∀ (B R : List Nat), R.Nodup → ∀ (x : Nat),
    (x ∈ B.foldl List.erase R ↔ x ∈ R ∧ x ∉ B) := by
  intro B
  induction B with
  | nil =>
    intro R _ x
    simp
  | cons b bs ih =>
    intro R hR x
    rw [List.foldl_cons, ih (R.erase b) (hR.erase b), hR.mem_erase_iff]
    simp only [List.mem_cons]
    tauto

theorem length_filter_set_le {α : Type} (l : List α) (n : Nat) (e : α)
    (p : α → Bool) :
    ((l.set n e).filter p).length ≤
      (l.filter p).length + (if p e then 1 else 0) := by
  induction l generalizing n with
  | nil => simp
  | cons hd tl ih =>
    cases n with
    | zero =>
      rw [List.set_cons_zero, List.filter_cons, List.filter_cons]
      by_cases he : p e = true
      · rw [if_pos he]
        by_cases hh : p hd = true
        · rw [if_pos hh]
          simp only [List.length_cons, if_pos he]
          omega
        · rw [if_neg hh]
          simp only [List.length_cons, if_pos he]
          omega
      · rw [if_neg he]
        by_cases hh : p hd = true
        · rw [if_pos hh]
          simp only [List.length_cons, if_neg he]
          omega
        · rw [if_neg hh]
          simp only [if_neg he]
          omega
    | succ n =>
      rw [List.set_cons_succ, List.filter_cons, List.filter_cons]
      have := ih n
      by_cases hh : p hd = true
      · rw [if_pos hh, if_pos hh]
        simp only [List.length_cons]
        omega
      · rw [if_neg hh, if_neg hh]
        exact ih n

/-!
## Counting lemmas over the scheduler state
-/

theorem Instr.liveAt_congr {x y : Instr} (h : x.t_start = y.t_start)
    (clk t : Nat) : x.liveAt clk t = y.liveAt clk t := by
  unfold Instr.liveAt
  rw [h]

theorem Instr.busyAt_congr {x y : Instr} (h : x.t_start = y.t_start)
    (clk t : Nat) : x.busyAt clk t = y.busyAt clk t := by
  unfold Instr.busyAt
  rw [h]

theorem Instr.busyAt_imp_liveAt {x : Instr} {clk t : Nat}
    (h : x.busyAt clk t = true) : x.liveAt clk t = true := by
  unfold Instr.busyAt at h
  unfold Instr.liveAt
  cases hts : x.t_start with
  | none =>
    simp [hts] at h
  | some s0 =>
    simp only [hts, Bool.and_eq_true, decide_eq_true_eq] at h
    simp only [decide_eq_true_eq]
    exact h.2

theorem Instr.liveAt_anti {x : Instr} {clk t1 t2 : Nat} (h12 : t1 ≤ t2)
    (h : x.liveAt clk t2 = true) : x.liveAt clk t1 = true := by
  unfold Instr.liveAt at h ⊢
  cases hts : x.t_start with
  | none =>
    simp [hts] at h
  | some s0 =>
    simp only [hts, decide_eq_true_eq] at h ⊢
    omega

theorem startCount_congr {s s' : SchedState} {l : List Nat} {p : PoolTag}
    {s0 : Nat}
    (h : ∀ id ∈ l, (s'.instrAt id).opecode = (s.instrAt id).opecode ∧
      (s'.instrAt id).t_start = (s.instrAt id).t_start) :
    startCount s' l p s0 = startCount s l p s0 := by
  unfold startCount
  congr 1
  apply List.filter_congr
  intro id hid
  rw [(h id hid).1, (h id hid).2]

theorem liveCount_congr {s s' : SchedState} {l : List Nat} {p : PoolTag}
    {t : Nat}
    (h : ∀ id ∈ l, (s'.instrAt id).opecode = (s.instrAt id).opecode ∧
      (s'.instrAt id).t_start = (s.instrAt id).t_start)
    (hc : (s'.getPool p).clocks = (s.getPool p).clocks) :
    liveCount s' l p t = liveCount s l p t := by
  unfold liveCount
  congr 1
  apply List.filter_congr
  intro id hid
  rw [(h id hid).1, hc, Instr.liveAt_congr (h id hid).2]

theorem busyCount_congr {s s' : SchedState} {l : List Nat} {p : PoolTag}
    {t : Nat}
    (h : ∀ id ∈ l, (s'.instrAt id).opecode = (s.instrAt id).opecode ∧
      (s'.instrAt id).t_start = (s.instrAt id).t_start)
    (hc : (s'.getPool p).clocks = (s.getPool p).clocks) :
    busyCount s' l p t = busyCount s l p t := by
  unfold busyCount
  congr 1
  apply List.filter_congr
  intro id hid
  rw [(h id hid).1, hc, Instr.busyAt_congr (h id hid).2]

theorem startCount_append (s : SchedState) (l1 l2 : List Nat) (p : PoolTag)
    (s0 : Nat) : startCount s (l1 ++ l2) p s0 =
      startCount s l1 p s0 + startCount s l2 p s0 := by
  unfold startCount
  rw [List.filter_append, List.length_append]

theorem liveCount_append (s : SchedState) (l1 l2 : List Nat) (p : PoolTag)
    (t : Nat) : liveCount s (l1 ++ l2) p t =
      liveCount s l1 p t + liveCount s l2 p t := by
  unfold liveCount
  rw [List.filter_append, List.length_append]

theorem busyCount_append (s : SchedState) (l1 l2 : List Nat) (p : PoolTag)
    (t : Nat) : busyCount s (l1 ++ l2) p t =
      busyCount s l1 p t + busyCount s l2 p t := by
  unfold busyCount
  rw [List.filter_append, List.length_append]

theorem busyCount_le_liveCount (s : SchedState) (l : List Nat) (p : PoolTag)
    (t : Nat) : busyCount s l p t ≤ liveCount s l p t := by
  unfold busyCount liveCount
  apply filter_length_mono
  intro id _ hb
  rw [Bool.and_eq_true] at hb ⊢
  exact ⟨hb.1, Instr.busyAt_imp_liveAt hb.2⟩

theorem liveCount_anti (s : SchedState) (l : List Nat) (p : PoolTag)
    {t1 t2 : Nat} (h : t1 ≤ t2) : liveCount s l p t2 ≤ liveCount s l p t1 := by
  unfold liveCount
  apply filter_length_mono
  intro id _ hb
  rw [Bool.and_eq_true] at hb ⊢
  exact ⟨hb.1, Instr.liveAt_anti h hb.2⟩

theorem liveCount_split (s : SchedState) (l : List Nat) (p : PoolTag)
    (t : Nat) : liveCount s l p t =
      liveCount s l p (t + 1) + endCount s l p t := by
  unfold liveCount endCount
  apply length_filter_split
  · intro id _
    rcases hts : (s.instrAt id).t_start with _ | s0
    · simp [Instr.liveAt, hts]
    · simp only [Instr.liveAt, hts]
      cases hA : decide (poolTagOf (s.instrAt id).opecode = p)
      · simp
      · simp only [Bool.true_and]
        by_cases h1 : t ≤ s0 + (s.getPool p).clocks - 1
        · by_cases h2 : s0 + (s.getPool p).clocks - 1 = t
          · simp [h1, h2]
          · have h3 : t + 1 ≤ s0 + (s.getPool p).clocks - 1 := by omega
            simp [h1, h2, h3]
        · have h2 : ¬(s0 + (s.getPool p).clocks - 1 = t) := by omega
          have h3 : ¬(t + 1 ≤ s0 + (s.getPool p).clocks - 1) := by omega
          simp [h1, h2, h3]
  · intro id _ hqr
    obtain ⟨hq, hr⟩ := hqr
    rw [Bool.and_eq_true] at hq hr
    have hq2 := hq.2
    have hr2 := hr.2
    unfold Instr.liveAt at hq2
    rcases hts : (s.instrAt id).t_start with _ | s0
    · simp [hts] at hr2
    · simp only [hts, decide_eq_true_eq] at hq2 hr2
      omega

theorem endCount_eq_startCount (s : SchedState) (l : List Nat) (p : PoolTag)
    {t : Nat} (hc1 : 1 ≤ (s.getPool p).clocks)
    (hc2 : (s.getPool p).clocks ≤ t + 1) :
    endCount s l p t = startCount s l p (t + 1 - (s.getPool p).clocks) := by
  unfold endCount startCount
  congr 1
  apply List.filter_congr
  intro id _
  rcases hts : (s.instrAt id).t_start with _ | s0
  · simp [hts]
  · simp only [hts]
    cases hA : decide (poolTagOf (s.instrAt id).opecode = p)
    · simp
    · simp only [Bool.true_and]
      by_cases h : s0 + (s.getPool p).clocks - 1 = t
      · have hs0 : s0 = t + 1 - (s.getPool p).clocks := by omega
        subst hs0
        have harith : t + 1 - (s.getPool p).clocks + (s.getPool p).clocks - 1 = t := by
          omega
        rw [harith]
        simp
      · have hs0 : ¬(s0 = t + 1 - (s.getPool p).clocks) := by omega
        simp [h, hs0]

theorem endCount_zero (s : SchedState) (l : List Nat) (p : PoolTag)
    {t : Nat} (hc : t + 1 < (s.getPool p).clocks) : endCount s l p t = 0 := by
  unfold endCount
  have h := filter_length_mono l
    (fun id => decide (poolTagOf (s.instrAt id).opecode = p) &&
      (match (s.instrAt id).t_start with
       | some s0 => decide (s0 + (s.getPool p).clocks - 1 = t)
       | none => false))
    (fun _ => false) ?_
  · simpa using h
  · intro id _ hpred
    rw [Bool.and_eq_true] at hpred
    rcases hts : (s.instrAt id).t_start with _ | s0
    · simp [hts] at hpred
    · have hp2 := hpred.2
      simp only [hts, decide_eq_true_eq] at hp2
      omega

/-!
## `OpUnits` facts used by the pass and the pool updates
-/

theorem allocate_fst_n (u : OpUnits) (t : Nat) : ((u.allocate t).1).n = u.n := by
  unfold OpUnits.allocate
  dsimp only
  split
  · split <;> rfl
  · rfl

theorem allocate_fst_clocks (u : OpUnits) (t : Nat) :
    ((u.allocate t).1).clocks = u.clocks := by
  unfold OpUnits.allocate
  dsimp only
  split
  · split <;> rfl
  · rfl

theorem allocate_fst_n_busy (u : OpUnits) (t : Nat) :
    ((u.allocate t).1).n_busy = u.n_busy + 1 := by
  unfold OpUnits.allocate
  dsimp only
  split
  · split <;> rfl
  · rfl

theorem allocate_fst_unit_list (u : OpUnits) (t : Nat) :
    ((u.allocate t).1).unit_list = u.unit_list.set u.next (t, true) := by
  unfold OpUnits.allocate
  dsimp only
  split
  · split <;> rfl
  · rfl

theorem is_full_false_iff (u : OpUnits) :
    u.is_full = false ↔ ¬((u.n : Int) = u.n_busy) := by
  rw [OpUnits.is_full, beq_eq_false_iff_ne]

theorem update_foldl_n_busy (t : Nat) :
    ∀ (l : List (Nat × Bool)) (acc : OpUnits),
      (l.foldl (OpUnits.updateStep t) acc).n_busy =
        acc.n_busy -
          ((l.filter (fun e => e.2 && decide (t = e.1 + acc.clocks - 1))).length : Int) := by
  intro l
  induction l with
  | nil =>
    intro acc
    simp
  | cons e l ih =>
    intro acc
    rw [List.foldl_cons, ih]
    have hclk : (OpUnits.updateStep t acc e).clocks = acc.clocks :=
      (updateStep_fields t acc e).2.2.1
    rw [hclk, List.filter_cons]
    by_cases he : (e.2 && decide (t = e.1 + acc.clocks - 1)) = true
    · rw [if_pos he]
      rw [Bool.and_eq_true] at he
      have hb : (OpUnits.updateStep t acc e).n_busy = acc.n_busy - 1 := by
        unfold OpUnits.updateStep
        rw [if_pos he.1, if_pos (of_decide_eq_true he.2)]
      rw [hb]
      simp only [List.length_cons]
      push_cast
      ring
    · rw [if_neg he]
      have hb : (OpUnits.updateStep t acc e).n_busy = acc.n_busy := by
        unfold OpUnits.updateStep
        by_cases h2 : e.2 = true
        · rw [if_pos h2]
          have hne : ¬(t = e.1 + acc.clocks - 1) := by
            intro hx
            apply he
            rw [Bool.and_eq_true]
            refine ⟨h2, ?_⟩
            rw [hx]
            exact decide_eq_true rfl
          rw [if_neg hne]
        · rw [if_neg h2]
      rw [hb]

theorem update_n_busy_spec (u : OpUnits) (t : Nat) :
    (u.update t).n_busy = u.n_busy -
      ((u.unit_list.filter (fun e => e.2 && decide (t = e.1 + u.clocks - 1))).length : Int) :=
  update_foldl_n_busy t u.unit_list u

theorem fires_eq_entryCount (u : OpUnits) {t : Nat} (hc1 : 1 ≤ u.clocks)
    (hc2 : u.clocks ≤ t + 1) :
    (u.unit_list.filter (fun e => e.2 && decide (t = e.1 + u.clocks - 1))).length =
      entryCount u (t + 1 - u.clocks) := by
  unfold entryCount
  congr 1
  apply List.filter_congr
  intro e _
  by_cases h2 : e.2 = true
  · rw [h2, Bool.true_and, Bool.true_and]
    by_cases h : t = e.1 + u.clocks - 1
    · subst h
      have harith : e.1 + u.clocks - 1 + 1 - u.clocks = e.1 := by omega
      rw [harith]
      simp
    · have l1 : decide (t = e.1 + u.clocks - 1) = false := decide_eq_false h
      have l2 : decide (e.1 = t + 1 - u.clocks) = false :=
        decide_eq_false (by omega)
      rw [l1, l2]
  · rw [Bool.not_eq_true] at h2
    rw [h2, Bool.false_and, Bool.false_and]

theorem fires_zero (u : OpUnits) {t : Nat} (hc : t + 1 < u.clocks) :
    (u.unit_list.filter (fun e => e.2 && decide (t = e.1 + u.clocks - 1))).length = 0 := by
  have h := filter_length_mono u.unit_list
    (fun e => e.2 && decide (t = e.1 + u.clocks - 1)) (fun _ => false) ?_
  · simpa using h
  · intro e _ hpred
    rw [Bool.and_eq_true] at hpred
    have := of_decide_eq_true hpred.2
    omega

/-!
## Frame lemmas for pool and arena setters
-/

theorem getPool_setPool_same (s : SchedState) (p : PoolTag) (u : OpUnits) :
    (s.setPool p u).getPool p = u := by
  cases p <;> rfl

theorem getPool_setPool_ne (s : SchedState) {p q : PoolTag} (u : OpUnits)
    (h : p ≠ q) : (s.setPool p u).getPool q = s.getPool q := by
  cases p <;> cases q <;> first | rfl | exact absurd rfl h

theorem setPool_arena (s : SchedState) (p : PoolTag) (u : OpUnits) :
    (s.setPool p u).arena = s.arena := by
  cases p <;> rfl

theorem setPool_lists (s : SchedState) (p : PoolTag) (u : OpUnits) :
    (s.setPool p u).instr_wait_list = s.instr_wait_list ∧
    (s.setPool p u).instr_dispatched_list = s.instr_dispatched_list ∧
    (s.setPool p u).ready_set = s.ready_set ∧
    (s.setPool p u).priority_type = s.priority_type := by
  cases p <;> exact ⟨rfl, rfl, rfl, rfl⟩

theorem setInstr_pools (s : SchedState) (id : Nat) (v : Instr) (p : PoolTag) :
    (s.setInstr id v).getPool p = s.getPool p := by
  cases p <;> rfl

theorem setInstr_lists (s : SchedState) (id : Nat) (v : Instr) :
    (s.setInstr id v).instr_wait_list = s.instr_wait_list ∧
    (s.setInstr id v).instr_dispatched_list = s.instr_dispatched_list ∧
    (s.setInstr id v).ready_set = s.ready_set ∧
    (s.setInstr id v).priority_type = s.priority_type :=
  ⟨rfl, rfl, rfl, rfl⟩

theorem setPool_instrAt (s : SchedState) (p : PoolTag) (u : OpUnits) (x : Nat) :
    (s.setPool p u).instrAt x = s.instrAt x := by
  cases p <;> rfl

theorem startCount_singleton (s : SchedState) (id : Nat) (p : PoolTag)
    (s0 : Nat) : startCount s [id] p s0 =
      if (decide (poolTagOf (s.instrAt id).opecode = p) &&
          decide ((s.instrAt id).t_start = some s0)) then 1 else 0 := by
  unfold startCount
  by_cases h : (decide (poolTagOf (s.instrAt id).opecode = p) &&
      decide ((s.instrAt id).t_start = some s0)) = true
  · rw [if_pos h]
    simp [List.filter_singleton, h]
  · rw [if_neg h]
    rw [Bool.not_eq_true] at h
    simp [List.filter_singleton, h]

theorem liveCount_singleton (s : SchedState) (id : Nat) (p : PoolTag)
    (t : Nat) : liveCount s [id] p t =
      if (decide (poolTagOf (s.instrAt id).opecode = p) &&
          (s.instrAt id).liveAt (s.getPool p).clocks t) then 1 else 0 := by
  unfold liveCount
  by_cases h : (decide (poolTagOf (s.instrAt id).opecode = p) &&
      (s.instrAt id).liveAt (s.getPool p).clocks t) = true
  · rw [if_pos h]
    simp [List.filter_singleton, h]
  · rw [if_neg h]
    rw [Bool.not_eq_true] at h
    simp [List.filter_singleton, h]

theorem busyCount_singleton (s : SchedState) (id : Nat) (p : PoolTag)
    (t : Nat) : busyCount s [id] p t =
      if (decide (poolTagOf (s.instrAt id).opecode = p) &&
          (s.instrAt id).busyAt (s.getPool p).clocks t) then 1 else 0 := by
  unfold busyCount
  by_cases h : (decide (poolTagOf (s.instrAt id).opecode = p) &&
      (s.instrAt id).busyAt (s.getPool p).clocks t) = true
  · rw [if_pos h]
    simp [List.filter_singleton, h]
  · rw [if_neg h]
    rw [Bool.not_eq_true] at h
    simp [List.filter_singleton, h]

/-!
## The dispatch pass preserves `PassInv`
-/

theorem passInv_init (t : Nat) (base : SchedState)
    (hnb : ∀ p, (base.getPool p).n_busy ≤ ((base.getPool p).n : Int))
    (hent : ∀ p s0, entryCount (base.getPool p) s0 ≤
      startCount base base.instr_dispatched_list p s0)
    (hliv : ∀ p, (liveCount base base.instr_dispatched_list p t : Int) ≤
      (base.getPool p).n_busy) :
    PassInv t base base [] := by
  refine ⟨rfl, rfl, rfl, rfl, rfl, fun p => rfl, fun p => rfl,
    List.nodup_nil, ?_, ?_, ?_, hnb, ?_, ?_⟩
  · intro id h
    cases h
  · intro id h
    cases h
  · intro id _
    rfl
  · intro p s0
    rw [List.append_nil]
    exact hent p s0
  · intro p
    rw [List.append_nil]
    exact hliv p

theorem passInv_step (t : Nat) (base : SchedState) {st : SchedState}
    {b : List Nat}
    (hclk1 : ∀ p, 1 ≤ (base.getPool p).clocks)
    (hPI : PassInv t base st b) (id : Nat)
    (hid_lt : id < base.arena.length)
    (_hid_unstart : (base.instrAt id).t_start = none)
    (hid_nb : id ∉ b)
    (hid_nd : id ∉ base.instr_dispatched_list) :
    PassInv t base (dispatchStep t (st, b) id).1 (dispatchStep t (st, b) id).2 ∧
    (∀ x ∈ (dispatchStep t (st, b) id).2, x ∈ b ∨ x = id) := by
  obtain ⟨h1, h2, h3, h4, h5, h6, h7, h8, h9, h10, h11, h12, h13, h14⟩ := hPI
  have hbase_id : st.instrAt id = base.instrAt id := h11 id hid_nb
  unfold dispatchStep
  dsimp only
  by_cases hfull : (st.getPool (poolTagOf (st.instrAt id).opecode)).is_full = true
  · rw [if_pos hfull]
    exact ⟨⟨h1, h2, h3, h4, h5, h6, h7, h8, h9, h10, h11, h12, h13, h14⟩,
      fun x hx => Or.inl hx⟩
  · rw [if_neg hfull]
    rw [Bool.not_eq_true] at hfull
    set p0 := poolTagOf (st.instrAt id).opecode with hp0
    set v : Instr := { st.instrAt id with t_start := some t } with hv
    set st1 := st.setInstr id v with hst1
    set u' := ((st1.getPool p0).allocate t).1 with hu'
    set st2 := st1.setPool p0 u' with hst2
    have hpool1 : ∀ q, st1.getPool q = st.getPool q := fun q => setInstr_pools st id v q
    have hlen1 : st1.arena.length = st.arena.length := setInstr_arena_length st id v
    have harena2 : st2.arena = st1.arena := setPool_arena st1 p0 u'
    have hia2 : ∀ x, st2.instrAt x = st1.instrAt x := fun x => setPool_instrAt st1 p0 u' x
    have hid_lt' : id < st.arena.length := by rw [h5]; exact hid_lt
    have hia_id : st1.instrAt id = v := instrAt_setInstr_self hid_lt'
    have hia_ne : ∀ x, x ≠ id → st1.instrAt x = st.instrAt x :=
      fun x hx => instrAt_setInstr_ne (fun hh => hx hh.symm)
    have hfull' := (is_full_false_iff _).mp hfull
    have hnb_lt : (st.getPool p0).n_busy < ((st.getPool p0).n : Int) :=
      lt_of_le_of_ne (h12 p0) (fun hh => hfull' hh.symm)
    have hpool2_same : st2.getPool p0 = u' := getPool_setPool_same st1 p0 u'
    have hpool2_ne : ∀ q, q ≠ p0 → st2.getPool q = st.getPool q := by
      intro q hq
      rw [hst2, getPool_setPool_ne _ _ (fun hh => hq hh.symm), hpool1]
    have hul : u'.n_busy = (st.getPool p0).n_busy + 1 := by
      rw [hu', allocate_fst_n_busy, hpool1]
    have hun : u'.n = (st.getPool p0).n := by
      rw [hu', allocate_fst_n, hpool1]
    have huc : u'.clocks = (st.getPool p0).clocks := by
      rw [hu', allocate_fst_clocks, hpool1]
    -- the old records of every id in the dispatched list and the batch
    have hkeep : ∀ x, x ≠ id → st2.instrAt x = st.instrAt x := by
      intro x hx
      rw [hia2, hia_ne x hx]
    have hL : ∀ x ∈ base.instr_dispatched_list ++ b, st2.instrAt x = st.instrAt x := by
      intro x hx
      rcases List.mem_append.mp hx with hx | hx
      · exact hkeep x (fun hh => hid_nd (hh ▸ hx))
      · exact hkeep x (fun hh => hid_nb (hh ▸ hx))
    have hcongrL : ∀ x ∈ base.instr_dispatched_list ++ b,
        (st2.instrAt x).opecode = (st.instrAt x).opecode ∧
        (st2.instrAt x).t_start = (st.instrAt x).t_start := by
      intro x hx
      rw [hL x hx]
      exact ⟨rfl, rfl⟩
    have hid2 : st2.instrAt id = v := by rw [hia2, hia_id]
    have hopec : v.opecode = (st.instrAt id).opecode := rfl
    have hclk2 : ∀ q, (st2.getPool q).clocks = (st.getPool q).clocks := by
      intro q
      by_cases hq : q = p0
      · rw [hq, hpool2_same, huc]
      · rw [hpool2_ne q hq]
    refine ⟨⟨?_, ?_, ?_, ?_, ?_, ?_, ?_, ?_, ?_, ?_, ?_, ?_, ?_, ?_⟩, ?_⟩
    · rw [hst2]
      rw [(setPool_lists st1 p0 u').1, hst1, (setInstr_lists st id v).1, h1]
    · rw [hst2]
      rw [(setPool_lists st1 p0 u').2.1, hst1, (setInstr_lists st id v).2.1, h2]
    · rw [hst2]
      rw [(setPool_lists st1 p0 u').2.2.1, hst1, (setInstr_lists st id v).2.2.1, h3]
    · rw [hst2]
      rw [(setPool_lists st1 p0 u').2.2.2, hst1, (setInstr_lists st id v).2.2.2, h4]
    · rw [harena2, hlen1, h5]
    · intro q
      rw [hclk2 q, h6 q]
    · intro q
      by_cases hq : q = p0
      · rw [hq, hpool2_same, hun, h7]
      · rw [hpool2_ne q hq, h7]
    · rw [List.nodup_append]
      exact ⟨h8, List.nodup_singleton id,
        fun x hx hx2 => hid_nb ((List.mem_singleton.mp hx2) ▸ hx)⟩
    · intro x hx
      rcases List.mem_append.mp hx with hx | hx
      · exact h9 x hx
      · rw [List.mem_singleton.mp hx]
        exact hid_lt
    · intro x hx
      rcases List.mem_append.mp hx with hx | hx
      · have hxne : x ≠ id := fun hh => hid_nb (hh ▸ hx)
        rw [hkeep x hxne]
        exact h10 x hx
      · rw [List.mem_singleton.mp hx] at *
        rw [hid2, hv, hbase_id]
    · intro x hx
      have hxb : x ∉ b := fun hh => hx (List.mem_append.mpr (Or.inl hh))
      have hxid : x ≠ id := fun hh =>
        hx (List.mem_append.mpr (Or.inr (hh ▸ List.mem_singleton_self id)))
      rw [hkeep x hxid]
      exact h11 x hxb
    · intro q
      by_cases hq : q = p0
      · rw [hq, hpool2_same, hul, hun]
        omega
      · rw [hpool2_ne q hq]
        exact h12 q
    · -- entry records never outnumber same-cycle starts
      have hsingS : ∀ (q : PoolTag) (s0 : Nat), startCount st2 [id] q s0 =
          if (q = p0 ∧ s0 = t) then 1 else 0 := by
        intro q s0
        rw [startCount_singleton, hid2]
        have hvo : v.opecode = (st.instrAt id).opecode := rfl
        have hvt : v.t_start = some t := rfl
        rw [hvo, hvt, ← hp0]
        by_cases hq : q = p0
        · subst hq
          by_cases hs : s0 = t
          · subst hs
            simp
          · have hs' : ¬((some t : Option Nat) = some s0) := by
              intro hh
              exact hs (Option.some.inj hh).symm
            simp [hs, hs']
        · have hq' : ¬(p0 = q) := fun hh => hq hh.symm
          simp [hq, hq']
      intro q s0
      have hassoc : base.instr_dispatched_list ++ (b ++ [id]) =
          (base.instr_dispatched_list ++ b) ++ [id] :=
        (List.append_assoc _ _ _).symm
      rw [hassoc, startCount_append,
        @startCount_congr st st2 (base.instr_dispatched_list ++ b) q s0 hcongrL,
        hsingS]
      by_cases hq : q = p0
      · subst hq
        rw [hpool2_same]
        have hul2 : u'.unit_list =
            (st.getPool p0).unit_list.set (st.getPool p0).next (t, true) := by
          rw [hu', allocate_fst_unit_list, hpool1]
        have hb2 := length_filter_set_le (st.getPool p0).unit_list
          (st.getPool p0).next (t, true) (fun e => e.2 && decide (e.1 = s0))
        have hent0 := h13 p0 s0
        unfold entryCount at *
        rw [hul2]
        have hind : (if ((t, true).2 && decide ((t, true).1 = s0)) = true
            then 1 else 0) = (if (p0 = p0 ∧ s0 = t) then 1 else 0) := by
          by_cases hs : s0 = t
          · subst hs
            simp
          · have hs' : ¬((t, true).1 = s0) := fun hh => hs hh.symm
            simp [hs, hs']
        rw [hind] at hb2
        omega
      · rw [hpool2_ne q hq]
        have hent0 := h13 q s0
        have hiff : ¬(q = p0 ∧ s0 = t) := fun hh => hq hh.1
        rw [if_neg hiff]
        omega
    · -- the running count stays below n_busy
      have hclkq : ∀ q : PoolTag, 1 ≤ (st2.getPool q).clocks := by
        intro q
        rw [hclk2 q, h6 q]
        exact hclk1 q
      have hsingL : ∀ q : PoolTag, liveCount st2 [id] q t =
          if (q = p0) then 1 else 0 := by
        intro q
        rw [liveCount_singleton, hid2]
        have hvo : v.opecode = (st.instrAt id).opecode := rfl
        rw [hvo, ← hp0]
        by_cases hq : q = p0
        · subst hq
          have hlive : v.liveAt (st2.getPool p0).clocks t = true := by
            unfold Instr.liveAt
            have hvt : v.t_start = some t := rfl
            rw [hvt]
            have := hclkq p0
            rw [decide_eq_true_eq]
            omega
          simp [hlive]
        · have hq' : ¬(p0 = q) := fun hh => hq hh.symm
          simp [hq, hq']
      intro q
      have hassoc : base.instr_dispatched_list ++ (b ++ [id]) =
          (base.instr_dispatched_list ++ b) ++ [id] :=
        (List.append_assoc _ _ _).symm
      rw [hassoc, liveCount_append,
        @liveCount_congr st st2 (base.instr_dispatched_list ++ b) q t hcongrL
          (hclk2 q),
        hsingL]
      by_cases hq : q = p0
      · subst hq
        rw [hpool2_same, hul]
        have := h14 p0
        rw [if_pos rfl]
        push_cast
        omega
      · rw [hpool2_ne q hq, if_neg hq]
        have := h14 q
        push_cast
        omega
    · intro x hx
      rcases List.mem_append.mp hx with hx | hx
      · exact Or.inl hx
      · exact Or.inr (List.mem_singleton.mp hx)

theorem passInv_fold (t : Nat) (base : SchedState)
    (hclk1 : ∀ p : PoolTag, 1 ≤ (base.getPool p).clocks) :
    ∀ (l : List Nat) (acc : SchedState × List Nat),
    PassInv t base acc.1 acc.2 →
    l.Nodup →
    (∀ x ∈ l, x ∉ acc.2) →
    (∀ x ∈ l, x < base.arena.length) →
    (∀ x ∈ l, (base.instrAt x).t_start = none) →
    (∀ x ∈ l, x ∉ base.instr_dispatched_list) →
    PassInv t base (l.foldl (dispatchStep t) acc).1 (l.foldl (dispatchStep t) acc).2 ∧
    (∀ x ∈ (l.foldl (dispatchStep t) acc).2, x ∈ acc.2 ∨ x ∈ l) := by
  intro l
  induction l with
  | nil =>
    intro acc hPI _ _ _ _ _
    exact ⟨hPI, fun x hx => Or.inl hx⟩
  | cons a l ih =>
    intro acc hPI hnd hnb hlt huns hndisp
    rw [List.foldl_cons]
    have hstep := passInv_step t base hclk1 hPI a
      (hlt a (List.mem_cons_self a l))
      (huns a (List.mem_cons_self a l))
      (hnb a (List.mem_cons_self a l))
      (hndisp a (List.mem_cons_self a l))
    have hsub1 := hstep.2
    have hrec := ih (dispatchStep t acc a) hstep.1 (List.Nodup.of_cons hnd)
      (by
        intro x hx hxin
        rcases hsub1 x hxin with hxb | hxa
        · exact hnb x (List.mem_cons_of_mem a hx) hxb
        · exact (List.nodup_cons.mp hnd).1 (hxa ▸ hx))
      (fun x hx => hlt x (List.mem_cons_of_mem a hx))
      (fun x hx => huns x (List.mem_cons_of_mem a hx))
      (fun x hx => hndisp x (List.mem_cons_of_mem a hx))
    refine ⟨hrec.1, ?_⟩
    intro x hx
    rcases hrec.2 x hx with hxm | hxl
    · rcases hsub1 x hxm with hxb | hxa
      · exact Or.inl hxb
      · exact Or.inr (hxa ▸ List.mem_cons_self a l)
    · exact Or.inr (List.mem_cons_of_mem a hxl)

/-- Everything the rest of `dispatchCycle` needs to know about the pass. -/
theorem dispatchPass_spec {t : Nat} {s : SchedState} (hInv : Inv t s) :
    PassInv t s (dispatchPass s t).1 (dispatchPass s t).2 ∧
    (∀ x ∈ (dispatchPass s t).2, x ∈ s.ready_set) := by
  have hclk1 : ∀ p : PoolTag, 1 ≤ (s.getPool p).clocks := by
    intro p
    cases p
    · rw [show s.getPool PoolTag.alu = s.alu from rfl, hInv.clkA]
      decide
    · rw [show s.getPool PoolTag.fpu = s.fpu from rfl, hInv.clkF]
      decide
    · rw [show s.getPool PoolTag.memory = s.memory from rfl, hInv.clkM]
      decide
  have h0 := passInv_init t s hInv.nb hInv.ent hInv.liv
  have h := passInv_fold t s hclk1 s.ready_set (s, []) h0 hInv.ndR
    (by intro x _ hx; cases hx)
    hInv.bndR
    (fun x hx => (hInv.unR x hx).1)
    hInv.dRD
  refine ⟨h.1, ?_⟩
  intro x hx
  rcases h.2 x hx with hx0 | hx1
  · cases hx0
  · exact hx1

/-!
## The latency-update phase
-/

theorem Instr.update_eq_of_none {i : Instr} (hts : i.t_start = none)
    (t c : Nat) : i.update t c = i := by
  unfold Instr.update
  rw [hts]

theorem Instr.update_eq_of_some {i : Instr} {s : Nat}
    (hts : i.t_start = some s) (t c : Nat) :
    i.update t c = if t = s + c - 1 then { i with t_end := some t } else i := by
  unfold Instr.update
  rw [hts]

theorem Instr.update_t_start (i : Instr) (t c : Nat) :
    (i.update t c).t_start = i.t_start := by
  cases hts : i.t_start with
  | none =>
    rw [Instr.update_eq_of_none hts]
    exact hts
  | some s =>
    rw [Instr.update_eq_of_some hts]
    split <;> rw [hts]

theorem Instr.update_opecode (i : Instr) (t c : Nat) :
    (i.update t c).opecode = i.opecode := by
  cases hts : i.t_start with
  | none => rw [Instr.update_eq_of_none hts]
  | some s =>
    rw [Instr.update_eq_of_some hts]
    split <;> rfl

theorem Instr.update_dependent_list (i : Instr) (t c : Nat) :
    (i.update t c).dependent_list = i.dependent_list := by
  cases hts : i.t_start with
  | none => rw [Instr.update_eq_of_none hts]
  | some s =>
    rw [Instr.update_eq_of_some hts]
    split <;> rfl

theorem Instr.update_next_list (i : Instr) (t c : Nat) :
    (i.update t c).next_list = i.next_list := by
  cases hts : i.t_start with
  | none => rw [Instr.update_eq_of_none hts]
  | some s =>
    rw [Instr.update_eq_of_some hts]
    split <;> rfl

theorem Instr.update_t_end (i : Instr) (t c : Nat) :
    (i.update t c).t_end =
      match i.t_start with
      | some s => if t = s + c - 1 then some t else i.t_end
      | none => i.t_end := by
  cases hts : i.t_start with
  | none => rw [Instr.update_eq_of_none hts]
  | some s =>
    rw [Instr.update_eq_of_some hts]
    show (if t = s + c - 1 then ({ i with t_end := some t } : Instr) else i).t_end
        = if t = s + c - 1 then some t else i.t_end
    by_cases h : t = s + c - 1
    · rw [if_pos h, if_pos h]
    · rw [if_neg h, if_neg h]

theorem Instr.update_idem (i : Instr) (t c : Nat) :
    (i.update t c).update t c = i.update t c := by
  cases hts : i.t_start with
  | none => rw [Instr.update_eq_of_none hts, Instr.update_eq_of_none hts]
  | some s =>
    rw [Instr.update_eq_of_some hts]
    by_cases h : t = s + c - 1
    · rw [if_pos h]
      have hts2 : ({ i with t_end := some t } : Instr).t_start = some s := hts
      rw [Instr.update_eq_of_some hts2, if_pos h]
    · rw [if_neg h, Instr.update_eq_of_some hts, if_neg h]

theorem latencyStep_pools (t : Nat) (st : SchedState) (id : Nat)
    (p : PoolTag) : (latencyStep t st id).getPool p = st.getPool p := by
  unfold latencyStep
  exact setInstr_pools _ _ _ p

theorem latencyStep_lists (t : Nat) (st : SchedState) (id : Nat) :
    (latencyStep t st id).instr_wait_list = st.instr_wait_list ∧
    (latencyStep t st id).instr_dispatched_list = st.instr_dispatched_list ∧
    (latencyStep t st id).ready_set = st.ready_set ∧
    (latencyStep t st id).priority_type = st.priority_type ∧
    (latencyStep t st id).arena.length = st.arena.length := by
  unfold latencyStep
  exact ⟨rfl, rfl, rfl, rfl, setInstr_arena_length _ _ _⟩

theorem instrAt_oob {s : SchedState} {x : Nat} (h : s.arena.length ≤ x) :
    s.instrAt x = dummyInstr :=
  instrOf_oob h

theorem latencyStep_instrAt (t : Nat) (st : SchedState) (id x : Nat) :
    (latencyStep t st id).instrAt x =
      if x = id then (st.instrAt id).update t (st.clkOfOp (st.instrAt id).opecode)
      else st.instrAt x := by
  by_cases hx : x = id
  · subst hx
    rw [if_pos rfl]
    by_cases hlt : x < st.arena.length
    · exact instrAt_setInstr_self hlt
    · have hge : st.arena.length ≤ x := Nat.le_of_not_lt hlt
      have h1 : (latencyStep t st x).arena.length = st.arena.length :=
        (latencyStep_lists t st x).2.2.2.2
      have h2 : (latencyStep t st x).instrAt x = dummyInstr :=
        instrAt_oob (by rw [h1]; exact hge)
      rw [h2, instrAt_oob hge]
      rfl
  · rw [if_neg hx]
    exact instrAt_setInstr_ne (fun hh => hx hh.symm)

theorem latencyFold_frame (t : Nat) :
    ∀ (l : List Nat) (st : SchedState),
    (∀ p, (l.foldl (latencyStep t) st).getPool p = st.getPool p) ∧
    (l.foldl (latencyStep t) st).instr_wait_list = st.instr_wait_list ∧
    (l.foldl (latencyStep t) st).instr_dispatched_list = st.instr_dispatched_list ∧
    (l.foldl (latencyStep t) st).ready_set = st.ready_set ∧
    (l.foldl (latencyStep t) st).priority_type = st.priority_type ∧
    (l.foldl (latencyStep t) st).arena.length = st.arena.length := by
  intro l
  induction l with
  | nil =>
    intro st
    exact ⟨fun p => rfl, rfl, rfl, rfl, rfl, rfl⟩
  | cons a l ih =>
    intro st
    rw [List.foldl_cons]
    obtain ⟨i1, i2, i3, i4, i5, i6⟩ := ih (latencyStep t st a)
    obtain ⟨j1, j2, j3, j4, j5⟩ := latencyStep_lists t st a
    exact ⟨fun p => (i1 p).trans (latencyStep_pools t st a p),
      i2.trans j1, i3.trans j2, i4.trans j3, i5.trans j4, i6.trans j5⟩

theorem latencyFold_instrAt (t : Nat) :
    ∀ (l : List Nat) (st : SchedState) (x : Nat),
    (l.foldl (latencyStep t) st).instrAt x =
      if x ∈ l then (st.instrAt x).update t (st.clkOfOp (st.instrAt x).opecode)
      else st.instrAt x := by
  intro l
  induction l with
  | nil =>
    intro st x
    simp
  | cons a l ih =>
    intro st x
    rw [List.foldl_cons, ih (latencyStep t st a) x]
    have hstep := latencyStep_instrAt t st a x
    have hclk : ∀ op, (latencyStep t st a).clkOfOp op = st.clkOfOp op := by
      intro op
      unfold SchedState.clkOfOp
      rw [latencyStep_pools]
    by_cases hxa : x = a
    · subst hxa
      rw [if_pos rfl] at hstep
      by_cases hxl : x ∈ l
      · rw [if_pos hxl]
        simp only [hstep, hclk, Instr.update_opecode, Instr.update_idem]
        rw [if_pos (List.mem_cons_self x l)]
      · rw [if_neg hxl, hstep]
        rw [if_pos (List.mem_cons_self x l)]
    · rw [if_neg hxa] at hstep
      by_cases hxl : x ∈ l
      · rw [if_pos hxl]
        simp only [hstep, hclk]
        rw [if_pos (List.mem_cons_of_mem a hxl)]
      · rw [if_neg hxl, hstep]
        rw [if_neg (fun hc => (List.mem_cons.mp hc).elim hxa hxl)]

/-!
## The refresh phase (`_update_ready_set`) preserves the loop invariant
-/

theorem update_fields (u : OpUnits) (t : Nat) :
    (u.update t).unit_list = u.unit_list ∧ (u.update t).n = u.n ∧
    (u.update t).clocks = u.clocks := by
  obtain ⟨a, b, c, _⟩ := update_foldl_fields t u.unit_list u
  exact ⟨a, b, c⟩

theorem get_status_done_iff (i : Instr) :
    ((i.get_status == Status.DONE) = true) ↔ ∃ e, i.t_end = some e := by
  unfold Instr.get_status
  cases hte : i.t_end with
  | none =>
    cases hts : i.t_start with
    | none =>
      constructor
      · intro h
        have h2 : (Status.NOT_STARTED == Status.DONE) = true := h
        exact absurd h2 (by decide)
      · rintro ⟨e, he⟩
        exact Option.noConfusion he
    | some s =>
      constructor
      · intro h
        have h2 : (Status.RUNNING == Status.DONE) = true := h
        exact absurd h2 (by decide)
      · rintro ⟨e, he⟩
        exact Option.noConfusion he
  | some e =>
    constructor
    · intro _
      exact ⟨e, rfl⟩
    · intro _
      show (Status.DONE == Status.DONE) = true
      decide

theorem inv_updateReadySet {t' : Nat} {s : SchedState} (hInv : Inv t' s) :
    Inv t' (updateReadySet s) := by
  have hr : updateReadySet s =
      { s with
        ready_set := (s.instr_wait_list.filter (fun id => depsDone s id)).foldl
          (heappush (readyLt s)) s.ready_set
        instr_wait_list := (s.instr_wait_list.filter (fun id => depsDone s id)).foldl
          List.erase s.instr_wait_list } := rfl
  rw [hr]
  set moved := s.instr_wait_list.filter (fun id => depsDone s id) with hmv
  set ready' := moved.foldl (heappush (readyLt s)) s.ready_set with hrd
  set wait' := moved.foldl List.erase s.instr_wait_list with hwt
  set r : SchedState :=
    { s with ready_set := ready', instr_wait_list := wait' } with hrdef
  have hPool : ∀ p, r.getPool p = s.getPool p := by
    intro p
    cases p <;> rfl
  have hclkOp : ∀ op, r.clkOfOp op = s.clkOfOp op := by
    intro op
    show (r.getPool (poolTagOf op)).clocks = (s.getPool (poolTagOf op)).clocks
    rw [hPool]
  have hperm : ready'.Perm (s.ready_set ++ moved) :=
    foldl_heappush_perm (readyLt s) moved s.ready_set
  have hmemR : ∀ x, x ∈ ready' ↔ (x ∈ s.ready_set ∨ x ∈ moved) := by
    intro x
    rw [hperm.mem_iff, List.mem_append]
  have hmemW : ∀ x, x ∈ wait' ↔ (x ∈ s.instr_wait_list ∧ x ∉ moved) :=
    mem_foldl_erase moved s.instr_wait_list hInv.ndW
  have hmvW : ∀ x ∈ moved, x ∈ s.instr_wait_list :=
    fun x hx => List.mem_of_mem_filter hx
  have hmvD : ∀ x ∈ moved, depsDone s x = true :=
    fun x hx => List.of_mem_filter hx
  have hndM : moved.Nodup := hInv.ndW.filter _
  refine ⟨hInv.clkA, hInv.clkF, hInv.clkM, ?_, ?_, hInv.ndD, ?_, ?_, ?_, ?_,
    ?_, hInv.bndD, ?_, ?_, hInv.stD, ?_, hInv.endLt, ?_, hInv.dspD, ?_, ?_, ?_,
    ?_, ?_⟩
  · exact (foldl_erase_sublist moved s.instr_wait_list).nodup hInv.ndW
  · refine (hperm.nodup_iff).mpr (List.nodup_append.mpr ⟨hInv.ndR, hndM, ?_⟩)
    intro a haR haM
    exact hInv.dWR a (hmvW a haM) haR
  · intro id hidW hidR
    obtain ⟨hw, hnm⟩ := (hmemW id).mp hidW
    rcases (hmemR id).mp hidR with h | h
    · exact hInv.dWR id hw h
    · exact hnm h
  · intro id hid
    exact hInv.dWD id ((hmemW id).mp hid).1
  · intro id hid
    rcases (hmemR id).mp hid with h | h
    · exact hInv.dRD id h
    · exact hInv.dWD id (hmvW id h)
  · intro id hid
    exact hInv.bndW id ((hmemW id).mp hid).1
  · intro id hid
    rcases (hmemR id).mp hid with h | h
    · exact hInv.bndR id h
    · exact hInv.bndW id (hmvW id h)
  · intro id hid
    exact hInv.unW id ((hmemW id).mp hid).1
  · intro id hid
    rcases (hmemR id).mp hid with h | h
    · exact hInv.unR id h
    · exact hInv.unW id (hmvW id h)
  · intro id e he
    obtain ⟨st, h1, h2⟩ := hInv.endC id e he
    refine ⟨st, h1, ?_⟩
    rw [hclkOp ((r.instrAt id).opecode)]
    exact h2
  · intro id hid d hd
    rcases (hmemR id).mp hid with h | h
    · exact hInv.rdyD id h d hd
    · have hdd := hmvD id h
      unfold depsDone at hdd
      have hall := (List.all_eq_true.mp hdd) d hd
      obtain ⟨e, he⟩ := (get_status_done_iff _).mp hall
      exact ⟨e, he, hInv.endLt d e he⟩
  · intro id hlt
    rcases hInv.part id hlt with h | h | h
    · by_cases hm : id ∈ moved
      · exact Or.inr (Or.inl ((hmemR id).mpr (Or.inr hm)))
      · exact Or.inl ((hmemW id).mpr ⟨h, hm⟩)
    · exact Or.inr (Or.inl ((hmemR id).mpr (Or.inl h)))
    · exact Or.inr (Or.inr h)
  · intro p
    rw [hPool p]
    exact hInv.nb p
  · intro p s0
    rw [hPool p]
    exact hInv.ent p s0
  · intro p
    have heq : liveCount r s.instr_dispatched_list p t' =
        liveCount s s.instr_dispatched_list p t' :=
      liveCount_congr (fun id _ => ⟨rfl, rfl⟩) (by rw [hPool])
    show (liveCount r s.instr_dispatched_list p t' : Int) ≤ (r.getPool p).n_busy
    rw [hPool p, heq]
    exact hInv.liv p
  · intro p t0 h
    have heq : busyCount r s.instr_dispatched_list p t0 =
        busyCount s s.instr_dispatched_list p t0 :=
      busyCount_congr (fun id _ => ⟨rfl, rfl⟩) (by rw [hPool])
    show busyCount r s.instr_dispatched_list p t0 ≤ (r.getPool p).n
    rw [hPool p, heq]
    exact hInv.hist p t0 h

/-!
## One full `_dispatch` cycle preserves the loop invariant
-/

theorem inv_after_cycle {t : Nat} {s s1 s2 s3 s4 : SchedState} {batch : List Nat}
    (hInv : Inv t s)
    (hPI : PassInv t s s1 batch)
    (hbs : ∀ x ∈ batch, x ∈ s.ready_set)
    (hs2 : s2 = { s1 with
      ready_set := batch.foldl List.erase s1.ready_set
      instr_dispatched_list := s1.instr_dispatched_list ++ batch })
    (hs3 : s3 = s2.instr_dispatched_list.foldl (latencyStep t) s2)
    (hs4 : s4 = { s3 with alu := s3.alu.update t
                          fpu := s3.fpu.update t
                          memory := s3.memory.update t }) :
    Inv (t + 1) (updateReadySet s4) := by
  apply inv_updateReadySet
  obtain ⟨h1, h2, h3, h4, h5, h6, h7, h8, h9, h10, h11, h12, h13, h14⟩ := hPI
  have hclk1 : ∀ p : PoolTag, 1 ≤ (s.getPool p).clocks := by
    intro p
    cases p
    · rw [show s.getPool PoolTag.alu = s.alu from rfl, hInv.clkA]
      decide
    · rw [show s.getPool PoolTag.fpu = s.fpu from rfl, hInv.clkF]
      decide
    · rw [show s.getPool PoolTag.memory = s.memory from rfl, hInv.clkM]
      decide
  have hbatch_nD : ∀ x ∈ batch, x ∉ s.instr_dispatched_list :=
    fun x hx => hInv.dRD x (hbs x hx)
  have hdisj : ∀ x ∈ s.instr_dispatched_list, x ∉ batch :=
    fun x hx hxb => hbatch_nD x hxb hx
  -- stage 2 (removal) facts
  have h2w : s2.instr_wait_list = s.instr_wait_list := by
    rw [hs2]
    exact h1
  have h2d : s2.instr_dispatched_list = s.instr_dispatched_list ++ batch := by
    rw [hs2]
    show s1.instr_dispatched_list ++ batch = _
    rw [h2]
  have h2r : s2.ready_set = batch.foldl List.erase s.ready_set := by
    rw [hs2]
    show batch.foldl List.erase s1.ready_set = _
    rw [h3]
  have h2P : ∀ p, s2.getPool p = s1.getPool p := by
    intro p
    rw [hs2]
    cases p <;> rfl
  have h2IA : ∀ x, s2.instrAt x = s1.instrAt x := by
    intro x
    rw [hs2]
    rfl
  have h2len : s2.arena.length = s.arena.length := by
    rw [hs2]
    exact h5
  have h2clk : ∀ op, s2.clkOfOp op = s.clkOfOp op := by
    intro op
    show (s2.getPool (poolTagOf op)).clocks = _
    rw [h2P, h6]
    rfl
  have hmem2 : ∀ x, (x ∈ s2.instr_dispatched_list ↔
      (x ∈ s.instr_dispatched_list ∨ x ∈ batch)) := by
    intro x
    rw [h2d, List.mem_append]
  -- stage 3 (latency fold) facts
  have h3IA_mem : ∀ x, x ∈ s2.instr_dispatched_list →
      s3.instrAt x = (s2.instrAt x).update t (s2.clkOfOp (s2.instrAt x).opecode) := by
    intro x hx
    rw [hs3, latencyFold_instrAt t s2.instr_dispatched_list s2 x, if_pos hx]
  have h3IA_nmem : ∀ x, x ∉ s2.instr_dispatched_list → s3.instrAt x = s2.instrAt x := by
    intro x hx
    rw [hs3, latencyFold_instrAt t s2.instr_dispatched_list s2 x, if_neg hx]
  have h3fr := latencyFold_frame t s2.instr_dispatched_list s2
  rw [← hs3] at h3fr
  obtain ⟨h3P, h3w, h3d, h3r, h3pt, h3len⟩ := h3fr
  -- stage 4 (pool updates) facts
  have h4P : ∀ p, s4.getPool p = (s3.getPool p).update t := by
    intro p
    rw [hs4]
    cases p <;> rfl
  have h4IA : ∀ x, s4.instrAt x = s3.instrAt x := by
    intro x
    rw [hs4]
    rfl
  have h4w : s4.instr_wait_list = s.instr_wait_list := by
    rw [hs4]
    show s3.instr_wait_list = _
    rw [h3w, h2w]
  have h4d : s4.instr_dispatched_list = s.instr_dispatched_list ++ batch := by
    rw [hs4]
    show s3.instr_dispatched_list = _
    rw [h3d, h2d]
  have h4r : s4.ready_set = batch.foldl List.erase s.ready_set := by
    rw [hs4]
    show s3.ready_set = _
    rw [h3r, h2r]
  have h4len : s4.arena.length = s.arena.length := by
    rw [hs4]
    show s3.arena.length = _
    rw [h3len, h2len]
  have h4clkP : ∀ p, (s4.getPool p).clocks = (s.getPool p).clocks := by
    intro p
    rw [h4P, (update_fields _ _).2.2, h3P, h2P, h6]
  have h4nP : ∀ p, (s4.getPool p).n = (s.getPool p).n := by
    intro p
    rw [h4P, (update_fields _ _).2.1, h3P, h2P, h7]
  have h4clkOp : ∀ op, s4.clkOfOp op = s.clkOfOp op := by
    intro op
    exact h4clkP (poolTagOf op)
  have h4ul : ∀ p, (s4.getPool p).unit_list = (s1.getPool p).unit_list := by
    intro p
    rw [h4P, (update_fields _ _).1, h3P, h2P]
  have h4nb : ∀ p, (s4.getPool p).n_busy = (s1.getPool p).n_busy -
      (((s1.getPool p).unit_list.filter
        (fun e => e.2 && decide (t = e.1 + (s1.getPool p).clocks - 1))).length : Int) := by
    intro p
    rw [h4P, update_n_busy_spec, h3P, h2P]
  have hclkP41 : ∀ p, (s4.getPool p).clocks = (s1.getPool p).clocks := by
    intro p
    rw [h4clkP p, h6 p]
  -- the three canonical instruction forms after the latency fold
  have hIA_disp : ∀ x ∈ s.instr_dispatched_list,
      s3.instrAt x = (s.instrAt x).update t (s.clkOfOp (s.instrAt x).opecode) := by
    intro x hx
    have hs1x : s1.instrAt x = s.instrAt x := h11 x (hdisj x hx)
    rw [h3IA_mem x ((hmem2 x).mpr (Or.inl hx)), h2IA, hs1x, h2clk]
  have hIA_batch : ∀ x ∈ batch,
      s3.instrAt x = ({ s.instrAt x with t_start := some t }).update t
        (s.clkOfOp (s.instrAt x).opecode) := by
    intro x hx
    have hs1x : s1.instrAt x = { s.instrAt x with t_start := some t } := h10 x hx
    rw [h3IA_mem x ((hmem2 x).mpr (Or.inr hx)), h2IA, hs1x, h2clk]
  have hIA_other : ∀ x, x ∉ s.instr_dispatched_list → x ∉ batch →
      s3.instrAt x = s.instrAt x := by
    intro x hx1 hx2
    rw [h3IA_nmem x (fun hc => ((hmem2 x).mp hc).elim hx1 hx2), h2IA, h11 x hx2]
  -- membership in the stage-4 lists
  have hmemR4 : ∀ x, x ∈ s4.ready_set ↔ (x ∈ s.ready_set ∧ x ∉ batch) := by
    intro x
    rw [h4r]
    exact mem_foldl_erase batch s.ready_set hInv.ndR x
  have hmemD4 : ∀ x, x ∈ s4.instr_dispatched_list ↔
      (x ∈ s.instr_dispatched_list ∨ x ∈ batch) := by
    intro x
    rw [h4d, List.mem_append]
  -- start/end cycle transport
  have hBatchStart : ∀ x ∈ batch, (s4.instrAt x).t_start = some t := by
    intro x hx
    rw [h4IA x, hIA_batch x hx, Instr.update_t_start]
  have hBatchEnd : ∀ x ∈ batch, ∀ e, (s4.instrAt x).t_end = some e →
      e = t ∧ t = t + s.clkOfOp (s.instrAt x).opecode - 1 := by
    intro x hx e he
    rw [h4IA x, hIA_batch x hx, Instr.update_t_end] at he
    have he2 : (if t = t + s.clkOfOp (s.instrAt x).opecode - 1 then some t
        else (s.instrAt x).t_end) = some e := he
    by_cases hc : t = t + s.clkOfOp (s.instrAt x).opecode - 1
    · rw [if_pos hc] at he2
      exact ⟨(Option.some.inj he2).symm, hc⟩
    · rw [if_neg hc] at he2
      rw [(hInv.unR x (hbs x hx)).2] at he2
      exact absurd he2 (fun hcc => Option.noConfusion hcc)
  have hStartPres : ∀ x st0, (s.instrAt x).t_start = some st0 →
      (s4.instrAt x).t_start = some st0 := by
    intro x st0 hst
    by_cases hx1 : x ∈ s.instr_dispatched_list
    · rw [h4IA x, hIA_disp x hx1, Instr.update_t_start]
      exact hst
    · by_cases hx2 : x ∈ batch
      · rw [(hInv.unR x (hbs x hx2)).1] at hst
        exact absurd hst (fun hc => Option.noConfusion hc)
      · rw [h4IA x, hIA_other x hx1 hx2]
        exact hst
  have hEndPres : ∀ x e, (s.instrAt x).t_end = some e →
      (s4.instrAt x).t_end = some e := by
    intro x e he
    by_cases hx1 : x ∈ s.instr_dispatched_list
    · rw [h4IA x, hIA_disp x hx1]
      obtain ⟨st, hst, _⟩ := hInv.stD x hx1
      rw [Instr.update_t_end, hst]
      show (if t = st + s.clkOfOp (s.instrAt x).opecode - 1 then some t
          else (s.instrAt x).t_end) = some e
      obtain ⟨st', hst', hec⟩ := hInv.endC x e he
      have hstst : st' = st := Option.some.inj (hst'.symm.trans hst)
      have hlt := hInv.endLt x e he
      have hne : ¬(t = st + s.clkOfOp (s.instrAt x).opecode - 1) := by omega
      rw [if_neg hne]
      exact he
    · by_cases hx2 : x ∈ batch
      · rw [(hInv.unR x (hbs x hx2)).2] at he
        exact absurd he (fun hc => Option.noConfusion hc)
      · rw [h4IA x, hIA_other x hx1 hx2]
        exact he
  -- the stable-field congruence over the new dispatched list
  have hfields : ∀ id ∈ s.instr_dispatched_list ++ batch,
      (s4.instrAt id).opecode = (s1.instrAt id).opecode ∧
      (s4.instrAt id).t_start = (s1.instrAt id).t_start := by
    intro id hidm
    rcases List.mem_append.mp hidm with h | h
    · constructor
      · rw [h4IA id, hIA_disp id h, Instr.update_opecode, h11 id (hdisj id h)]
      · rw [h4IA id, hIA_disp id h, Instr.update_t_start, h11 id (hdisj id h)]
    · constructor
      · rw [h4IA id, hIA_batch id h, Instr.update_opecode, h10 id h]
      · rw [h4IA id, hIA_batch id h, Instr.update_t_start, h10 id h]
  refine ⟨?_, ?_, ?_, ?_, ?_, ?_, ?_, ?_, ?_, ?_, ?_, ?_, ?_, ?_, ?_, ?_, ?_,
    ?_, ?_, ?_, ?_, ?_, ?_, ?_⟩
  · show (s4.getPool PoolTag.alu).clocks = Clocks.ALU
    rw [h4clkP]
    exact hInv.clkA
  · show (s4.getPool PoolTag.fpu).clocks = Clocks.FPU
    rw [h4clkP]
    exact hInv.clkF
  · show (s4.getPool PoolTag.memory).clocks = Clocks.MEMORY
    rw [h4clkP]
    exact hInv.clkM
  · rw [h4w]
    exact hInv.ndW
  · rw [h4r]
    exact (foldl_erase_sublist batch s.ready_set).nodup hInv.ndR
  · rw [h4d]
    refine List.nodup_append.mpr ⟨hInv.ndD, h8, ?_⟩
    intro a ha hab
    exact hbatch_nD a hab ha
  · intro id hidW hidR
    rw [h4w] at hidW
    exact hInv.dWR id hidW ((hmemR4 id).mp hidR).1
  · intro id hidW hidD
    rw [h4w] at hidW
    rcases (hmemD4 id).mp hidD with h | h
    · exact hInv.dWD id hidW h
    · exact hInv.dWR id hidW (hbs id h)
  · intro id hidR hidD
    obtain ⟨hr, hnb'⟩ := (hmemR4 id).mp hidR
    rcases (hmemD4 id).mp hidD with h | h
    · exact hInv.dRD id hr h
    · exact hnb' h
  · intro id hid
    rw [h4w] at hid
    rw [h4len]
    exact hInv.bndW id hid
  · intro id hid
    rw [h4len]
    exact hInv.bndR id ((hmemR4 id).mp hid).1
  · intro id hid
    rw [h4len]
    rcases (hmemD4 id).mp hid with h | h
    · exact hInv.bndD id h
    · exact h9 id h
  · intro id hid
    rw [h4w] at hid
    have hnd' : id ∉ s.instr_dispatched_list := hInv.dWD id hid
    have hnb' : id ∉ batch := fun hb => hInv.dWR id hid (hbs id hb)
    rw [h4IA id, hIA_other id hnd' hnb']
    exact hInv.unW id hid
  · intro id hid
    obtain ⟨hr, hnb'⟩ := (hmemR4 id).mp hid
    have hnd' : id ∉ s.instr_dispatched_list := hInv.dRD id hr
    rw [h4IA id, hIA_other id hnd' hnb']
    exact hInv.unR id hr
  · intro id hid
    rcases (hmemD4 id).mp hid with h | h
    · obtain ⟨st, hst, hlt⟩ := hInv.stD id h
      exact ⟨st, hStartPres id st hst, by omega⟩
    · exact ⟨t, hBatchStart id h, by omega⟩
  · intro id e he
    by_cases hx1 : id ∈ s.instr_dispatched_list
    · rw [h4IA id, hIA_disp id hx1] at he
      obtain ⟨st, hst, _⟩ := hInv.stD id hx1
      rw [Instr.update_t_end, hst] at he
      have he2 : (if t = st + s.clkOfOp (s.instrAt id).opecode - 1 then some t
          else (s.instrAt id).t_end) = some e := he
      have hgts : (s4.instrAt id).t_start = (s.instrAt id).t_start := by
        rw [h4IA id, hIA_disp id hx1, Instr.update_t_start]
      have hgclk : s4.clkOfOp (s4.instrAt id).opecode =
          s.clkOfOp (s.instrAt id).opecode := by
        rw [h4IA id, hIA_disp id hx1, Instr.update_opecode, h4clkOp]
      by_cases hc : t = st + s.clkOfOp (s.instrAt id).opecode - 1
      · rw [if_pos hc] at he2
        refine ⟨st, by rw [hgts]; exact hst, ?_⟩
        rw [hgclk]
        have hte : t = e := Option.some.inj he2
        omega
      · rw [if_neg hc] at he2
        obtain ⟨st', hst', hec⟩ := hInv.endC id e he2
        exact ⟨st', by rw [hgts]; exact hst', by rw [hgclk]; exact hec⟩
    · by_cases hx2 : id ∈ batch
      · obtain ⟨he1, hc⟩ := hBatchEnd id hx2 e he
        refine ⟨t, hBatchStart id hx2, ?_⟩
        have hgclk : s4.clkOfOp (s4.instrAt id).opecode =
            s.clkOfOp (s.instrAt id).opecode := by
          rw [h4IA id, hIA_batch id hx2, Instr.update_opecode, h4clkOp]
        rw [hgclk]
        omega
      · rw [h4IA id, hIA_other id hx1 hx2] at he
        obtain ⟨st, hst, hec⟩ := hInv.endC id e he
        have hgclk : s4.clkOfOp (s4.instrAt id).opecode =
            s.clkOfOp (s.instrAt id).opecode := by
          rw [h4IA id, hIA_other id hx1 hx2, h4clkOp]
        exact ⟨st, by rw [h4IA id, hIA_other id hx1 hx2]; exact hst,
          by rw [hgclk]; exact hec⟩
  · intro id e he
    by_cases hx1 : id ∈ s.instr_dispatched_list
    · rw [h4IA id, hIA_disp id hx1] at he
      obtain ⟨st, hst, _⟩ := hInv.stD id hx1
      rw [Instr.update_t_end, hst] at he
      have he2 : (if t = st + s.clkOfOp (s.instrAt id).opecode - 1 then some t
          else (s.instrAt id).t_end) = some e := he
      by_cases hc : t = st + s.clkOfOp (s.instrAt id).opecode - 1
      · rw [if_pos hc] at he2
        have hte : t = e := Option.some.inj he2
        omega
      · rw [if_neg hc] at he2
        have := hInv.endLt id e he2
        omega
    · by_cases hx2 : id ∈ batch
      · obtain ⟨he1, _⟩ := hBatchEnd id hx2 e he
        omega
      · rw [h4IA id, hIA_other id hx1 hx2] at he
        have := hInv.endLt id e he
        omega
  · intro id hid d hd
    obtain ⟨hr, hnb'⟩ := (hmemR4 id).mp hid
    have hnd' : id ∉ s.instr_dispatched_list := hInv.dRD id hr
    rw [h4IA id, hIA_other id hnd' hnb'] at hd
    obtain ⟨e, he, hlt⟩ := hInv.rdyD id hr d hd
    exact ⟨e, hEndPres d e he, by omega⟩
  · intro id hid d hd
    rcases (hmemD4 id).mp hid with h | h
    · have hdl : (s4.instrAt id).dependent_list =
          (s.instrAt id).dependent_list := by
        rw [h4IA id, hIA_disp id h, Instr.update_dependent_list]
      rw [hdl] at hd
      obtain ⟨e, st, he, hst, hlt⟩ := hInv.dspD id h d hd
      exact ⟨e, st, hEndPres d e he, hStartPres id st hst, hlt⟩
    · have hdl : (s4.instrAt id).dependent_list =
          (s.instrAt id).dependent_list := by
        rw [h4IA id, hIA_batch id h, Instr.update_dependent_list]
      rw [hdl] at hd
      obtain ⟨e, he, hlt⟩ := hInv.rdyD id (hbs id h) d hd
      exact ⟨e, t, hEndPres d e he, hBatchStart id h, hlt⟩
  · intro id hlt
    rw [h4len] at hlt
    rcases hInv.part id hlt with h | h | h
    · left
      rw [h4w]
      exact h
    · by_cases hb : id ∈ batch
      · exact Or.inr (Or.inr ((hmemD4 id).mpr (Or.inr hb)))
      · exact Or.inr (Or.inl ((hmemR4 id).mpr ⟨h, hb⟩))
    · exact Or.inr (Or.inr ((hmemD4 id).mpr (Or.inl h)))
  · intro p
    have h12p := h12 p
    rw [h7 p] at h12p
    rw [h4nb p, h4nP p]
    omega
  · intro p s0
    show entryCount (s4.getPool p) s0 ≤
      startCount s4 s4.instr_dispatched_list p s0
    rw [h4d]
    have hentry : entryCount (s4.getPool p) s0 = entryCount (s1.getPool p) s0 := by
      unfold entryCount
      rw [h4ul p]
    rw [hentry, startCount_congr hfields]
    exact h13 p s0
  · intro p
    rw [h4d, liveCount_congr hfields (hclkP41 p), h4nb p]
    have h14p := h14 p
    have hsplit := liveCount_split s1 (s.instr_dispatched_list ++ batch) p t
    have hc1' : 1 ≤ (s1.getPool p).clocks := by
      rw [h6 p]
      exact hclk1 p
    by_cases hcle : (s1.getPool p).clocks ≤ t + 1
    · have hfires := fires_eq_entryCount (s1.getPool p) hc1' hcle
      have hentle := h13 p (t + 1 - (s1.getPool p).clocks)
      have hendeq := endCount_eq_startCount s1
        (s.instr_dispatched_list ++ batch) p hc1' hcle
      omega
    · have hfires := fires_zero (s1.getPool p) (t := t) (by omega)
      have hendeq := endCount_zero s1 (s.instr_dispatched_list ++ batch) p
        (t := t) (by omega)
      omega
  · intro p t0 hlt0
    rw [h4d, busyCount_congr hfields (hclkP41 p), h4nP p]
    rcases Nat.lt_succ_iff_lt_or_eq.mp hlt0 with h | h
    · rw [busyCount_append]
      have hbatch0 : busyCount s1 batch p t0 = 0 := by
        unfold busyCount
        have h0 := filter_length_mono batch
          (fun id => decide (poolTagOf (s1.instrAt id).opecode = p) &&
            (s1.instrAt id).busyAt (s1.getPool p).clocks t0)
          (fun _ => false) ?_
        · rw [List.filter_false] at h0
          simp only [List.length_nil] at h0
          omega
        · intro x hx hpred
          rw [Bool.and_eq_true] at hpred
          have hb2 := hpred.2
          have hts : (s1.instrAt x).t_start = some t := by
            rw [h10 x hx]

          unfold Instr.busyAt at hb2
          rw [hts] at hb2
          have hb3 : (decide (t ≤ t0) &&
              decide (t0 ≤ t + (s1.getPool p).clocks - 1)) = true := hb2
          rw [Bool.and_eq_true] at hb3
          have hle := of_decide_eq_true hb3.1
          exact absurd h (not_lt.mpr hle)
      have hdisp0 : busyCount s1 s.instr_dispatched_list p t0 =
          busyCount s s.instr_dispatched_list p t0 :=
        busyCount_congr
          (fun id hid => ⟨by rw [h11 id (hdisj id hid)],
            by rw [h11 id (hdisj id hid)]⟩)
          (by rw [h6 p])
      rw [hbatch0, hdisp0]
      have := hInv.hist p t0 h
      omega
    · subst h
      have hble := busyCount_le_liveCount s1
        (s.instr_dispatched_list ++ batch) p t0
      have h14p := h14 p
      have h12p := h12 p
      have h7p := h7 p
      omega

theorem inv_dispatchCycle {t : Nat} {s : SchedState} (hInv : Inv t s) :
    Inv (t + 1) (dispatchCycle s t).1 := by
  obtain ⟨hPI, hbs⟩ := dispatchPass_spec hInv
  by_cases hb : (dispatchPass s t).2.length > 0
  · have hcore := inv_after_cycle hInv hPI hbs rfl rfl rfl
    simp only [dispatchCycle]
    rw [if_pos hb]
    exact hcore
  · have hbe : (dispatchPass s t).2 = [] :=
      List.eq_nil_of_length_eq_zero (by omega)
    have hs2 : (dispatchPass s t).1 =
        { (dispatchPass s t).1 with
          ready_set := (dispatchPass s t).2.foldl List.erase
            (dispatchPass s t).1.ready_set
          instr_dispatched_list := (dispatchPass s t).1.instr_dispatched_list ++
            (dispatchPass s t).2 } := by
      rw [hbe, List.append_nil]
      rfl
    have hcore := inv_after_cycle hInv hPI hbs hs2 rfl rfl
    simp only [dispatchCycle]
    rw [if_neg hb]
    exact hcore

theorem inv_schedLoop : ∀ (fuel : Nat) (s : SchedState) (t : Nat), Inv t s →
    ∃ tf, t ≤ tf ∧ Inv tf (schedLoop fuel s t).1 := by
  intro fuel
  induction fuel with
  | zero =>
    intro s t h
    exact ⟨t, le_rfl, h⟩
  | succ fuel ih =>
    intro s t h
    by_cases hc : (s.instr_wait_list ++ s.ready_set).length > 0
    · obtain ⟨tf, hle, hInv'⟩ := ih (dispatchCycle s t).1 (t + 1) (inv_dispatchCycle h)
      refine ⟨tf, by omega, ?_⟩
      simp only [schedLoop]
      rw [if_pos hc]
      exact hInv'
    · refine ⟨t, le_rfl, ?_⟩
      simp only [schedLoop]
      rw [if_neg hc]
      exact h

/-!
## The priority passes only touch the `priority` fields
-/

theorem prioOnly_refl (s : SchedState) : PrioOnly s s := by
  refine ⟨rfl, rfl, rfl, rfl, rfl, rfl, rfl, rfl, ?_⟩
  intro a
  exact ⟨(s.instrAt a).priority, rfl⟩

theorem prioOnly_trans {a b c : SchedState} (h1 : PrioOnly a b)
    (h2 : PrioOnly b c) : PrioOnly a c := by
  obtain ⟨x1, x2, x3, x4, x5, x6, x7, x8, x9⟩ := h1
  obtain ⟨y1, y2, y3, y4, y5, y6, y7, y8, y9⟩ := h2
  refine ⟨y1.trans x1, y2.trans x2, y3.trans x3, y4.trans x4, y5.trans x5,
    y6.trans x6, y7.trans x7, y8.trans x8, ?_⟩
  intro a'
  obtain ⟨p, hp⟩ := x9 a'
  obtain ⟨q, hq⟩ := y9 a'
  refine ⟨q, ?_⟩
  rw [hq, hp]

theorem prioOnly_setInstrPrio (acc : SchedState) (id : Nat) (pr : Option Int) :
    PrioOnly acc (acc.setInstr id { acc.instrAt id with priority := pr }) := by
  refine ⟨rfl, rfl, rfl, rfl, rfl, rfl, rfl, setInstr_arena_length acc id _, ?_⟩
  intro a
  by_cases ha : a = id
  · subst ha
    by_cases hlt : a < acc.arena.length
    · exact ⟨pr, instrAt_setInstr_self hlt⟩
    · refine ⟨(acc.instrAt a).priority, ?_⟩
      have hlen := setInstr_arena_length acc a
        ({ acc.instrAt a with priority := pr })
      rw [instrAt_oob (s := acc.setInstr a ({ acc.instrAt a with priority := pr }))
        (by rw [hlen]; omega), instrAt_oob (s := acc) (by omega)]
  · refine ⟨(acc.instrAt a).priority, ?_⟩
    rw [instrAt_setInstr_ne (fun hh => ha hh.symm)]

theorem prioOnly_foldl {α : Type} (g : SchedState → α → SchedState)
    (hg : ∀ acc a, PrioOnly acc (g acc a)) :
    ∀ (l : List α) (acc : SchedState), PrioOnly acc (l.foldl g acc) := by
  intro l
  induction l with
  | nil =>
    intro acc
    exact prioOnly_refl acc
  | cons a l ih =>
    intro acc
    rw [List.foldl_cons]
    exact prioOnly_trans (hg acc a) (ih (g acc a))

theorem prioOnly_foldl_pair {α : Type}
    (g : (SchedState × Bool) → α → SchedState × Bool)
    (hg : ∀ q a, PrioOnly q.1 (g q a).1) :
    ∀ (l : List α) (q : SchedState × Bool), PrioOnly q.1 (l.foldl g q).1 := by
  intro l
  induction l with
  | nil =>
    intro q
    exact prioOnly_refl q.1
  | cons a l ih =>
    intro q
    rw [List.foldl_cons]
    exact prioOnly_trans (hg q a) (ih (g q a))

theorem prioOnly_critRelaxStep (id : Nat) (q : SchedState × Bool) (nid : Nat) :
    PrioOnly q.1 (critRelaxStep id q nid).1 := by
  unfold critRelaxStep
  dsimp only
  split
  · exact prioOnly_setInstrPrio _ _ _
  · exact prioOnly_refl _

theorem prioOnly_countRelaxStep (id : Nat) (q : SchedState × Bool) (did : Nat) :
    PrioOnly q.1 (countRelaxStep id q did).1 := by
  unfold countRelaxStep
  dsimp only
  split
  · exact prioOnly_setInstrPrio _ _ _
  · exact prioOnly_refl _

theorem prioOnly_findCriticalPathPass (s : SchedState) :
    PrioOnly s (findCriticalPathPass s).1 :=
  prioOnly_foldl_pair _
    (fun q id => prioOnly_foldl_pair (critRelaxStep id)
      (prioOnly_critRelaxStep id) _ q)
    s.instr_wait_list (s, false)

theorem prioOnly_countDependencyPass (s : SchedState) :
    PrioOnly s (countDependencyPass s).1 :=
  prioOnly_foldl_pair _
    (fun q id => prioOnly_foldl_pair (countRelaxStep id)
      (prioOnly_countRelaxStep id) _ q)
    s.instr_wait_list (s, false)

theorem prioOnly_bfLoop (passFn : SchedState → SchedState × Bool)
    (hpass : ∀ s, PrioOnly s (passFn s).1) :
    ∀ (fuel : Nat) (s : SchedState), PrioOnly s (bfLoop passFn fuel s) := by
  intro fuel
  induction fuel with
  | zero =>
    intro s
    exact prioOnly_refl s
  | succ fuel ih =>
    intro s
    show PrioOnly s
      (if (passFn s).2 then bfLoop passFn fuel (passFn s).1 else (passFn s).1)
    by_cases hb : (passFn s).2 = true
    · rw [if_pos hb]
      exact prioOnly_trans (hpass s) (ih (passFn s).1)
    · rw [if_neg hb]
      exact hpass s

theorem prioOnly_setPriority (fuel : Nat) (s : SchedState) :
    PrioOnly s (setPriority fuel s) := by
  unfold setPriority
  by_cases h1 : s.priority_type = "time"
  · rw [if_pos h1]
    exact prioOnly_trans
      (prioOnly_foldl critInitStep (fun acc a => prioOnly_setInstrPrio acc a _)
        s.instr_wait_list s)
      (prioOnly_bfLoop findCriticalPathPass prioOnly_findCriticalPathPass fuel _)
  · rw [if_neg h1]
    by_cases h2 : s.priority_type = "resource"
    · rw [if_pos h2]
      exact prioOnly_trans
        (prioOnly_foldl countInitStep (fun acc a => prioOnly_setInstrPrio acc a _)
          s.instr_wait_list s)
        (prioOnly_bfLoop countDependencyPass prioOnly_countDependencyPass fuel _)
    · rw [if_neg h2]
      exact prioOnly_refl s

/-!
## The invariant holds on entry to the simulation loop
-/

theorem entryCount_init (k c s0 : Nat) : entryCount (OpUnits.init k c) s0 = 0 := by
  show ((List.replicate k ((0 : Nat), false)).filter
    (fun e => e.2 && decide (e.1 = s0))).length = 0
  induction k with
  | zero => rfl
  | succ k ih =>
    rw [List.replicate_succ, List.filter_cons]
    rw [if_neg (fun hc => Bool.noConfusion hc)]
    exact ih

theorem inv_initial (bfFuel : Nat) (nA nF nM : Nat) (pt : String)
    (raw : List RawInstr) :
    Inv 0 (updateReadySet (setPriority bfFuel (setDependency
      (initState nA nF nM pt (mkArena raw))))) := by
  apply inv_updateReadySet
  have hw0 : (initState nA nF nM pt (mkArena raw)).instr_wait_list =
      List.range raw.length := by
    show List.range (mkArena raw).length = _
    rw [mkArena_length]
  have hlen0 : (initState nA nF nM pt (mkArena raw)).arena.length = raw.length :=
    mkArena_length raw
  have hGE := graphExtends_setDependency (N := raw.length) hw0 hlen0
  obtain ⟨g1, g2, g3, g4, g5, g6, g7, g8, g9, g10, g11⟩ := hGE
  have hPO := prioOnly_setPriority bfFuel
    (setDependency (initState nA nF nM pt (mkArena raw)))
  obtain ⟨p1, p2, p3, p4, p5, p6, p7, p8, p9⟩ := hPO
  set s0 := initState nA nF nM pt (mkArena raw) with hs0
  set s1' := setDependency s0 with hs1'
  set s2' := setPriority bfFuel s1' with hs2'
  have hwait : s2'.instr_wait_list = List.range raw.length := by
    rw [p4, g2]
    exact hw0
  have hdisp : s2'.instr_dispatched_list = [] := by
    rw [p5, g3]
    rfl
  have hready : s2'.ready_set = [] := by
    rw [p6, g4]
    rfl
  have hlen : s2'.arena.length = raw.length := by
    rw [p8, g1]
    exact hlen0
  have hcore : ∀ a, (s2'.instrAt a).t_start = none ∧
      (s2'.instrAt a).t_end = none := by
    intro a
    obtain ⟨p, hp⟩ := p9 a
    have hc := (coreOf_eq_iff.mp (g9 a)).2.2.2.2.2.2
    have hfr := mkArena_fresh raw a
    constructor
    · rw [hp]
      show (s1'.instrAt a).t_start = none
      rw [hc.1]
      exact hfr.2.2.2.1
    · rw [hp]
      show (s1'.instrAt a).t_end = none
      rw [hc.2]
      exact hfr.2.2.2.2
  have hpA : s2'.alu = OpUnits.init nA Clocks.ALU := by
    rw [p1, g5]
    rfl
  have hpF : s2'.fpu = OpUnits.init nF Clocks.FPU := by
    rw [p2, g6]
    rfl
  have hpM : s2'.memory = OpUnits.init nM Clocks.MEMORY := by
    rw [p3, g7]
    rfl
  have hpool : ∀ p : PoolTag, ∃ k c, s2'.getPool p = OpUnits.init k c := by
    intro p
    cases p
    · exact ⟨nA, Clocks.ALU, hpA⟩
    · exact ⟨nF, Clocks.FPU, hpF⟩
    · exact ⟨nM, Clocks.MEMORY, hpM⟩
  refine ⟨?_, ?_, ?_, ?_, ?_, ?_, ?_, ?_, ?_, ?_, ?_, ?_, ?_, ?_, ?_, ?_, ?_,
    ?_, ?_, ?_, ?_, ?_, ?_, ?_⟩
  · show s2'.alu.clocks = Clocks.ALU
    rw [hpA]
    rfl
  · show s2'.fpu.clocks = Clocks.FPU
    rw [hpF]
    rfl
  · show s2'.memory.clocks = Clocks.MEMORY
    rw [hpM]
    rfl
  · rw [hwait]
    exact List.nodup_range raw.length
  · rw [hready]
    exact List.nodup_nil
  · rw [hdisp]
    exact List.nodup_nil
  · intro id _
    rw [hready]
    exact List.not_mem_nil id
  · intro id _
    rw [hdisp]
    exact List.not_mem_nil id
  · intro id hid
    rw [hready] at hid
    exact absurd hid (List.not_mem_nil id)
  · intro id hid
    rw [hwait] at hid
    rw [hlen]
    exact List.mem_range.mp hid
  · intro id hid
    rw [hready] at hid
    exact absurd hid (List.not_mem_nil id)
  · intro id hid
    rw [hdisp] at hid
    exact absurd hid (List.not_mem_nil id)
  · intro id _
    exact hcore id
  · intro id hid
    rw [hready] at hid
    exact absurd hid (List.not_mem_nil id)
  · intro id hid
    rw [hdisp] at hid
    exact absurd hid (List.not_mem_nil id)
  · intro id e he
    rw [(hcore id).2] at he
    exact absurd he (fun hc => Option.noConfusion hc)
  · intro id e he
    rw [(hcore id).2] at he
    exact absurd he (fun hc => Option.noConfusion hc)
  · intro id hid
    rw [hready] at hid
    exact absurd hid (List.not_mem_nil id)
  · intro id hid
    rw [hdisp] at hid
    exact absurd hid (List.not_mem_nil id)
  · intro id hid
    rw [hlen] at hid
    left
    rw [hwait]
    exact List.mem_range.mpr hid
  · intro p
    obtain ⟨k, c, hk⟩ := hpool p
    rw [hk]
    show ((0 : Int)) ≤ ((k : Nat) : Int)
    omega
  · intro p s0'
    obtain ⟨k, c, hk⟩ := hpool p
    rw [hk, entryCount_init]
    exact Nat.zero_le _
  · intro p
    obtain ⟨k, c, hk⟩ := hpool p
    rw [hdisp, hk]
    show (((0 : Nat)) : Int) ≤ ((0 : Int))
    decide
  · intro p t0 h
    exact absurd h (Nat.not_lt_zero t0)

theorem inv_schedule (bf lf nA nF nM : Nat) (pt : String) (raw : List RawInstr) :
    ∃ tf, Inv tf (schedule bf lf (initState nA nF nM pt (mkArena raw))).1 := by
  obtain ⟨tf, _, h⟩ := inv_schedLoop lf
    (updateReadySet (setPriority bf (setDependency
      (initState nA nF nM pt (mkArena raw))))) 0
    (inv_initial bf nA nF nM pt raw)
  exact ⟨tf, h⟩

theorem clkOfOp_eq_latencyOf {t : Nat} {s : SchedState} (hInv : Inv t s)
    (op : Ops) : s.clkOfOp op = latencyOf op := by
  unfold SchedState.clkOfOp latencyOf
  cases poolTagOf op
  · exact hInv.clkA
  · exact hInv.clkF
  · exact hInv.clkM

/-!
## The machine counts of the pools are never changed by a run
-/

theorem addDep_pools (s : SchedState) (di dj : Nat) (p : PoolTag) :
    (addDep s di dj).getPool p = s.getPool p :=
  (setInstr_pools _ _ _ p).trans (setInstr_pools _ _ _ p)

theorem depRawStep_pools (di dj : Nat) (acc : SchedState) (operand : String)
    (p : PoolTag) : (depRawStep di dj acc operand).getPool p = acc.getPool p := by
  unfold depRawStep
  split
  · exact addDep_pools _ _ _ p
  · rfl

theorem depWawWarStep_pools (di dj : Nat) (acc : SchedState) (operand : String)
    (p : PoolTag) :
    (depWawWarStep di dj acc operand).getPool p = acc.getPool p := by
  unfold depWawWarStep
  dsimp only
  split
  · split
    · exact (addDep_pools _ _ _ p).trans (addDep_pools _ _ _ p)
    · exact addDep_pools _ _ _ p
  · split
    · exact addDep_pools _ _ _ p
    · rfl

theorem foldl_pools {α : Type} (g : SchedState → α → SchedState)
    (hg : ∀ acc a p, (g acc a).getPool p = acc.getPool p) :
    ∀ (l : List α) (acc : SchedState) (p : PoolTag),
      (l.foldl g acc).getPool p = acc.getPool p := by
  intro l
  induction l with
  | nil =>
    intro acc p
    rfl
  | cons a l ih =>
    intro acc p
    rw [List.foldl_cons, ih, hg]

theorem depPairStep_pools (s : SchedState) (di dj : Nat) (p : PoolTag) :
    (depPairStep s di dj).getPool p = s.getPool p := by
  unfold depPairStep
  rw [foldl_pools _ (depWawWarStep_pools di dj), foldl_pools _ (depRawStep_pools di dj)]

theorem setDependency_pools (s : SchedState) (p : PoolTag) :
    (setDependency s).getPool p = s.getPool p := by
  unfold setDependency
  apply foldl_pools
  intro acc i q
  apply foldl_pools
  intro acc2 j q2
  exact depPairStep_pools _ _ _ q2

theorem updateReadySet_pool (s : SchedState) (p : PoolTag) :
    (updateReadySet s).getPool p = s.getPool p := by
  cases p <;> rfl

theorem getPool_setLists (s : SchedState) (w d r : List Nat) (p : PoolTag) :
    (({ s with instr_wait_list := w
               instr_dispatched_list := d
               ready_set := r } : SchedState).getPool p) = s.getPool p := by
  cases p <;> rfl

theorem getPool_updPools (s : SchedState) (t : Nat) (p : PoolTag) :
    (({ s with alu := s.alu.update t
               fpu := s.fpu.update t
               memory := s.memory.update t } : SchedState).getPool p) =
      (s.getPool p).update t := by
  cases p <;> rfl

theorem dispatchStep_pool_n (t : Nat) (acc : SchedState × List Nat) (id : Nat)
    (p : PoolTag) :
    (((dispatchStep t acc id).1).getPool p).n = ((acc.1.getPool p)).n := by
  unfold dispatchStep
  dsimp only
  split
  · rfl
  · by_cases hp : poolTagOf ((acc.1.instrAt id).opecode) = p
    · subst hp
      rw [getPool_setPool_same, allocate_fst_n, setInstr_pools]
    · rw [getPool_setPool_ne _ _ hp, setInstr_pools]

theorem dispatchPass_pool_n (s : SchedState) (t : Nat) (p : PoolTag) :
    (((dispatchPass s t).1).getPool p).n = ((s.getPool p)).n := by
  have hfold : ∀ (l : List Nat) (acc : SchedState × List Nat),
      ((l.foldl (dispatchStep t) acc).1.getPool p).n = ((acc.1.getPool p)).n := by
    intro l
    induction l with
    | nil =>
      intro acc
      rfl
    | cons a l ih =>
      intro acc
      rw [List.foldl_cons, ih, dispatchStep_pool_n]
  exact hfold s.ready_set (s, [])

theorem dispatchCycle_pool_n (s : SchedState) (t : Nat) (p : PoolTag) :
    (((dispatchCycle s t).1).getPool p).n = ((s.getPool p)).n := by
  simp only [dispatchCycle]
  rw [updateReadySet_pool, getPool_updPools, (update_fields _ _).2.1,
    (latencyFold_frame t _ _).1 p]
  by_cases hb : (dispatchPass s t).2.length > 0
  · rw [if_pos hb, getPool_setLists]
    exact dispatchPass_pool_n s t p
  · rw [if_neg hb]
    exact dispatchPass_pool_n s t p

theorem schedLoop_pool_n :
    ∀ (fuel : Nat) (s : SchedState) (t : Nat) (p : PoolTag),
      (((schedLoop fuel s t).1).getPool p).n = ((s.getPool p)).n := by
  intro fuel
  induction fuel with
  | zero =>
    intro s t p
    rfl
  | succ fuel ih =>
    intro s t p
    simp only [schedLoop]
    by_cases hc : (s.instr_wait_list ++ s.ready_set).length > 0
    · rw [if_pos hc]
      show (((schedLoop fuel (dispatchCycle s t).1 (t + 1)).1).getPool p).n = _
      rw [ih, dispatchCycle_pool_n]
    · rw [if_neg hc]

theorem schedule_pool_n (bf lf : Nat) (s : SchedState) (p : PoolTag) :
    (((schedule bf lf s).1).getPool p).n = ((s.getPool p)).n := by
  show (((schedLoop lf (updateReadySet (setPriority bf (setDependency s))) 0).1).getPool p).n = _
  rw [schedLoop_pool_n, updateReadySet_pool]
  have hPO := prioOnly_setPriority bf (setDependency s)
  have hpp : (setPriority bf (setDependency s)).getPool p =
      (setDependency s).getPool p := by
    obtain ⟨q1, q2, q3, _, _, _, _, _, _⟩ := hPO
    cases p
    · exact q1
    · exact q2
    · exact q3
  rw [hpp, setDependency_pools]

/-!
## Claims C2 (amended), C4 and C5
-/

/-- C2 (amended): the original claim says every dispatched instruction ends
the run with its end cycle set to `start + latency(op) - 1`; the loop in
fact stops as soon as the wait list and ready set are empty, so trailing
instructions keep `t_end = None` (see the counterexample).  What does hold:
whenever the run has recorded an end cycle for an instruction, it equals
that instruction's start cycle plus the latency of its operation's
functional unit minus one. -/
theorem c2_end_cycle_eq_start_plus_latency_when_set
    (bf lf nA nF nM : Nat) (pt : String) (raw : List RawInstr) (id e : Nat)
    (he : (((schedule bf lf (initState nA nF nM pt (mkArena raw))).1.instrAt id).t_end)
      = some e) :
    ∃ st, (((schedule bf lf (initState nA nF nM pt (mkArena raw))).1.instrAt id).t_start)
        = some st ∧
      e = st + latencyOf
        (((schedule bf lf (initState nA nF nM pt (mkArena raw))).1.instrAt id).opecode)
        - 1 := by
  obtain ⟨tf, hInv⟩ := inv_schedule bf lf nA nF nM pt raw
  obtain ⟨st, h1, h2⟩ := hInv.endC id e he
  refine ⟨st, h1, ?_⟩
  rw [← clkOfOp_eq_latencyOf hInv]
  exact h2

theorem c2_end_cycle_witness :
    ((schedule 4 8 (initState 2 1 1 "time" (mkArena c2wraw))).1.instrAt 0).t_end
        = some 0 ∧
    ∃ st, ((schedule 4 8 (initState 2 1 1 "time" (mkArena c2wraw))).1.instrAt 0).t_start
        = some st ∧
      0 = st + latencyOf
        (((schedule 4 8 (initState 2 1 1 "time" (mkArena c2wraw))).1.instrAt 0).opecode)
        - 1 :=
  ⟨by decide,
   c2_end_cycle_eq_start_plus_latency_when_set 4 8 2 1 1 "time" c2wraw 0 0 (by decide)⟩

/-- C4: for every dependency edge recorded in the final state (`d` is in
`id`'s `dependent_list`), if `id` was dispatched (its start cycle is set)
then `d` has a recorded end cycle strictly before that start:
`start_cycle(id) ≥ end_cycle(d) + 1`. -/
theorem c4_start_after_dependent_end
    (bf lf nA nF nM : Nat) (pt : String) (raw : List RawInstr) (id d sb : Nat)
    (hd : d ∈ (((schedule bf lf (initState nA nF nM pt (mkArena raw))).1.instrAt id).dependent_list))
    (hst : (((schedule bf lf (initState nA nF nM pt (mkArena raw))).1.instrAt id).t_start)
      = some sb) :
    ∃ ea, (((schedule bf lf (initState nA nF nM pt (mkArena raw))).1.instrAt d).t_end)
        = some ea ∧ ea + 1 ≤ sb := by
  obtain ⟨tf, hInv⟩ := inv_schedule bf lf nA nF nM pt raw
  by_cases hlt : id < (schedule bf lf (initState nA nF nM pt (mkArena raw))).1.arena.length
  · rcases hInv.part id hlt with h | h | h
    · rw [(hInv.unW id h).1] at hst
      exact absurd hst (fun hc => Option.noConfusion hc)
    · rw [(hInv.unR id h).1] at hst
      exact absurd hst (fun hc => Option.noConfusion hc)
    · obtain ⟨e, st, he, hst', hlt'⟩ := hInv.dspD id h d hd
      have hsb : st = sb := Option.some.inj (hst'.symm.trans hst)
      exact ⟨e, he, by omega⟩
  · rw [instrAt_oob (Nat.le_of_not_lt hlt)] at hst
    exact absurd hst (fun hc => Option.noConfusion hc)

theorem c4_start_after_dependent_end_witness :
    0 ∈ (((schedule 4 8 (initState 2 1 1 "time" (mkArena c4wraw))).1.instrAt 1).dependent_list) ∧
    ((schedule 4 8 (initState 2 1 1 "time" (mkArena c4wraw))).1.instrAt 1).t_start
        = some 1 ∧
    ∃ ea, ((schedule 4 8 (initState 2 1 1 "time" (mkArena c4wraw))).1.instrAt 0).t_end
        = some ea ∧ ea + 1 ≤ 1 :=
  ⟨by decide, by decide,
   c4_start_after_dependent_end 4 8 2 1 1 "time" c4wraw 1 0 1 (by decide) (by decide)⟩

/-- C5: at every simulated cycle `t0`, for each functional-unit pool, the
number of dispatched instructions of that pool whose execution window
covers `t0` (`start ≤ t0 ≤ start + latency - 1`) never exceeds the pool's
configured unit count. -/
theorem poolDeadline_le {u : OpUnits} {B : Nat}
    (h : ∀ e ∈ u.unit_list, e.2 = true → e.1 + u.clocks ≤ B) :
    poolDeadline u ≤ B := by
  unfold poolDeadline
  have hh : ∀ l : List (Nat × Bool), (∀ e ∈ l, e.2 = true → e.1 + u.clocks ≤ B) →
      (l.foldr (fun e m => if e.2 then Nat.max (e.1 + u.clocks) m else m) 0) ≤ B := by
    intro l
    induction l with
    | nil =>
      intro _
      exact Nat.zero_le B
    | cons e l ih =>
      intro hl
      rw [List.foldr_cons]
      by_cases he : e.2 = true
      · rw [if_pos he]
        exact Nat.max_le.mpr ⟨hl e (List.mem_cons_self e l) he,
          ih (fun x hx hx2 => hl x (List.mem_cons_of_mem e hx) hx2)⟩
      · rw [if_neg he]
        exact ih (fun x hx hx2 => hl x (List.mem_cons_of_mem e hx) hx2)
  exact hh u.unit_list h

theorem le_poolDeadline {u : OpUnits} {e : Nat × Bool}
    (hm : e ∈ u.unit_list) (hb : e.2 = true) :
    e.1 + u.clocks ≤ poolDeadline u := by
  unfold poolDeadline
  have hh : ∀ l : List (Nat × Bool), e ∈ l →
      e.1 + u.clocks ≤
        l.foldr (fun x m => if x.2 then Nat.max (x.1 + u.clocks) m else m) 0 := by
    intro l
    induction l with
    | nil =>
      intro h0
      cases h0
    | cons x l ih =>
      intro hmem
      rw [List.foldr_cons]
      rcases List.mem_cons.mp hmem with h0 | h0
      · subst h0
        rw [if_pos hb]
        exact Nat.le_max_left _ _
      · by_cases hx : x.2 = true
        · rw [if_pos hx]
          exact le_trans (ih h0) (Nat.le_max_right _ _)
        · rw [if_neg hx]
          exact ih h0
  exact hh u.unit_list hm

theorem runDeadline_le {s : SchedState} {B : Nat}
    (h : ∀ id st, (s.instrAt id).t_start = some st →
      (s.instrAt id).t_end = none →
      st + s.clkOfOp (s.instrAt id).opecode ≤ B) :
    runDeadline s ≤ B := by
  unfold runDeadline
  have hh : ∀ l : List Nat,
      (l.foldr (fun id m =>
        if ((s.instrAt id).t_start.isSome && (s.instrAt id).t_end.isNone) then
          Nat.max ((s.instrAt id).t_start.getD 0 + s.clkOfOp (s.instrAt id).opecode) m
        else m) 0) ≤ B := by
    intro l
    induction l with
    | nil => exact Nat.zero_le B
    | cons id l ih =>
      rw [List.foldr_cons]
      by_cases hc : ((s.instrAt id).t_start.isSome && (s.instrAt id).t_end.isNone) = true
      · rw [if_pos hc]
        rw [Bool.and_eq_true] at hc
        obtain ⟨st, hts⟩ := Option.isSome_iff_exists.mp hc.1
        have hte : (s.instrAt id).t_end = none := Option.isNone_iff_eq_none.mp hc.2
        refine Nat.max_le.mpr ⟨?_, ih⟩
        rw [hts]
        exact h id st hts hte
      · rw [if_neg hc]
        exact ih
  exact hh _

theorem le_runDeadline {s : SchedState} {id st : Nat} (hid : id < s.arena.length)
    (hts : (s.instrAt id).t_start = some st)
    (hte : (s.instrAt id).t_end = none) :
    st + s.clkOfOp (s.instrAt id).opecode ≤ runDeadline s := by
  unfold runDeadline
  have hh : ∀ l : List Nat, id ∈ l →
      st + s.clkOfOp (s.instrAt id).opecode ≤
        l.foldr (fun x m =>
          if ((s.instrAt x).t_start.isSome && (s.instrAt x).t_end.isNone) then
            Nat.max ((s.instrAt x).t_start.getD 0 + s.clkOfOp (s.instrAt x).opecode) m
          else m) 0 := by
    intro l
    induction l with
    | nil =>
      intro h0
      cases h0
    | cons x l ih =>
      intro hmem
      rw [List.foldr_cons]
      rcases List.mem_cons.mp hmem with h0 | h0
      · subst h0
        rw [if_pos (show ((s.instrAt id).t_start.isSome &&
            (s.instrAt id).t_end.isNone) = true by rw [hts, hte]; rfl)]
        rw [hts]
        exact Nat.le_max_left _ _
      · by_cases hcx : ((s.instrAt x).t_start.isSome && (s.instrAt x).t_end.isNone) = true
        · rw [if_pos hcx]
          exact le_trans (ih h0) (Nat.le_max_right _ _)
        · rw [if_neg hcx]
          exact ih h0
  exact hh _ (List.mem_range.mpr hid)

theorem le_deadline_pool {s : SchedState} {p : PoolTag} {e : Nat × Bool}
    (hm : e ∈ (s.getPool p).unit_list) (hb : e.2 = true) :
    e.1 + (s.getPool p).clocks ≤ deadline s := by
  have h1 := le_poolDeadline hm hb
  unfold deadline
  cases p
  · exact le_trans h1 (le_trans (Nat.le_max_left _ _) (Nat.le_max_left _ _))
  · exact le_trans h1 (le_trans (Nat.le_max_right _ _) (Nat.le_max_left _ _))
  · exact le_trans h1 (le_trans (Nat.le_max_left _ _) (Nat.le_max_right _ _))

theorem le_deadline_run {s : SchedState} {id st : Nat} (hid : id < s.arena.length)
    (hts : (s.instrAt id).t_start = some st)
    (hte : (s.instrAt id).t_end = none) :
    st + s.clkOfOp (s.instrAt id).opecode ≤ deadline s := by
  have h1 := le_runDeadline hid hts hte
  unfold deadline
  exact le_trans h1 (le_trans (Nat.le_max_right _ _) (Nat.le_max_right _ _))

theorem deadline_le {s : SchedState} {B : Nat}
    (hp : ∀ p : PoolTag, ∀ e ∈ (s.getPool p).unit_list, e.2 = true →
      e.1 + (s.getPool p).clocks ≤ B)
    (hr : ∀ id st, (s.instrAt id).t_start = some st →
      (s.instrAt id).t_end = none →
      st + s.clkOfOp (s.instrAt id).opecode ≤ B) :
    deadline s ≤ B := by
  unfold deadline
  refine Nat.max_le.mpr ⟨Nat.max_le.mpr ⟨?_, ?_⟩, Nat.max_le.mpr ⟨?_, ?_⟩⟩
  · exact poolDeadline_le (hp PoolTag.alu)
  · exact poolDeadline_le (hp PoolTag.fpu)
  · exact poolDeadline_le (hp PoolTag.memory)
  · exact runDeadline_le hr

theorem mem_set_self {α : Type} :
    ∀ (l : List α) (i : Nat) (a : α), i < l.length → a ∈ l.set i a := by
  intro l
  induction l with
  | nil =>
    intro i a h
    exact absurd h (by simp)
  | cons x l ih =>
    intro i a h
    cases i with
    | zero =>
      rw [List.set_cons_zero]
      exact List.mem_cons_self a l
    | succ i =>
      rw [List.set_cons_succ]
      exact List.mem_cons_of_mem x (ih i a (by simp at h; omega))

theorem allocate_fst_next_lt (u : OpUnits) (t : Nat) (hn : 0 < u.n)
    (h : u.next < u.n) : ((u.allocate t).1).next < u.n := by
  unfold OpUnits.allocate
  dsimp only
  split
  · split
    · rename_i k heq
      show k < u.n
      unfold OpUnits.findNext at heq
      rcases Option.map_eq_some'.mp heq with ⟨i, _, hk⟩
      subst hk
      exact Nat.mod_lt _ hn
    · exact h
  · exact h

theorem dispatchStep_units (t : Nat) (acc : SchedState × List Nat) (id : Nat)
    (hwf : ∀ p : PoolTag, PoolWF (acc.1.getPool p)) :
    (∀ p : PoolTag, PoolWF ((dispatchStep t acc id).1.getPool p)) ∧
    (∀ p : PoolTag, ∀ e ∈ ((dispatchStep t acc id).1.getPool p).unit_list,
      e ∈ (acc.1.getPool p).unit_list ∨ e = (t, true)) ∧
    (∀ p : PoolTag,
      (((dispatchStep t acc id).1.getPool p).n_busy = (acc.1.getPool p).n_busy ∧
       ((dispatchStep t acc id).1.getPool p).unit_list = (acc.1.getPool p).unit_list) ∨
      (t, true) ∈ ((dispatchStep t acc id).1.getPool p).unit_list) := by
  unfold dispatchStep
  dsimp only
  split
  · exact ⟨hwf, fun p e he => Or.inl he, fun p => Or.inl ⟨rfl, rfl⟩⟩
  · rename_i hfull
    rw [Bool.not_eq_true] at hfull
    set st := acc.1 with hst
    set p0 := poolTagOf ((acc.1.instrAt id).opecode) with hp0
    set v : Instr := { st.instrAt id with t_start := some t } with hv
    set st1 := st.setInstr id v with hst1
    set u' := ((st1.getPool p0).allocate t).1 with hu'
    have hpool1 : ∀ q, st1.getPool q = st.getPool q :=
      fun q => setInstr_pools st id v q
    have hsame : (st1.setPool p0 u').getPool p0 = u' := getPool_setPool_same st1 p0 u'
    have hne : ∀ q, q ≠ p0 → (st1.setPool p0 u').getPool q = st.getPool q := by
      intro q hq
      rw [getPool_setPool_ne _ _ (fun hh => hq hh.symm), hpool1]
    obtain ⟨hnx, hul, hnb0, hnbn⟩ := hwf p0
    have hfull' := (is_full_false_iff (st.getPool p0)).mp hfull
    have hnblt : (st.getPool p0).n_busy < ((st.getPool p0).n : Int) :=
      lt_of_le_of_ne hnbn (fun hh => hfull' hh.symm)
    have hnpos : 0 < (st.getPool p0).n := by
      by_contra hc
      have : (st.getPool p0).n = 0 := by omega
      rw [this] at hnblt
      omega
    have hualloc : u' = (((st.getPool p0)).allocate t).1 := by
      rw [hu', hpool1]
    have hun : u'.n = (st.getPool p0).n := by
      rw [hualloc, allocate_fst_n]
    have huul : u'.unit_list =
        (st.getPool p0).unit_list.set (st.getPool p0).next (t, true) := by
      rw [hualloc, allocate_fst_unit_list]
    have hunb : u'.n_busy = (st.getPool p0).n_busy + 1 := by
      rw [hualloc, allocate_fst_n_busy]
    have hunext : u'.next < u'.n := by
      rw [hualloc, allocate_fst_n]
      exact allocate_fst_next_lt (st.getPool p0) t hnpos hnx
    have hmemT : (t, true) ∈ u'.unit_list := by
      rw [huul]
      exact mem_set_self _ _ _ (by rw [hul]; exact hnx)
    refine ⟨?_, ?_, ?_⟩
    · intro q
      by_cases hq : q = p0
      · subst hq
        rw [hsame]
        refine ⟨hunext, ?_, ?_, ?_⟩
        · rw [huul, List.length_set, hul, hun]
        · rw [hunb]
          omega
        · rw [hunb, hun]
          omega
      · rw [hne q hq]
        exact hwf q
    · intro q e he
      by_cases hq : q = p0
      · subst hq
        rw [hsame] at he
        rw [huul] at he
        exact List.mem_or_eq_of_mem_set he
      · rw [hne q hq] at he
        exact Or.inl he
    · intro q
      by_cases hq : q = p0
      · subst hq
        rw [hsame]
        exact Or.inr hmemT
      · rw [hne q hq]
        exact Or.inl ⟨rfl, rfl⟩

theorem dispatchPass_units (t : Nat) :
    ∀ (l : List Nat) (acc : SchedState × List Nat),
    (∀ p : PoolTag, PoolWF (acc.1.getPool p)) →
    (∀ p : PoolTag, PoolWF ((l.foldl (dispatchStep t) acc).1.getPool p)) ∧
    (∀ p : PoolTag, ∀ e ∈ ((l.foldl (dispatchStep t) acc).1.getPool p).unit_list,
      e ∈ (acc.1.getPool p).unit_list ∨ e = (t, true)) ∧
    (∀ p : PoolTag,
      (((l.foldl (dispatchStep t) acc).1.getPool p).n_busy = (acc.1.getPool p).n_busy ∧
       ((l.foldl (dispatchStep t) acc).1.getPool p).unit_list = (acc.1.getPool p).unit_list) ∨
      (t, true) ∈ ((l.foldl (dispatchStep t) acc).1.getPool p).unit_list) := by
  intro l
  induction l with
  | nil =>
    intro acc h
    exact ⟨h, fun p e he => Or.inl he, fun p => Or.inl ⟨rfl, rfl⟩⟩
  | cons a l ih =>
    intro acc h
    rw [List.foldl_cons]
    obtain ⟨s1, s2, s3⟩ := dispatchStep_units t acc a h
    obtain ⟨i1, i2, i3⟩ := ih (dispatchStep t acc a) s1
    refine ⟨i1, ?_, ?_⟩
    · intro p e he
      rcases i2 p e he with h0 | h0
      · exact s2 p e h0
      · exact Or.inr h0
    · intro p
      rcases i3 p with ⟨hb, hu⟩ | h0
      · rcases s3 p with ⟨hb', hu'⟩ | h0'
        · exact Or.inl ⟨hb.trans hb', hu.trans hu'⟩
        · exact Or.inr (hu ▸ h0')
      · exact Or.inr h0

theorem dispatchStep_batch_mono (t : Nat) (acc : SchedState × List Nat)
    (id : Nat) : acc.2.length ≤ (dispatchStep t acc id).2.length := by
  unfold dispatchStep
  dsimp only
  split
  · exact le_rfl
  · rw [List.length_append]
    omega

theorem dispatchFold_batch_mono (t : Nat) :
    ∀ (l : List Nat) (acc : SchedState × List Nat),
      acc.2.length ≤ (l.foldl (dispatchStep t) acc).2.length := by
  intro l
  induction l with
  | nil =>
    intro acc
    exact le_rfl
  | cons a l ih =>
    intro acc
    rw [List.foldl_cons]
    exact le_trans (dispatchStep_batch_mono t acc a) (ih (dispatchStep t acc a))

theorem dispatchFold_batch_nil (t : Nat) :
    ∀ (l : List Nat) (acc : SchedState × List Nat),
    (l.foldl (dispatchStep t) acc).2.length = acc.2.length →
    (l.foldl (dispatchStep t) acc).1 = acc.1 ∧
    (l.foldl (dispatchStep t) acc).2 = acc.2 ∧
    ∀ id ∈ l,
      (acc.1.getPool (poolTagOf ((acc.1.instrAt id).opecode))).is_full = true := by
  intro l
  induction l with
  | nil =>
    intro acc _
    exact ⟨rfl, rfl, fun id h => absurd h (List.not_mem_nil id)⟩
  | cons a l ih =>
    intro acc hlen
    rw [List.foldl_cons] at hlen ⊢
    have h1 := dispatchStep_batch_mono t acc a
    have h2 := dispatchFold_batch_mono t l (dispatchStep t acc a)
    have hstep : (dispatchStep t acc a).2.length = acc.2.length := by omega
    have hfull : (acc.1.getPool (poolTagOf ((acc.1.instrAt a).opecode))).is_full = true := by
      by_contra hc
      have : (dispatchStep t acc a).2 = acc.2 ++ [a] := by
        unfold dispatchStep
        dsimp only
        rw [if_neg hc]
      rw [this, List.length_append] at hstep
      simp at hstep
    have hacc : dispatchStep t acc a = acc := by
      unfold dispatchStep
      dsimp only
      rw [if_pos hfull]
    rw [hacc] at hlen ⊢
    obtain ⟨r1, r2, r3⟩ := ih acc hlen
    refine ⟨r1, r2, ?_⟩
    intro id hid
    rcases List.mem_cons.mp hid with h0 | h0
    · subst h0
      exact hfull
    · exact r3 id h0

theorem runDeadline_congr {s s' : SchedState} (ha : s'.arena = s.arena)
    (hc : ∀ op, s'.clkOfOp op = s.clkOfOp op) : runDeadline s' = runDeadline s := by
  unfold runDeadline
  have hia : ∀ id, s'.instrAt id = s.instrAt id := by
    intro id
    rw [instrAt_def, instrAt_def, ha]
  have hfun : (fun (id : Nat) (m : Nat) =>
      if ((s'.instrAt id).t_start.isSome && (s'.instrAt id).t_end.isNone) then
        Nat.max ((s'.instrAt id).t_start.getD 0 + s'.clkOfOp (s'.instrAt id).opecode) m
      else m) = (fun (id : Nat) (m : Nat) =>
      if ((s.instrAt id).t_start.isSome && (s.instrAt id).t_end.isNone) then
        Nat.max ((s.instrAt id).t_start.getD 0 + s.clkOfOp (s.instrAt id).opecode) m
      else m) := by
    funext id m
    rw [hia, hc]
  rw [hfun, ha]

theorem poolDeadline_congr {u u' : OpUnits} (h1 : u'.unit_list = u.unit_list)
    (h2 : u'.clocks = u.clocks) : poolDeadline u' = poolDeadline u := by
  unfold poolDeadline
  rw [h1, h2]

theorem deadline_updateReadySet (s : SchedState) :
    deadline (updateReadySet s) = deadline s := by
  have hc : ∀ op, (updateReadySet s).clkOfOp op = s.clkOfOp op := by
    intro op
    show ((updateReadySet s).getPool (poolTagOf op)).clocks =
      (s.getPool (poolTagOf op)).clocks
    rw [updateReadySet_pool]
  have hr : runDeadline (updateReadySet s) = runDeadline s :=
    @runDeadline_congr s (updateReadySet s) rfl hc
  unfold deadline
  rw [hr]
  rfl

theorem wblk_updateReadySet (s : SchedState) (hnd : s.instr_wait_list.Nodup) :
    ∀ id ∈ (updateReadySet s).instr_wait_list,
      depsDone (updateReadySet s) id = false := by
  intro id hid
  have hmem := (mem_foldl_erase (s.instr_wait_list.filter (fun i => depsDone s i))
    s.instr_wait_list hnd id).mp hid
  have hnm := hmem.2
  show depsDone s id = false
  by_cases hd : depsDone s id = true
  · exact absurd (List.mem_filter.mpr ⟨hmem.1, hd⟩) hnm
  · rw [Bool.not_eq_true] at hd
    exact hd

theorem length_foldl_erase :
    ∀ (B R : List Nat), B.Nodup → (∀ x ∈ B, x ∈ R) → R.Nodup →
      (B.foldl List.erase R).length + B.length = R.length := by
  intro B
  induction B with
  | nil =>
    intro R _ _ _
    simp
  | cons b bs ih =>
    intro R hB hsub hR
    rw [List.foldl_cons]
    have hbR : b ∈ R := hsub b (List.mem_cons_self b bs)
    have h1 := ih (R.erase b) (List.Nodup.of_cons hB)
      (by
        intro x hx
        rw [hR.mem_erase_iff]
        exact ⟨fun hh => (List.nodup_cons.mp hB).1 (hh ▸ hx),
          hsub x (List.mem_cons_of_mem b hx)⟩)
      (hR.erase b)
    have h2 : (R.erase b).length = R.length - 1 := List.length_erase_of_mem hbR
    have h3 : 1 ≤ R.length := List.length_pos.mpr (fun hh => by
      rw [hh] at hbR
      exact List.not_mem_nil b hbR)
    simp only [List.length_cons]
    omega

theorem deadline_le_bound {t : Nat} {s : SchedState} (hL : LInv t s) :
    deadline s ≤ t + 4 := by
  have hclk5 : ∀ p : PoolTag, (s.getPool p).clocks ≤ 5 := by
    intro p
    cases p
    · rw [show s.getPool PoolTag.alu = s.alu from rfl, hL.base.clkA]
      decide
    · rw [show s.getPool PoolTag.fpu = s.fpu from rfl, hL.base.clkF]
      decide
    · rw [show s.getPool PoolTag.memory = s.memory from rfl, hL.base.clkM]
      decide
  apply deadline_le
  · intro p e hm hb
    have h1 := hL.bstart p e hm hb
    have h2 := hclk5 p
    omega
  · intro id st hts hte
    by_cases hlt : id < s.arena.length
    · rcases hL.base.part id hlt with h | h | h
      · rw [(hL.base.unW id h).1] at hts
        exact absurd hts (fun hc => Option.noConfusion hc)
      · rw [(hL.base.unR id h).1] at hts
        exact absurd hts (fun hc => Option.noConfusion hc)
      · obtain ⟨st', hst', hlt'⟩ := hL.base.stD id h
        have hst : st = st' := Option.some.inj (hts.symm.trans hst')
        have hc5 : s.clkOfOp ((s.instrAt id).opecode) ≤ 5 := hclk5 _
        omega
    · rw [instrAt_oob (Nat.le_of_not_lt hlt)] at hts
      exact absurd hts (fun hc => Option.noConfusion hc)

theorem linv_after_cycle {t : Nat} {s s1 s2 s3 s4 : SchedState} {batch : List Nat}
    (hL : LInv t s)
    (hPI : PassInv t s s1 batch)
    (hbs : ∀ x ∈ batch, x ∈ s.ready_set)
    (hWF : ∀ p : PoolTag, PoolWF (s1.getPool p))
    (hMem : ∀ p : PoolTag, ∀ e ∈ (s1.getPool p).unit_list,
      e ∈ (s.getPool p).unit_list ∨ e = (t, true))
    (hTouch : ∀ p : PoolTag,
      ((s1.getPool p).n_busy = (s.getPool p).n_busy ∧
       (s1.getPool p).unit_list = (s.getPool p).unit_list) ∨
      (t, true) ∈ (s1.getPool p).unit_list)
    (hnil : batch = [] → s1 = s)
    (hs2 : s2 = { s1 with
      ready_set := batch.foldl List.erase s1.ready_set
      instr_dispatched_list := s1.instr_dispatched_list ++ batch })
    (hs3 : s3 = s2.instr_dispatched_list.foldl (latencyStep t) s2)
    (hs4 : s4 = { s3 with alu := s3.alu.update t
                          fpu := s3.fpu.update t
                          memory := s3.memory.update t }) :
    LInv (t + 1) (updateReadySet s4) ∧
    (updateReadySet s4).instr_wait_list.length +
      (updateReadySet s4).ready_set.length + batch.length =
      s.instr_wait_list.length + s.ready_set.length ∧
    (batch = [] → deadline (updateReadySet s4) ≤ deadline s) := by
  have hInv := hL.base
  have hBase : Inv (t + 1) (updateReadySet s4) :=
    inv_after_cycle hInv hPI hbs hs2 hs3 hs4
  obtain ⟨h1, h2, h3, h4, h5, h6, h7, h8, h9, h10, h11, h12, h13, h14⟩ := hPI
  have hclk1 : ∀ p : PoolTag, 1 ≤ (s.getPool p).clocks := by
    intro p
    cases p
    · rw [show s.getPool PoolTag.alu = s.alu from rfl, hInv.clkA]
      decide
    · rw [show s.getPool PoolTag.fpu = s.fpu from rfl, hInv.clkF]
      decide
    · rw [show s.getPool PoolTag.memory = s.memory from rfl, hInv.clkM]
      decide
  have hdisj : ∀ x ∈ s.instr_dispatched_list, x ∉ batch :=
    fun x hx hxb => hInv.dRD x (hbs x hxb) hx
  have h2d : s2.instr_dispatched_list = s.instr_dispatched_list ++ batch := by
    rw [hs2]
    show s1.instr_dispatched_list ++ batch = _
    rw [h2]
  have h2r : s2.ready_set = batch.foldl List.erase s.ready_set := by
    rw [hs2]
    show batch.foldl List.erase s1.ready_set = _
    rw [h3]
  have h2w : s2.instr_wait_list = s.instr_wait_list := by
    rw [hs2]
    exact h1
  have h2P : ∀ p, s2.getPool p = s1.getPool p := by
    intro p
    rw [hs2]
    cases p <;> rfl
  have h2IA : ∀ x, s2.instrAt x = s1.instrAt x := by
    intro x
    rw [hs2]
    rfl
  have h2clk : ∀ op, s2.clkOfOp op = s.clkOfOp op := by
    intro op
    show (s2.getPool (poolTagOf op)).clocks = _
    rw [h2P, h6]
    rfl
  have hmem2 : ∀ x, (x ∈ s2.instr_dispatched_list ↔
      (x ∈ s.instr_dispatched_list ∨ x ∈ batch)) := by
    intro x
    rw [h2d, List.mem_append]
  have h3IA_mem : ∀ x, x ∈ s2.instr_dispatched_list →
      s3.instrAt x = (s2.instrAt x).update t (s2.clkOfOp (s2.instrAt x).opecode) := by
    intro x hx
    rw [hs3, latencyFold_instrAt t s2.instr_dispatched_list s2 x, if_pos hx]
  have h3IA_nmem : ∀ x, x ∉ s2.instr_dispatched_list → s3.instrAt x = s2.instrAt x := by
    intro x hx
    rw [hs3, latencyFold_instrAt t s2.instr_dispatched_list s2 x, if_neg hx]
  have h3fr := latencyFold_frame t s2.instr_dispatched_list s2
  rw [← hs3] at h3fr
  obtain ⟨h3P, h3w, h3d, h3r, h3pt, h3len⟩ := h3fr
  have h4P : ∀ p, s4.getPool p = (s1.getPool p).update t := by
    intro p
    have hstep : s4.getPool p = (s3.getPool p).update t := by
      rw [hs4]
      cases p <;> rfl
    rw [hstep, h3P, h2P]
  have h4IA : ∀ x, s4.instrAt x = s3.instrAt x := by
    intro x
    rw [hs4]
    rfl
  have h4w : s4.instr_wait_list = s.instr_wait_list := by
    rw [hs4]
    show s3.instr_wait_list = _
    rw [h3w, h2w]
  have h4r : s4.ready_set = batch.foldl List.erase s.ready_set := by
    rw [hs4]
    show s3.ready_set = _
    rw [h3r, h2r]
  have h4clkOp : ∀ op, s4.clkOfOp op = s.clkOfOp op := by
    intro op
    show (s4.getPool (poolTagOf op)).clocks = _
    rw [h4P, (update_fields _ _).2.2, h6]
    rfl
  have hIA_disp : ∀ x ∈ s.instr_dispatched_list,
      s3.instrAt x = (s.instrAt x).update t (s.clkOfOp (s.instrAt x).opecode) := by
    intro x hx
    have hs1x : s1.instrAt x = s.instrAt x := h11 x (hdisj x hx)
    rw [h3IA_mem x ((hmem2 x).mpr (Or.inl hx)), h2IA, hs1x, h2clk]
  have hIA_batch : ∀ x ∈ batch,
      s3.instrAt x = ({ s.instrAt x with t_start := some t }).update t
        (s.clkOfOp (s.instrAt x).opecode) := by
    intro x hx
    have hs1x : s1.instrAt x = { s.instrAt x with t_start := some t } := h10 x hx
    rw [h3IA_mem x ((hmem2 x).mpr (Or.inr hx)), h2IA, hs1x, h2clk]
  have hIA_other : ∀ x, x ∉ s.instr_dispatched_list → x ∉ batch →
      s3.instrAt x = s.instrAt x := by
    intro x hx1 hx2
    rw [h3IA_nmem x (fun hc => ((hmem2 x).mp hc).elim hx1 hx2), h2IA, h11 x hx2]
  have hrPool : ∀ p, (updateReadySet s4).getPool p = (s1.getPool p).update t := by
    intro p
    rw [updateReadySet_pool, h4P]
  have hrIA : ∀ x, (updateReadySet s4).instrAt x = s3.instrAt x := by
    intro x
    show s4.instrAt x = s3.instrAt x
    exact h4IA x
  have hrclkOp : ∀ op, (updateReadySet s4).clkOfOp op = s.clkOfOp op := by
    intro op
    show ((updateReadySet s4).getPool (poolTagOf op)).clocks = _
    rw [updateReadySet_pool]
    exact h4clkOp op
  refine ⟨⟨hBase, ?_, ?_, ?_, ?_, ?_, ?_, ?_, ?_⟩, ?_, ?_⟩
  · -- gdep
    intro id d hd
    rw [hrIA id] at hd
    by_cases hx1 : id ∈ s.instr_dispatched_list
    · rw [hIA_disp id hx1, Instr.update_dependent_list] at hd
      exact hL.gdep id d hd
    · by_cases hx2 : id ∈ batch
      · rw [hIA_batch id hx2, Instr.update_dependent_list] at hd
        exact hL.gdep id d hd
      · rw [hIA_other id hx1 hx2] at hd
        exact hL.gdep id d hd
  · -- wblk
    exact wblk_updateReadySet s4 (by rw [h4w]; exact hInv.ndW)
  · -- rnot
    intro id st0 hts hte
    rw [hrIA id] at hts hte
    have hclkgoal : (updateReadySet s4).clkOfOp
        (((updateReadySet s4).instrAt id).opecode) =
        s.clkOfOp ((s3.instrAt id).opecode) := by
      rw [hrclkOp]
      rw [show ((updateReadySet s4).instrAt id) = s3.instrAt id from hrIA id]
    rw [hclkgoal]
    by_cases hx1 : id ∈ s.instr_dispatched_list
    · rw [hIA_disp id hx1] at hts hte ⊢
      rw [Instr.update_opecode]
      rw [Instr.update_t_start] at hts
      obtain ⟨st', hst', _⟩ := hInv.stD id hx1
      have hstst : st0 = st' := Option.some.inj (hts.symm.trans hst')
      rw [Instr.update_t_end, hst'] at hte
      have hte2 : (if t = st' + s.clkOfOp ((s.instrAt id).opecode) - 1 then some t
          else (s.instrAt id).t_end) = none := hte
      by_cases hfir : t = st' + s.clkOfOp ((s.instrAt id).opecode) - 1
      · rw [if_pos hfir] at hte2
        exact absurd hte2 (fun hc => Option.noConfusion hc)
      · rw [if_neg hfir] at hte2
        have hr := hL.rnot id st' hst' hte2
        omega
    · by_cases hx2 : id ∈ batch
      · rw [hIA_batch id hx2] at hts hte ⊢
        rw [Instr.update_opecode]
        rw [Instr.update_t_start] at hts
        have hts2 : (some t : Option Nat) = some st0 := hts
        have hst0 : st0 = t := (Option.some.inj hts2).symm
        rw [Instr.update_t_end] at hte
        have hte2 : (if t = t + s.clkOfOp ((s.instrAt id).opecode) - 1 then some t
            else (s.instrAt id).t_end) = none := hte
        by_cases hfir : t = t + s.clkOfOp ((s.instrAt id).opecode) - 1
        · rw [if_pos hfir] at hte2
          exact absurd hte2 (fun hc => Option.noConfusion hc)
        · rw [if_neg hfir] at hte2
          have hc1 : 1 ≤ s.clkOfOp ((s.instrAt id).opecode) :=
            hclk1 (poolTagOf ((s.instrAt id).opecode))
          have hope : (({ s.instrAt id with t_start := some t } : Instr)).opecode =
              (s.instrAt id).opecode := rfl
          rw [hope, hst0]
          omega
      · rw [hIA_other id hx1 hx2] at hts
        by_cases hlt : id < s.arena.length
        · rcases hInv.part id hlt with h | h | h
          · rw [(hInv.unW id h).1] at hts
            exact absurd hts (fun hc => Option.noConfusion hc)
          · rw [(hInv.unR id h).1] at hts
            exact absurd hts (fun hc => Option.noConfusion hc)
          · exact absurd h hx1
        · rw [instrAt_oob (Nat.le_of_not_lt hlt)] at hts
          exact absurd hts (fun hc => Option.noConfusion hc)
  · -- pend
    intro p hfull
    rw [hrPool p] at hfull ⊢
    rw [update_n_busy_spec, (update_fields _ _).2.1] at hfull
    rw [show ((s1.getPool p).update t).unit_list = (s1.getPool p).unit_list from
      (update_fields _ _).1]
    rw [show ((s1.getPool p).update t).clocks = (s1.getPool p).clocks from
      (update_fields _ _).2.2]
    obtain ⟨hnx1, hul1, hnb01, hnbn1⟩ := hWF p
    have hc11 : 1 ≤ (s1.getPool p).clocks := by
      rw [h6]
      exact hclk1 p
    rcases hTouch p with ⟨hnbu, huu⟩ | hplant
    · rw [hnbu, huu, h7, h6] at hfull
      rw [huu, h6]
      have hnbs := hInv.nb p
      have hfnn : (0 : Int) ≤
          (((s.getPool p).unit_list.filter
            (fun e => e.2 && decide (t = e.1 + (s.getPool p).clocks - 1))).length : Int) :=
        Int.ofNat_nonneg _
      have hflen : ((s.getPool p).unit_list.filter
          (fun e => e.2 && decide (t = e.1 + (s.getPool p).clocks - 1))).length = 0 := by
        omega
      have hfullS : (s.getPool p).n_busy = ((s.getPool p).n : Int) := by omega
      obtain ⟨e, hm, hb, hfe⟩ := hL.pend p hfullS
      refine ⟨e, hm, hb, ?_⟩
      by_cases hq : t = e.1 + (s.getPool p).clocks - 1
      · have hmemf : e ∈ (s.getPool p).unit_list.filter
            (fun x => x.2 && decide (t = x.1 + (s.getPool p).clocks - 1)) :=
          List.mem_filter.mpr ⟨hm, by rw [hb, decide_eq_true hq]; rfl⟩
        have hpos : 0 < ((s.getPool p).unit_list.filter
            (fun x => x.2 && decide (t = x.1 + (s.getPool p).clocks - 1))).length :=
          List.length_pos.mpr (fun hh => by
            rw [hh] at hmemf
            exact List.not_mem_nil e hmemf)
        omega
      · omega
    · by_cases hone : t = t + (s1.getPool p).clocks - 1
      · have hmemf : (t, true) ∈ (s1.getPool p).unit_list.filter
            (fun x => x.2 && decide (t = x.1 + (s1.getPool p).clocks - 1)) :=
          List.mem_filter.mpr ⟨hplant, by
            show (true && decide (t = t + (s1.getPool p).clocks - 1)) = true
            rw [decide_eq_true hone]
            rfl⟩
        have hpos : 0 < ((s1.getPool p).unit_list.filter
            (fun x => x.2 && decide (t = x.1 + (s1.getPool p).clocks - 1))).length :=
          List.length_pos.mpr (fun hh => by
            rw [hh] at hmemf
            exact List.not_mem_nil (t, true) hmemf)
        omega
      · refine ⟨(t, true), hplant, rfl, ?_⟩
        omega
  · -- bstart
    intro p e hm hb
    rw [hrPool p, (update_fields _ _).1] at hm
    rcases hMem p e hm with h0 | h0
    · have := hL.bstart p e h0 hb
      omega
    · rw [h0]
      exact Nat.lt_succ_self t
  · -- npos
    intro p
    rw [hrPool p, (update_fields _ _).2.1, h7]
    exact hL.npos p
  · -- ulen
    intro p
    rw [hrPool p, (update_fields _ _).1, (update_fields _ _).2.1]
    exact (hWF p).2.1
  · -- nextlt
    intro p
    have hnext : ((s1.getPool p).update t).next = (s1.getPool p).next :=
      (update_foldl_fields t _ _).2.2.2
    rw [hrPool p, hnext, (update_fields _ _).2.1]
    exact (hWF p).1
  · -- the sum of the wait and ready lengths drops exactly by the batch
    have hrw : (updateReadySet s4).instr_wait_list =
        (s4.instr_wait_list.filter (fun i => depsDone s4 i)).foldl
          List.erase s4.instr_wait_list := rfl
    have hrr : (updateReadySet s4).ready_set =
        (s4.instr_wait_list.filter (fun i => depsDone s4 i)).foldl
          (heappush (readyLt s4)) s4.ready_set := rfl
    have hndW4 : s4.instr_wait_list.Nodup := by
      rw [h4w]
      exact hInv.ndW
    have hlen1 := length_foldl_erase
      (s4.instr_wait_list.filter (fun i => depsDone s4 i)) s4.instr_wait_list
      (hndW4.filter _) (fun x hx => List.mem_of_mem_filter hx) hndW4
    have hlen2 : ((s4.instr_wait_list.filter (fun i => depsDone s4 i)).foldl
        (heappush (readyLt s4)) s4.ready_set).length =
        s4.ready_set.length +
          (s4.instr_wait_list.filter (fun i => depsDone s4 i)).length := by
      rw [(foldl_heappush_perm (readyLt s4) _ s4.ready_set).length_eq,
        List.length_append]
    have hlen3 : s4.ready_set.length + batch.length = s.ready_set.length := by
      rw [h4r]
      exact length_foldl_erase batch s.ready_set h8 hbs hInv.ndR
    have hlen4 : s4.instr_wait_list.length = s.instr_wait_list.length := by
      rw [h4w]
    rw [hrw, hrr]
    omega
  · -- a stalled cycle does not extend the deadline
    intro hbe
    have hs1s : s1 = s := hnil hbe
    rw [deadline_updateReadySet]
    apply deadline_le
    · intro p e hm hb
      have hp4 : s4.getPool p = (s.getPool p).update t := by
        rw [h4P, hs1s]
      rw [hp4, (update_fields _ _).1] at hm
      rw [hp4, (update_fields _ _).2.2]
      exact le_deadline_pool hm hb
    · intro id st hts hte
      have hclkid : s4.clkOfOp ((s4.instrAt id).opecode) =
          s.clkOfOp ((s3.instrAt id).opecode) := by
        rw [h4clkOp, h4IA]
      rw [hclkid]
      rw [h4IA] at hts hte
      by_cases hx1 : id ∈ s.instr_dispatched_list
      · rw [hIA_disp id hx1] at hts hte ⊢
        rw [Instr.update_opecode]
        rw [Instr.update_t_start] at hts
        rw [Instr.update_t_end] at hte
        obtain ⟨st', hst', _⟩ := hInv.stD id hx1
        rw [hst'] at hte
        have hte2 : (if t = st' + s.clkOfOp ((s.instrAt id).opecode) - 1 then some t
            else (s.instrAt id).t_end) = none := hte
        by_cases hfir : t = st' + s.clkOfOp ((s.instrAt id).opecode) - 1
        · rw [if_pos hfir] at hte2
          exact absurd hte2 (fun hc => Option.noConfusion hc)
        · rw [if_neg hfir] at hte2
          exact le_deadline_run (hInv.bndD id hx1) hts hte2
      · by_cases hx2 : id ∈ batch
        · rw [hbe] at hx2
          exact absurd hx2 (List.not_mem_nil id)
        · rw [hIA_other id hx1 hx2] at hts hte ⊢
          by_cases hlt : id < s.arena.length
          · rcases hInv.part id hlt with h | h | h
            · rw [(hInv.unW id h).1] at hts
              exact absurd hts (fun hc => Option.noConfusion hc)
            · rw [(hInv.unR id h).1] at hts
              exact absurd hts (fun hc => Option.noConfusion hc)
            · exact absurd h hx1
          · rw [instrAt_oob (Nat.le_of_not_lt hlt)] at hts
            exact absurd hts (fun hc => Option.noConfusion hc)

theorem linv_dispatchCycle {t : Nat} {s : SchedState} (hL : LInv t s) :
    LInv (t + 1) (dispatchCycle s t).1 ∧
    (dispatchCycle s t).1.instr_wait_list.length +
      (dispatchCycle s t).1.ready_set.length + (dispatchCycle s t).2.length =
      s.instr_wait_list.length + s.ready_set.length ∧
    ((dispatchCycle s t).2 = [] → deadline (dispatchCycle s t).1 ≤ deadline s) := by
  have hInv := hL.base
  obtain ⟨hPI, hbs⟩ := dispatchPass_spec hInv
  have hWF0 : ∀ p : PoolTag, PoolWF (s.getPool p) := fun p =>
    ⟨hL.nextlt p, hL.ulen p, le_trans (Int.ofNat_nonneg _) (hInv.liv p), hInv.nb p⟩
  have hU := dispatchPass_units t s.ready_set (s, []) hWF0
  have hWF1 : ∀ p : PoolTag, PoolWF ((dispatchPass s t).1.getPool p) := hU.1
  have hMem1 : ∀ p : PoolTag, ∀ e ∈ ((dispatchPass s t).1.getPool p).unit_list,
      e ∈ (s.getPool p).unit_list ∨ e = (t, true) := hU.2.1
  have hTouch1 : ∀ p : PoolTag,
      (((dispatchPass s t).1.getPool p).n_busy = (s.getPool p).n_busy ∧
       ((dispatchPass s t).1.getPool p).unit_list = (s.getPool p).unit_list) ∨
      (t, true) ∈ ((dispatchPass s t).1.getPool p).unit_list := hU.2.2
  have hnil1 : (dispatchPass s t).2 = [] → (dispatchPass s t).1 = s := by
    intro h0
    exact (dispatchFold_batch_nil t s.ready_set (s, []) (by rw [show
      (s.ready_set.foldl (dispatchStep t) (s, [])).2 = (dispatchPass s t).2 from rfl,
      h0])).1
  by_cases hb : (dispatchPass s t).2.length > 0
  · have hcore := linv_after_cycle hL hPI hbs hWF1 hMem1 hTouch1 hnil1 rfl rfl rfl
    simp only [dispatchCycle]
    rw [if_pos hb]
    exact hcore
  · have hbe : (dispatchPass s t).2 = [] :=
      List.eq_nil_of_length_eq_zero (by omega)
    have hs2 : (dispatchPass s t).1 =
        { (dispatchPass s t).1 with
          ready_set := (dispatchPass s t).2.foldl List.erase
            (dispatchPass s t).1.ready_set
          instr_dispatched_list := (dispatchPass s t).1.instr_dispatched_list ++
            (dispatchPass s t).2 } := by
      rw [hbe, List.append_nil]
      rfl
    have hcore := linv_after_cycle hL hPI hbs hWF1 hMem1 hTouch1 hnil1 hs2 rfl rfl
    simp only [dispatchCycle]
    rw [if_neg hb]
    exact hcore

theorem dispatch_occurs {t : Nat} {s : SchedState} (hL : LInv t s)
    (hne : 0 < (s.instr_wait_list ++ s.ready_set).length)
    (hdl : deadline s ≤ t) :
    0 < (dispatchCycle s t).2.length := by
  have hInv := hL.base
  have hclk1 : ∀ p : PoolTag, 1 ≤ (s.getPool p).clocks := by
    intro p
    cases p
    · rw [show s.getPool PoolTag.alu = s.alu from rfl, hInv.clkA]
      decide
    · rw [show s.getPool PoolTag.fpu = s.fpu from rfl, hInv.clkF]
      decide
    · rw [show s.getPool PoolTag.memory = s.memory from rfl, hInv.clkM]
      decide
  by_contra hc
  have hb2 : (dispatchCycle s t).2 = (dispatchPass s t).2 := rfl
  have hbe : (dispatchPass s t).2 = [] := by
    rw [← hb2]
    exact List.eq_nil_of_length_eq_zero (by omega)
  obtain ⟨hsid, hsb, hfullAll⟩ := dispatchFold_batch_nil t s.ready_set (s, [])
    (by rw [show (s.ready_set.foldl (dispatchStep t) (s, [])).2 =
      (dispatchPass s t).2 from rfl, hbe])
  have hnorun : ∀ id, id < s.arena.length →
      ∀ st, (s.instrAt id).t_start = some st → (s.instrAt id).t_end ≠ none := by
    intro id hid st hts hte
    have h1 := hL.rnot id st hts hte
    have h2 := le_deadline_run hid hts hte
    have hc1 : 1 ≤ s.clkOfOp ((s.instrAt id).opecode) :=
      hclk1 (poolTagOf ((s.instrAt id).opecode))
    omega
  have hready_empty : s.ready_set = [] := by
    cases hrs : s.ready_set with
    | nil => rfl
    | cons a l =>
      exfalso
      have hid : a ∈ s.ready_set := by
        rw [hrs]
        exact List.mem_cons_self a l
      have hfull := hfullAll a hid
      have hfull2 : (((s.getPool (poolTagOf ((s.instrAt a).opecode))).n : Int) ==
          (s.getPool (poolTagOf ((s.instrAt a).opecode))).n_busy) = true := hfull
      have hnbn : (s.getPool (poolTagOf ((s.instrAt a).opecode))).n_busy =
          ((s.getPool (poolTagOf ((s.instrAt a).opecode))).n : Int) :=
        (beq_iff_eq.mp hfull2).symm
      obtain ⟨e, hm, hb, hfe⟩ := hL.pend (poolTagOf ((s.instrAt a).opecode)) hnbn
      have h1 := le_deadline_pool hm hb
      have hc1 := hclk1 (poolTagOf ((s.instrAt a).opecode))
      omega
  have hwd : ∀ u, u ∈ s.instr_wait_list → False := by
    intro u
    induction u using Nat.strong_induction_on with
    | _ u ih =>
      intro hu
      have hdd := hL.wblk u hu
      rw [depsDone, List.all_eq_false] at hdd
      obtain ⟨d, hdm, hdnd⟩ := hdd
      have hdlt : d < u := hL.gdep u d hdm
      have hulen : u < s.arena.length := hInv.bndW u hu
      have hdle : d < s.arena.length := by omega
      rcases hInv.part d hdle with h0 | h0 | h0
      · exact ih d hdlt h0
      · rw [hready_empty] at h0
        exact absurd h0 (List.not_mem_nil d)
      · obtain ⟨st, hst, _⟩ := hInv.stD d h0
        have hte : (s.instrAt d).t_end ≠ none := hnorun d hdle st hst
        cases hteq : (s.instrAt d).t_end with
        | none => exact hte hteq
        | some e =>
          have hdone : ((s.instrAt d).get_status == Status.DONE) = true :=
            (get_status_done_iff _).mpr ⟨e, hteq⟩
          rw [hdone] at hdnd
          exact hdnd rfl
  cases hw : s.instr_wait_list with
  | nil =>
    rw [hw, hready_empty] at hne
    simp at hne
  | cons a l =>
    exact hwd a (by rw [hw]; exact List.mem_cons_self a l)

theorem schedLoop_drains : ∀ (fuel m j : Nat) (s : SchedState) (t : Nat),
    LInv t s →
    s.instr_wait_list.length + s.ready_set.length = m →
    deadline s ≤ t + j →
    (m = 0 ∨ 5 * (m - 1) + j + 1 ≤ fuel) →
    (schedLoop fuel s t).1.instr_wait_list = [] ∧
    (schedLoop fuel s t).1.ready_set = [] := by
  intro fuel
  induction fuel with
  | zero =>
    intro m j s t hL hm hdl hcond
    rcases hcond with h0 | h0
    · have hw : s.instr_wait_list.length = 0 := by omega
      have hr : s.ready_set.length = 0 := by omega
      exact ⟨List.eq_nil_of_length_eq_zero hw, List.eq_nil_of_length_eq_zero hr⟩
    · exact absurd h0 (by omega)
  | succ fuel ih =>
    intro m j s t hL hm hdl hcond
    by_cases hc : (s.instr_wait_list ++ s.ready_set).length > 0
    · have hclen : 0 < s.instr_wait_list.length + s.ready_set.length := by
        rw [List.length_append] at hc
        omega
      obtain ⟨hL', hsum, hstall⟩ := linv_dispatchCycle hL
      simp only [schedLoop]
      rw [if_pos hc]
      by_cases hbp : 0 < (dispatchCycle s t).2.length
      · have hdl' : deadline (dispatchCycle s t).1 ≤ (t + 1) + 4 :=
          deadline_le_bound hL'
        exact ih (m - (dispatchCycle s t).2.length) 4 (dispatchCycle s t).1
          (t + 1) hL' (by omega) hdl' (by omega)
      · have hbe : (dispatchCycle s t).2 = [] :=
          List.eq_nil_of_length_eq_zero (by omega)
        have hdlr := hstall hbe
        have hj1 : 1 ≤ j := by
          by_contra hj0
          have hdl0 : deadline s ≤ t := by omega
          exact hbp (dispatch_occurs hL hc hdl0)
        exact ih m (j - 1) (dispatchCycle s t).1 (t + 1) hL' (by omega)
          (by omega) (by omega)
    · simp only [schedLoop]
      rw [if_neg hc]
      rw [List.length_append] at hc
      have hw : s.instr_wait_list.length = 0 := by omega
      have hr : s.ready_set.length = 0 := by omega
      exact ⟨List.eq_nil_of_length_eq_zero hw, List.eq_nil_of_length_eq_zero hr⟩

theorem linv_initial (bfFuel : Nat) (nA nF nM : Nat) (hA : 1 ≤ nA)
    (hF : 1 ≤ nF) (hM : 1 ≤ nM) (pt : String) (raw : List RawInstr) :
    LInv 0 (updateReadySet (setPriority bfFuel (setDependency
      (initState nA nF nM pt (mkArena raw))))) ∧
    (updateReadySet (setPriority bfFuel (setDependency
      (initState nA nF nM pt (mkArena raw))))).instr_wait_list.length +
      (updateReadySet (setPriority bfFuel (setDependency
      (initState nA nF nM pt (mkArena raw))))).ready_set.length = raw.length ∧
    deadline (updateReadySet (setPriority bfFuel (setDependency
      (initState nA nF nM pt (mkArena raw))))) ≤ 0 := by
  have hBase := inv_initial bfFuel nA nF nM pt raw
  have hw0 : (initState nA nF nM pt (mkArena raw)).instr_wait_list =
      List.range raw.length := by
    show List.range (mkArena raw).length = _
    rw [mkArena_length]
  have hlen0 : (initState nA nF nM pt (mkArena raw)).arena.length = raw.length :=
    mkArena_length raw
  have hGE := graphExtends_setDependency (N := raw.length) hw0 hlen0
  obtain ⟨g1, g2, g3, g4, g5, g6, g7, g8, g9, g10, g11⟩ := hGE
  have hPO := prioOnly_setPriority bfFuel
    (setDependency (initState nA nF nM pt (mkArena raw)))
  obtain ⟨p1, p2, p3, p4, p5, p6, p7, p8, p9⟩ := hPO
  set s0 := initState nA nF nM pt (mkArena raw) with hs0
  set s1' := setDependency s0 with hs1'
  set s2' := setPriority bfFuel s1' with hs2'
  have hwait : s2'.instr_wait_list = List.range raw.length := by
    rw [p4, g2]
    exact hw0
  have hready : s2'.ready_set = [] := by
    rw [p6, g4]
    rfl
  have hnd : s2'.instr_wait_list.Nodup := by
    rw [hwait]
    exact List.nodup_range raw.length
  have hcore : ∀ a, (s2'.instrAt a).t_start = none ∧
      (s2'.instrAt a).t_end = none := by
    intro a
    obtain ⟨p, hp⟩ := p9 a
    have hc := (coreOf_eq_iff.mp (g9 a)).2.2.2.2.2.2
    have hfr := mkArena_fresh raw a
    constructor
    · rw [hp]
      show (s1'.instrAt a).t_start = none
      rw [hc.1]
      exact hfr.2.2.2.1
    · rw [hp]
      show (s1'.instrAt a).t_end = none
      rw [hc.2]
      exact hfr.2.2.2.2
  have hdeps : ∀ a x, x ∈ (s2'.instrAt a).dependent_list → x < a := by
    intro a x hx
    obtain ⟨p, hp⟩ := p9 a
    rw [hp] at hx
    have hx2 : x ∈ (s1'.instrAt a).dependent_list := hx
    rcases (g10 a x).mp hx2 with h0 | h0
    · have h0' : x ∈ (instrOf (mkArena raw) a).dependent_list := h0
      rw [(mkArena_fresh raw a).1] at h0'
      exact absurd h0' (List.not_mem_nil x)
    · exact h0.2.1
  have hpA : s2'.alu = OpUnits.init nA Clocks.ALU := by
    rw [p1, g5]
    rfl
  have hpF : s2'.fpu = OpUnits.init nF Clocks.FPU := by
    rw [p2, g6]
    rfl
  have hpM : s2'.memory = OpUnits.init nM Clocks.MEMORY := by
    rw [p3, g7]
    rfl
  have hpool : ∀ p : PoolTag, ∃ k c, s2'.getPool p = OpUnits.init k c ∧ 1 ≤ k := by
    intro p
    cases p
    · exact ⟨nA, Clocks.ALU, hpA, hA⟩
    · exact ⟨nF, Clocks.FPU, hpF, hF⟩
    · exact ⟨nM, Clocks.MEMORY, hpM, hM⟩
  have hrIA : ∀ a, (updateReadySet s2').instrAt a = s2'.instrAt a := fun _ => rfl
  refine ⟨⟨hBase, ?_, ?_, ?_, ?_, ?_, ?_, ?_, ?_⟩, ?_, ?_⟩
  · intro id d hd
    rw [hrIA id] at hd
    exact hdeps id d hd
  · exact wblk_updateReadySet s2' hnd
  · intro id st0 hts _
    rw [hrIA id, (hcore id).1] at hts
    exact absurd hts (fun hc => Option.noConfusion hc)
  · intro p hfull
    rw [updateReadySet_pool] at hfull
    obtain ⟨k, c, hk, hk1⟩ := hpool p
    rw [hk] at hfull
    have hf2 : (0 : Int) = (k : Int) := hfull
    exact absurd hf2 (by omega)
  · intro p e hm hb
    rw [updateReadySet_pool] at hm
    obtain ⟨k, c, hk, hk1⟩ := hpool p
    rw [hk] at hm
    have he := List.eq_of_mem_replicate hm
    have hb2 : ((0, false) : Nat × Bool).2 = true := he ▸ hb
    exact absurd hb2 (by decide)
  · intro p
    rw [updateReadySet_pool]
    obtain ⟨k, c, hk, hk1⟩ := hpool p
    rw [hk]
    exact hk1
  · intro p
    rw [updateReadySet_pool]
    obtain ⟨k, c, hk, hk1⟩ := hpool p
    rw [hk]
    exact List.length_replicate k (0, false)
  · intro p
    rw [updateReadySet_pool]
    obtain ⟨k, c, hk, hk1⟩ := hpool p
    rw [hk]
    exact hk1
  · have hrw : (updateReadySet s2').instr_wait_list =
        (s2'.instr_wait_list.filter (fun i => depsDone s2' i)).foldl
          List.erase s2'.instr_wait_list := rfl
    have hrr : (updateReadySet s2').ready_set =
        (s2'.instr_wait_list.filter (fun i => depsDone s2' i)).foldl
          (heappush (readyLt s2')) s2'.ready_set := rfl
    have hlen1 := length_foldl_erase
      (s2'.instr_wait_list.filter (fun i => depsDone s2' i)) s2'.instr_wait_list
      (hnd.filter _) (fun x hx => List.mem_of_mem_filter hx) hnd
    have hlen2 : ((s2'.instr_wait_list.filter (fun i => depsDone s2' i)).foldl
        (heappush (readyLt s2')) s2'.ready_set).length =
        s2'.ready_set.length +
          (s2'.instr_wait_list.filter (fun i => depsDone s2' i)).length := by
      rw [(foldl_heappush_perm (readyLt s2') _ s2'.ready_set).length_eq,
        List.length_append]
    have hwl : s2'.instr_wait_list.length = raw.length := by
      rw [hwait, List.length_range]
    have hrl : s2'.ready_set.length = 0 := by
      rw [hready]
      rfl
    rw [hrw, hrr]
    omega
  · apply deadline_le
    · intro p e hm hb
      rw [updateReadySet_pool] at hm
      obtain ⟨k, c, hk, hk1⟩ := hpool p
      rw [hk] at hm
      have he := List.eq_of_mem_replicate hm
      have hb2 : ((0, false) : Nat × Bool).2 = true := he ▸ hb
      exact absurd hb2 (by decide)
    · intro id st hts _
      rw [hrIA id, (hcore id).1] at hts
      exact absurd hts (fun hc => Option.noConfusion hc)

/-- C3: for every finite instruction list, positive unit counts and a valid
priority-heuristic name, the simulation loop of `Scheduler.schedule`
terminates with the wait list and the ready set both empty, within a cycle
budget of (number of instructions) × (maximum unit latency): any fuel of at
least that many cycles fully drains both sets. -/
theorem c3_schedule_empties_wait_and_ready_within_bound (bf nA nF nM : Nat)
    (hA : 1 ≤ nA) (hF : 1 ≤ nF) (hM : 1 ≤ nM) (pt : String)
    (hpt : pt = "time" ∨ pt = "resource") (raw : List RawInstr) (lf : Nat)
    (hlf : raw.length * Nat.max Clocks.ALU (Nat.max Clocks.FPU Clocks.MEMORY) ≤ lf) :
    (schedule bf lf (initState nA nF nM pt (mkArena raw))).1.instr_wait_list = [] ∧
    (schedule bf lf (initState nA nF nM pt (mkArena raw))).1.ready_set = [] := by
  obtain ⟨hL0, hsum, hdl⟩ := linv_initial bf nA nF nM hA hF hM pt raw
  have hmax : Nat.max Clocks.ALU (Nat.max Clocks.FPU Clocks.MEMORY) = 5 := rfl
  rw [hmax] at hlf
  exact schedLoop_drains lf raw.length 0
    (updateReadySet (setPriority bf (setDependency
      (initState nA nF nM pt (mkArena raw))))) 0 hL0 hsum (by omega) (by omega)

theorem c3_schedule_empties_witness :
    (schedule 4 10 (initState 1 1 1 "time" (mkArena c4wraw))).1.instr_wait_list = [] ∧
    (schedule 4 10 (initState 1 1 1 "time" (mkArena c4wraw))).1.ready_set = [] :=
  c3_schedule_empties_wait_and_ready_within_bound 4 1 1 1 (by decide) (by decide)
    (by decide) "time" (Or.inl rfl) c4wraw 10 (by decide)

theorem c5_busy_never_exceeds_units
    (bf lf nA nF nM : Nat) (pt : String) (raw : List RawInstr)
    (p : PoolTag) (t0 : Nat) :
    busyCount (schedule bf lf (initState nA nF nM pt (mkArena raw))).1
      ((schedule bf lf (initState nA nF nM pt (mkArena raw))).1.instr_dispatched_list)
      p t0 ≤
      (match p with
       | PoolTag.alu => nA
       | PoolTag.fpu => nF
       | PoolTag.memory => nM) := by
  obtain ⟨tf, hInv⟩ := inv_schedule bf lf nA nF nM pt raw
  have hn : (((schedule bf lf (initState nA nF nM pt (mkArena raw))).1.getPool p)).n =
      (match p with
       | PoolTag.alu => nA
       | PoolTag.fpu => nF
       | PoolTag.memory => nM) := by
    rw [schedule_pool_n]
    cases p <;> rfl
  rw [← hn]
  by_cases hlt : t0 < tf
  · exact hInv.hist p t0 hlt
  · have h1 := busyCount_le_liveCount (schedule bf lf (initState nA nF nM pt (mkArena raw))).1
      ((schedule bf lf (initState nA nF nM pt (mkArena raw))).1.instr_dispatched_list) p t0
    have h2 := liveCount_anti (schedule bf lf (initState nA nF nM pt (mkArena raw))).1
      ((schedule bf lf (initState nA nF nM pt (mkArena raw))).1.instr_dispatched_list) p
      (show tf ≤ t0 by omega)
    have h3 := hInv.liv p
    have h4 := hInv.nb p
    omega

end ListScheduling
